import Mathlib

/-!
Verification of the scanner engine core.

Shallow embedding of `scanner/engine/sampling.cpp`, `scanner/engine/load_worker.cpp`
and `scanner/engine/master.cpp`, followed by theorems about the embedded functions.

Conventions of the embedding:

* `std::vector<T>` is `List T`, `i64` values are `Int`, indices (`size_t`, loop counters that
  only count upwards from zero) are `Nat`.  Signed overflow is undefined behaviour in C++, so
  signed arithmetic is modelled over `Int`; unsigned 64-bit arithmetic wraps modulo `2 ^ 64`.
* A function whose execution can hit a failing `assert` or an out-of-range read returns
  `Option`; `none` stands for "the execution aborts / is undefined".
-/

namespace scanner

/-! ## `sampling.cpp` : data -/

/-- Record `RowIntervals` returned by `slice_into_row_intervals`: three parallel arrays. -/
structure RowIntervals where
  item_ids : List Nat
  item_intervals : List (Int × Int)
  valid_offsets : List (List Int)
deriving DecidableEq, Repr

/-- Record `VideoIntervals` returned by `slice_into_video_intervals`: two parallel arrays. -/
structure VideoIntervals where
  keyframe_index_intervals : List (Nat × Nat)
  valid_frames : List (List Int)
deriving DecidableEq, Repr

/-! ## `sampling.cpp` : `slice_into_row_intervals` -/

/-- Loop of the lambda `item_from_row`, started at index `i` on the part of `end_rows` from `i`
on: `for (; i < end_rows.size(); ++i) if (r < end_rows[i]) break;` then
`assert(i != end_rows.size()); return i;`. -/
def item_from_row_loop (r : Int) : List Int → Nat → Option Nat
  | [], _ => none
  | e :: rest, i => if r < e then some i else item_from_row_loop r rest (i + 1)

/-- Lambda `item_from_row` of `slice_into_row_intervals` (`i` starts at 0).  The result is
an index below `end_rows.size()`, the size of a protobuf repeated field and so below `2 ^ 31`:
the conversion of `i` to the `i32` return type keeps its value. -/
def item_from_row (end_rows : List Int) (r : Int) : Option Nat :=
  item_from_row_loop r end_rows 0

/-- Loop of the lambda `offset_from_row` with the accumulator `sum`:
`for (...) { if (r < end_rows[i]) break; sum += end_rows[i]; }` then the assert and
`return r - sum;`. -/
def offset_from_row_loop (r : Int) : List Int → Int → Option Int
  | [], _ => none
  | e :: rest, sum => if r < e then some (r - sum) else offset_from_row_loop r rest (sum + e)

/-- Lambda `offset_from_row` of `slice_into_row_intervals` (`sum` starts at 0). -/
def offset_from_row (end_rows : List Int) (r : Int) : Option Int :=
  offset_from_row_loop r end_rows 0

/-- Local variables of `slice_into_row_intervals` that live across loop iterations. -/
structure RowSliceState where
  current_item : Nat
  item_start : Int
  item_end : Int
  valid_offsets : List Int
  info : RowIntervals
deriving DecidableEq, Repr

/-- The three `push_back`s that emit the current item into `info`. -/
def RowIntervals.emit (info : RowIntervals) (item : Nat) (item_start item_end : Int)
    (valid_offsets : List Int) : RowIntervals :=
  { item_ids := info.item_ids ++ [item]
    item_intervals := info.item_intervals ++ [(item_start, item_end)]
    valid_offsets := info.valid_offsets ++ [valid_offsets] }

/-- Body of `for (i64 row : rows)` in `slice_into_row_intervals`. -/
def row_step (end_rows : List Int) (st : RowSliceState) (row : Int) : Option RowSliceState :=
  match item_from_row end_rows row, offset_from_row end_rows row with
  | some item, some item_offset =>
    let st1 : RowSliceState :=
      if item ≠ st.current_item then
        { current_item := item
          item_start := item_offset
          item_end := item_offset + 1
          valid_offsets := []
          info := st.info.emit st.current_item st.item_start st.item_end st.valid_offsets }
      else st
    some { st1 with valid_offsets := st1.valid_offsets ++ [item_offset]
                    item_end := item_offset + 1 }
  | _, _ => none

/-- Function `slice_into_row_intervals(table, rows)`; the table enters only through
`table.end_rows()`. -/
def slice_into_row_intervals (end_rows rows : List Int) : Option RowIntervals :=
  match rows with
  | [] => none
  | r0 :: _ =>
    match item_from_row end_rows r0, offset_from_row end_rows r0 with
    | some current_item, some item_start =>
      (rows.foldlM (row_step end_rows)
        { current_item := current_item
          item_start := item_start
          item_end := item_start + 1
          valid_offsets := []
          info := ⟨[], [], []⟩ }).map
        fun st => st.info.emit st.current_item st.item_start st.item_end st.valid_offsets
    | _, _ => none

/-! ## `sampling.cpp` : `slice_into_video_intervals` -/

/-- Inner loop `while (row >= keyframe_positions[end_keyframe_index])
{ end_keyframe_index++; assert(end_keyframe_index < keyframe_positions.size()); }`.
The first argument bounds the number of iterations; the loop leaves through the assert
before `keyframe_positions.size()` iterations are done. -/
def skip_keyframes (keyframe_positions : List Int) (row : Int) : Nat → Nat → Option Nat
  | 0, _ => none
  | fuel + 1, end_keyframe_index =>
    match keyframe_positions[end_keyframe_index]? with
    | none => none
    | some k =>
      if row ≥ k then
        if end_keyframe_index + 1 < keyframe_positions.length then
          skip_keyframes keyframe_positions row fuel (end_keyframe_index + 1)
        else none
      else some end_keyframe_index

/-- Local variables of `slice_into_video_intervals` that live across loop iterations. -/
structure VideoSliceState where
  start_keyframe_index : Nat
  end_keyframe_index : Nat
  next_keyframe : Int
  valid_frames : List Int
  info : VideoIntervals
deriving DecidableEq, Repr

/-- The two `push_back`s that emit a run into `info`. -/
def VideoIntervals.emit (info : VideoIntervals) (s e : Nat) (valid_frames : List Int) :
    VideoIntervals :=
  { keyframe_index_intervals := info.keyframe_index_intervals ++ [(s, e)]
    valid_frames := info.valid_frames ++ [valid_frames] }

/-- Body of `for (i64 row : rows)` in `slice_into_video_intervals`. -/
def video_step (keyframe_positions : List Int) (st : VideoSliceState) (row : Int) :
    Option VideoSliceState :=
  if row ≥ st.next_keyframe then
    if st.end_keyframe_index < keyframe_positions.length - 1 then
      let e1 := st.end_keyframe_index + 1
      match keyframe_positions[e1]? with
      | none => none
      | some next1 =>
        if row ≥ next1 then
          let info1 :=
            if st.valid_frames ≠ [] then
              st.info.emit st.start_keyframe_index (e1 - 1) st.valid_frames
            else st.info
          match skip_keyframes keyframe_positions row keyframe_positions.length e1 with
          | none => none
          | some e2 =>
            match keyframe_positions[e2]? with
            | none => none
            | some next2 =>
              some { start_keyframe_index := e2 - 1
                     end_keyframe_index := e2
                     next_keyframe := next2
                     valid_frames := [row]
                     info := info1 }
        else
          some { st with end_keyframe_index := e1
                         next_keyframe := next1
                         valid_frames := st.valid_frames ++ [row] }
    else none
  else some { st with valid_frames := st.valid_frames ++ [row] }

/-- Function `slice_into_video_intervals(keyframe_positions, rows)`. -/
def slice_into_video_intervals (keyframe_positions rows : List Int) : Option VideoIntervals :=
  if 2 ≤ keyframe_positions.length then
    match keyframe_positions[1]? with
    | none => none
    | some next_keyframe =>
      (rows.foldlM (video_step keyframe_positions)
        { start_keyframe_index := 0
          end_keyframe_index := 1
          next_keyframe := next_keyframe
          valid_frames := []
          info := ⟨[], []⟩ }).map
        fun st => st.info.emit st.start_keyframe_index st.end_keyframe_index st.valid_frames
  else none

/-! ## `load_worker.cpp` : `read_other_column` -/

/-- Two to the 64, the modulus of `u64` / `size_t` arithmetic. -/
def u64_mod : Nat := 2 ^ 64

/-- Conversion of an `i64` to `u64` (`start_offset += row_sizes[i]`,
`static_cast<size_t>(row_sizes[i])`): the value modulo two to the 64. -/
def to_u64 (x : Int) : Nat := (x % (u64_mod : Int)).toNat

/-- Reading the bits of a `u64` as an `i64` (two's complement). -/
def to_i64 (n : Nat) : Int := if n < 2 ^ 63 then (n : Int) else (n : Int) - (u64_mod : Int)

/-- Value of a byte string read as a little-endian unsigned integer: what the raw copy of
file bytes into a `u64` / `i64` object yields on the x86-64 targets of the engine. -/
def le_value : List Nat → Nat
  | [] => 0
  | b :: bs => b + 256 * le_value bs

/-- The `width` little-endian bytes of `n`: the inverse layout, used to write item files. -/
def le_bytes : Nat → Nat → List Nat
  | 0, _ => []
  | width + 1, n => n % 256 :: le_bytes width (n / 256)

/-- Modelled from the spec: the storage helper `s_read(file, dst, n, pos)` of the
random-read-file interface (`read(dst, n, &pos)`), whose code is not part of the sources.
It copies the `n` bytes of the file at `pos` and advances `pos` by `n`; a read that the
file cannot serve is fatal. -/
def s_read (file : List Nat) (n pos : Nat) : Option (List Nat × Nat) :=
  if pos + n ≤ file.length then some ((file.drop pos).take n, pos + n) else none

/-- Contents of `std::vector<i64> row_sizes(num_rows)` after the raw bytes of the header
have been copied over its zero-initialised storage. -/
def decode_i64s : Nat → List Nat → List Int
  | 0, _ => []
  | n + 1, bytes => to_i64 (le_value (bytes.take 8)) :: decode_i64s n (bytes.drop 8)

/-- Element access `v[i]` with a signed index: undefined outside `0 <= i < v.size()`. -/
def get_at {α : Type} (v : List α) (i : Int) : Option α :=
  if 0 ≤ i then v[i.toNat]? else none

/-- The values `lo, lo + 1, ..., hi - 1` taken by the counter of `for (i = lo; i < hi; ++i)`. -/
def int_range (lo hi : Int) : List Int :=
  (List.range (hi - lo).toNat).map fun (k : Nat) => lo + (k : Int)

/-- Body of the two summation loops, `acc += row_sizes[i]` on a `u64` accumulator. -/
def add_row_size (row_sizes : List Int) (acc : Nat) (i : Int) : Option Nat :=
  (get_at row_sizes i).map fun sz => (acc + to_u64 sz) % u64_mod

/-- Local variables of the extraction loop of `read_other_column`; `row_list` is the output
column, one byte string per inserted row. -/
structure ExtractState where
  offset : Nat
  valid_idx : Nat
  row_list : List (List Nat)
deriving DecidableEq, Repr

/-- Body of `for (i32 i = item_start; i < item_end; ++i)` in `read_other_column`.  The read
`valid_offsets[valid_idx]` is undefined once `valid_idx` has reached the size of the vector,
and so is a `memcpy` that leaves `row_data`. -/
def extract_step (row_sizes valid_offsets : List Int) (row_data : List Nat)
    (st : ExtractState) (i : Int) : Option ExtractState :=
  match get_at row_sizes i with
  | none => none
  | some sz =>
    let buffer_size := to_u64 sz
    match valid_offsets[st.valid_idx]? with
    | none => none
    | some v =>
      if i = v then
        if st.offset + buffer_size ≤ row_data.length then
          some { offset := (st.offset + buffer_size) % u64_mod
                 valid_idx := st.valid_idx + 1
                 row_list := st.row_list ++ [(row_data.drop st.offset).take buffer_size] }
        else none
      else some { st with offset := (st.offset + buffer_size) % u64_mod }

/-- What a call of `read_other_column` leaves behind: the output column and the `(pos, size)`
of every read it issued on the item file, in order. -/
structure ReadOtherResult where
  row_list : List (List Nat)
  reads : List (Nat × Nat)
deriving DecidableEq, Repr

/-- Function `read_other_column(storage, table_id, column_id, item_id, item_start, item_end,
rows, row_list)`; `file` is the content of the item file that the three ids select and
`rows` is called `valid_offsets` as in the body.  The `i32` parameters `item_start` and
`item_end` are integers; the loop counters stay between them. -/
def read_other_column (file : List Nat) (item_start item_end : Int) (valid_offsets : List Int)
    (row_list : List (List Nat)) : Option ReadOtherResult :=
  match s_read file 8 0 with
  | none => none
  | some (num_rows_bytes, pos1) =>
    let num_rows := le_value num_rows_bytes
    match s_read file ((num_rows * 8) % u64_mod) pos1 with
    | none => none
    | some (row_sizes_bytes, pos2) =>
      let row_sizes := decode_i64s num_rows row_sizes_bytes
      match (int_range 0 item_start).foldlM (add_row_size row_sizes) 0 with
      | none => none
      | some start_offset =>
        match (int_range item_start item_end).foldlM (add_row_size row_sizes) start_offset with
        | none => none
        | some end_offset =>
          let row_data_size := (end_offset + u64_mod - start_offset) % u64_mod
          let pos3 := (pos2 + start_offset) % u64_mod
          match s_read file row_data_size pos3 with
          | none => none
          | some (row_data, _) =>
            match (int_range item_start item_end).foldlM
                (extract_step row_sizes valid_offsets row_data) ⟨0, 0, row_list⟩ with
            | none => none
            | some st =>
              if st.valid_idx = valid_offsets.length then
                some { row_list := st.row_list
                       reads := [(0, 8), (pos1, (num_rows * 8) % u64_mod),
                                 (pos3, row_data_size)] }
              else none

/-- Modelled from the spec: the item file of an `Other` column, written by a stage whose
code is not part of the sources: a header `[u64 num_rows][i64 row_sizes[num_rows]]` followed
by the `num_rows` row blobs concatenated in row order. -/
def item_file (blobs : List (List Nat)) : List Nat :=
  le_bytes 8 blobs.length ++ (blobs.map fun b => le_bytes 8 b.length).flatten ++ blobs.flatten

/-! ## `master.cpp` : `validate_task_set` -/

/-- Message `proto::Result` : the success flag and the message. -/
structure Result where
  success : Bool
  msg : String
deriving DecidableEq, Repr

/-- Modelled from the spec: the macro `RESULT_ERROR(result, fmt, ...)`, defined in a header
outside the sources.  A rejection is surfaced as `Result{success=false, msg}`: the macro marks
the result failed and stores the formatted message. -/
def RESULT_ERROR (_result : Result) (msg : String) : Result :=
  { success := false, msg := msg }

/-- Call `result->set_success(false)`; the message stays as it is. -/
def Result.set_success_false (result : Result) : Result :=
  { result with success := false }

/-- Message `proto::TableSample`, as far as validation reads it. -/
structure TableSample where
  table_name : String
  column_names : List String
deriving DecidableEq, Repr

/-- Message `proto::Task`. -/
structure Task where
  output_table_name : String
  samples : List TableSample
deriving DecidableEq, Repr

/-- Enumeration `DeviceType`. -/
inductive DeviceType where
  | CPU
  | GPU
deriving DecidableEq, Repr

/-- Message `proto::OpInput`: the index of the producing op and the columns taken from it. -/
structure OpInput where
  op_index : Int
  columns : List String
deriving DecidableEq, Repr

/-- Message `proto::Op`. -/
structure Op where
  name : String
  inputs : List OpInput
  device_type : DeviceType
deriving DecidableEq, Repr

/-- Message `proto::TaskSet`. -/
structure TaskSet where
  tasks : List Task
  ops : List Op
deriving DecidableEq, Repr

/-- Modelled from the spec: the class `DatabaseMetadata`, declared outside the sources: the
names in the name-to-id index of the tables and the known job names, both in the order of
their ids (ids are dense and never reused). -/
structure DatabaseMetadata where
  table_names : List String
  job_names : List String
deriving DecidableEq, Repr

/-- Modelled from the spec: the method `DatabaseMetadata::has_table`, a lookup of the name
in the table index. -/
def DatabaseMetadata.has_table (meta : DatabaseMetadata) (name : String) : Bool :=
  decide (name ∈ meta.table_names)

/-- The process-wide op registry as validation queries it: `has_op(name)` holds when the
lookup is `some`, and then the value is `get_op_info(name)->output_columns()`. -/
abbrev OpRegistry := String → Option (List String)

/-- The process-wide kernel registry: `has_kernel(name, device_type)`. -/
abbrev KernelRegistry := String → DeviceType → Bool

/-- Body of `for (auto &sample : task.samples())` in `validate_task_set`. -/
def validate_sample (meta : DatabaseMetadata) (result : Result) (sample : TableSample) :
    Result :=
  let r1 := if !meta.has_table sample.table_name then result.set_success_false else result
  if sample.column_names.length = 0 then r1.set_success_false else r1

/-- Body of `for (auto &task : task_set.tasks())` in `validate_task_set`; the state is the set
`task_output_table_names` and the result. -/
def validate_task (meta : DatabaseMetadata) (st : List String × Result) (task : Task) :
    List String × Result :=
  let r1 := if task.output_table_name = "" then st.2.set_success_false else st.2
  let r2 := if meta.has_table task.output_table_name then r1.set_success_false else r1
  let r3 := if decide (task.output_table_name ∈ st.1) then r2.set_success_false else r2
  let names := task.output_table_name :: st.1
  if task.samples.length = 0 then (names, r3.set_success_false)
  else (names, task.samples.foldl (validate_sample meta) r3)

/-- Checked access `v.at(i)` with an `i32` index converted to `size_t`: `none` stands for the
`std::out_of_range` exception, thrown for a negative index as well. -/
def vector_at {α : Type} (v : List α) (i : Int) : Option α :=
  if 0 ≤ i then v[i.toNat]? else none

/-- Body of `for (auto &col : input.columns())`: the search of `col` in the outputs of the
input op and the error when it is not found. -/
def check_column (op_name : String) (op_idx : Int) (input_op_name : String)
    (input_op_index : Int) (inputs : List String) (result : Result) (col : String) : Result :=
  if inputs.any (fun out_col => col == out_col) then result
  else RESULT_ERROR result
    ("Op " ++ op_name ++ " at index " ++ toString op_idx ++ " requested column " ++ col ++
      " from input Op " ++ input_op_name ++ " at index " ++ toString input_op_index ++
      " but that Op does not have the requsted column.")

/-- Body of `for (auto &input : op.inputs())` in `validate_task_set`.  The second component
tells whether an `at` has thrown; a throw leaves the result as it was at that point. -/
def check_input (op_names : List String) (op_outputs : List (List String)) (op_name : String)
    (op_idx : Int) (result : Result) (input : OpInput) : Result × Bool :=
  if input.op_index ≥ op_idx then
    (RESULT_ERROR result
      ("Op " ++ op_name ++ " at index " ++ toString op_idx ++ " referenced input index " ++
        toString input.op_index ++ ".Ops must be specified in topo sort order."), false)
  else
    match vector_at op_names input.op_index, vector_at op_outputs input.op_index with
    | some input_op_name, some inputs =>
      (input.columns.foldl
        (check_column op_name op_idx input_op_name input.op_index inputs) result, false)
    | _, _ => (result, true)

/-- The loop `for (auto &input : op.inputs())`, left at the first throw. -/
def check_inputs (op_names : List String) (op_outputs : List (List String)) (op_name : String)
    (op_idx : Int) : Result → List OpInput → Result × Bool
  | result, [] => (result, false)
  | result, input :: rest =>
    match check_input op_names op_outputs op_name op_idx result input with
    | (r, true) => (r, true)
    | (r, false) => check_inputs op_names op_outputs op_name op_idx r rest

/-- Local variables of the op loop of `validate_task_set`. -/
structure OpLoopState where
  op_idx : Int
  op_names : List String
  op_outputs : List (List String)
  result : Result
deriving DecidableEq, Repr

/-- How an iteration of the op loop ends: it goes on to the next op, it leaves the loop
through `break`, or an exception leaves the function. -/
inductive LoopExit where
  | next
  | brk
  | thrown
deriving DecidableEq, Repr

/-- Body of `for (auto &op : task_set.ops())` in `validate_task_set`. -/
def validate_op (op_registry : OpRegistry) (kernel_registry : KernelRegistry)
    (st : OpLoopState) (op : Op) : OpLoopState × LoopExit :=
  let op_names := st.op_names ++ [op.name]
  if st.op_idx = 0 then
    if op.name ≠ "InputTable" then
      ({ st with op_names := op_names
                 result := RESULT_ERROR st.result
                   ("First Op is " ++ op.name ++ " but must be Op InputTable") }, .brk)
    else
      ({ op_idx := st.op_idx + 1
         op_names := op_names
         op_outputs := st.op_outputs ++ [(op.inputs.map fun input => input.columns).flatten]
         result := st.result }, .next)
  else
    let st1 : OpLoopState :=
      if op.name ≠ "OutputTable" then
        let r1 :=
          match op_registry op.name with
          | none => RESULT_ERROR st.result ("Op " ++ op.name ++ " is not registered.")
          | some _ => st.result
        let outputs :=
          match op_registry op.name with
          | none => []
          | some output_columns => output_columns
        let r2 :=
          if !kernel_registry op.name op.device_type then
            RESULT_ERROR r1
              ("Op " ++ op.name ++ " at index " ++ toString st.op_idx ++
                " requested kernel with device type " ++
                (if op.device_type = DeviceType.CPU then "CPU" else "GPU") ++
                " but no such kernel exists.")
          else r1
        { st with op_names := op_names, op_outputs := st.op_outputs ++ [outputs], result := r2 }
      else { st with op_names := op_names }
    match check_inputs st1.op_names st1.op_outputs op.name st1.op_idx st1.result op.inputs with
    | (r, true) => ({ st1 with result := r }, .thrown)
    | (r, false) => ({ st1 with result := r, op_idx := st1.op_idx + 1 }, .next)

/-- The op loop of `validate_task_set`; the flag tells whether an exception ended it. -/
def validate_ops_loop (op_registry : OpRegistry) (kernel_registry : KernelRegistry) :
    OpLoopState → List Op → OpLoopState × Bool
  | st, [] => (st, false)
  | st, op :: rest =>
    match validate_op op_registry kernel_registry st op with
    | (st1, .next) => validate_ops_loop op_registry kernel_registry st1 rest
    | (st1, .brk) => (st1, false)
    | (st1, .thrown) => (st1, true)

/-- The checks on `op_names` that follow the op loop. -/
def validate_op_names (op_names : List String) (result : Result) : Result :=
  if op_names.length < 3 then
    RESULT_ERROR result
      ("Task set must specify at least three Ops: an InputTable Op, any other Op, and an " ++
        "OutputTable Op. However, only " ++ toString op_names.length ++ " Ops were specified.")
  else
    let r1 :=
      if op_names.head? ≠ some "InputTable" then
        RESULT_ERROR result
          ("First Op is " ++ (op_names.head?.getD "") ++ " but must be InputTable")
      else result
    if op_names.getLast? ≠ some "OutputTable" then
      RESULT_ERROR r1 ("Last Op is " ++ (op_names.getLast?.getD "") ++ " but must be OutputTable")
    else r1

/-- Function `validate_task_set(meta, task_set, result)`.  The first component is the
`Result` object the call leaves behind, the second tells whether the call ended with an
exception instead of returning. -/
def validate_task_set (op_registry : OpRegistry) (kernel_registry : KernelRegistry)
    (meta : DatabaseMetadata) (task_set : TaskSet) (result : Result) : Result × Bool :=
  let r1 := (task_set.tasks.foldl (validate_task meta) ([], result)).2
  match validate_ops_loop op_registry kernel_registry
      { op_idx := 0, op_names := [], op_outputs := [], result := r1 } task_set.ops with
  | (st, true) => (st.result, true)
  | (st, false) => (validate_op_names st.op_names st.result, false)

/-! ## `master.cpp` : `MasterImpl::NextWork` -/

/-- The class `TaskSampler`, declared outside the sources, enters as a parameter: what the
master observes of one sampler is the result of `validate()`, the value of `total_samples()`,
and the outcome of the `k`-th call (counted from 0) of `next_work`: `none` for a non-success
result, `some id` for a success that wrote `id` into `new_work.io_item.item_id`. -/
structure TaskSampler where
  validate : Bool
  total_samples : Int
  next_work : Nat → Option Int

/-- Members of `MasterImpl` that `NextWork` reads and writes.  `task_sampler` holds the
sampler `task_sampler_` points to, with the number of `next_work` calls made on it. -/
structure MasterState where
  total_samples_used : Int
  next_task : Int
  num_tasks : Int
  task_sampler : Option (TaskSampler × Nat)
  samples_left : Int
  task_result : Bool

/-- First block of `NextWork` (`if (samples_left_ <= 0) { ... }`).  `tasks` lists, per task of
the job, the sampler that `new TaskSampler(table_metas_, tasks(next_task_))` builds.  The
flag tells whether the block has returned the sentinel itself. -/
def NextWork_select_task (tasks : List TaskSampler) (s : MasterState) :
    Option (MasterState × Bool) :=
  if s.samples_left ≤ 0 then
    if s.next_task < s.num_tasks ∧ s.task_result = true then
      match get_at tasks s.next_task with
      | none => none
      | some sampler =>
        let s1 := { s with task_sampler := some (sampler, 0), task_result := sampler.validate }
        if s1.task_result = true then
          some ({ s1 with samples_left := sampler.total_samples
                          next_task := s1.next_task + 1 }, false)
        else some (s1, false)
    else some (s, true)
  else some (s, false)

/-- Method `MasterImpl::NextWork`: the state after the call and the `io_item.item_id` of the
reply (`-1` is the sentinel); `none` when `assert(samples_left_ > 0)` fails or the call
is undefined.  The progress bar is not part of the state. -/
def NextWork (tasks : List TaskSampler) (s : MasterState) : Option (MasterState × Int) :=
  match NextWork_select_task tasks s with
  | none => none
  | some (s1, true) => some (s1, -1)
  | some (s1, false) =>
    if s1.task_result = false then some (s1, -1)
    else if s1.samples_left > 0 then
      match s1.task_sampler with
      | none => none
      | some (sampler, calls) =>
        match sampler.next_work calls with
        | none =>
          some ({ s1 with task_sampler := some (sampler, calls + 1), task_result := false }, -1)
        | some item_id =>
          some ({ s1 with task_sampler := some (sampler, calls + 1)
                          task_result := true
                          samples_left := s1.samples_left - 1
                          total_samples_used := s1.total_samples_used + 1 }, item_id)
    else none

/-- The state in which `NewJob` leaves the members before any `NextWork` call of the job:
`total_samples_used_ = 0`, `task_result_` success, `samples_left_ = 0`, `next_task_ = 0`,
`num_tasks_ = tasks_size()`; `task_sampler_` is whatever an earlier job left. -/
def NewJob_state (tasks : List TaskSampler) (task_sampler : Option (TaskSampler × Nat)) :
    MasterState :=
  { total_samples_used := 0
    next_task := 0
    num_tasks := tasks.length
    task_sampler := task_sampler
    samples_left := 0
    task_result := true }

/-- The replies of `n` consecutive `NextWork` calls and the state after them. -/
def NextWork_calls (tasks : List TaskSampler) : Nat → MasterState → Option (MasterState × List Int)
  | 0, s => some (s, [])
  | n + 1, s =>
    match NextWork tasks s with
    | none => none
    | some (s1, item_id) =>
      (NextWork_calls tasks n s1).map fun p => (p.1, item_id :: p.2)

/-- The job total `total_samples`: the sum over the tasks of `total_samples()`. -/
def total_samples (tasks : List TaskSampler) : Int :=
  (tasks.map fun t => t.total_samples).sum

/-! ## Specification-side definitions -/

/-- First global row of item `i`: `i == 0 ? 0 : end_rows[i-1]`. -/
def item_first_row (end_rows : List Int) (i : Nat) : Int :=
  if i = 0 then 0 else end_rows.getD (i - 1) 0

/-- Two rows lie in the same item (as `item_from_row` finds it). -/
def same_item (end_rows : List Int) (a b : Int) : Bool :=
  item_from_row end_rows a == item_from_row end_rows b

/-- The maximal runs of consecutive rows lying in the same item. -/
def row_runs (end_rows rows : List Int) : List (List Int) :=
  rows.splitBy (same_item end_rows)

/-- Item found for the first row of a run. -/
def run_item (end_rows run : List Int) : Nat :=
  (item_from_row end_rows (run.headD 0)).getD 0

/-- Offset that `offset_from_row` computes for a row. -/
def row_offset (end_rows : List Int) (r : Int) : Int :=
  (offset_from_row end_rows r).getD 0

/-- The entry of `item_intervals` for a run: offset of its first row, offset of its last row
plus one. -/
def run_interval (end_rows run : List Int) : Int × Int :=
  (row_offset end_rows (run.headD 0), row_offset end_rows (run.getLastD 0) + 1)

/-- The three parallel arrays built run by run. -/
def row_intervals_of_runs (end_rows : List Int) (runs : List (List Int)) : RowIntervals :=
  { item_ids := runs.map (run_item end_rows)
    item_intervals := runs.map (run_interval end_rows)
    valid_offsets := runs.map fun run => run.map (row_offset end_rows) }

/-- The stored offsets re-keyed to global row indices (each offset of entry `k` plus the first
row of item `item_ids[k]`) and concatenated over `k`. -/
def global_rows (end_rows : List Int) (info : RowIntervals) : List Int :=
  (List.zipWith (fun i offsets => offsets.map fun o => o + item_first_row end_rows i)
    info.item_ids info.valid_offsets).flatten

/-- Loop invariant of `slice_into_video_intervals` after the rows `done` have been consumed. -/
structure VideoInv (kp : List Int) (done : List Int) (st : VideoSliceState) : Prop where
  start_lt_end : st.start_keyframe_index < st.end_keyframe_index
  end_lt_size : st.end_keyframe_index < kp.length
  next_eq : st.next_keyframe = kp.getD st.end_keyframe_index 0
  fresh : done = [] → st.end_keyframe_index = 1
  last_row : ∀ r, done.getLast? = some r →
    kp.getD (st.end_keyframe_index - 1) 0 ≤ r ∧ r < kp.getD st.end_keyframe_index 0
  frames : ∀ f ∈ st.valid_frames,
    kp.getD st.start_keyframe_index 0 ≤ f ∧ f < kp.getD st.end_keyframe_index 0
  concat : st.info.valid_frames.flatten ++ st.valid_frames = done
  emitted : List.Forall₂ (fun (iv : Nat × Nat) (fs : List Int) =>
      iv.1 < iv.2 ∧ iv.2 < kp.length ∧ ∀ f ∈ fs, kp.getD iv.1 0 ≤ f ∧ f < kp.getD iv.2 0)
    st.info.keyframe_index_intervals st.info.valid_frames
  ordered : st.info.keyframe_index_intervals.Chain' (fun a b => a.2 ≤ b.1)
  before_start : ∀ iv, st.info.keyframe_index_intervals.getLast? = some iv →
    iv.2 ≤ st.start_keyframe_index

/-- Invariant of the `NextWork` state machine while no sampler has failed: the tasks below
`next_task` have been started, `samples_left` units of the current one are still to be
handed out by the sampler `task_sampler_` points to, and every unit of the started tasks is
either used or left. -/
structure NextWorkInv (tasks : List TaskSampler) (s : MasterState) : Prop where
  result_ok : s.task_result = true
  num_tasks_eq : s.num_tasks = tasks.length
  next_task_nonneg : 0 ≤ s.next_task
  next_task_le : s.next_task ≤ tasks.length
  samples_left_nonneg : 0 ≤ s.samples_left
  sampler_set : 0 < s.samples_left → ∃ t calls, t ∈ tasks ∧ s.task_sampler = some (t, calls)
  accounted : s.total_samples_used + s.samples_left = total_samples (tasks.take s.next_task.toNat)

/-- A sampler whose `validate()` fails (it would report three samples). -/
def rejecting_sampler : TaskSampler :=
  ⟨false, 3, fun k => some (k : Int)⟩

/-- The state after the first `NextWork` call of a job whose only task has the sampler
`rejecting_sampler`: the sampler is installed and its failure is on record. -/
def rejected_state : MasterState :=
  { NewJob_state [rejecting_sampler] none with
    task_sampler := some (rejecting_sampler, 0)
    task_result := false }

/-! ## Specification-side definitions for the video runs -/

/-- The keyframe segment `seg(r)` of a frame: the index `j` with
`keyframe_positions[j] <= r < keyframe_positions[j+1]`, found as the first index whose keyframe
position exceeds `r`, less one. -/
def keyframe_segment (kp : List Int) (r : Int) : Nat :=
  kp.findIdx (fun k => decide (r < k)) - 1

/-- Two consecutive requested rows stay in one run: no whole keyframe segment lies between
them. -/
def same_video_run (kp : List Int) (r r' : Int) : Bool :=
  decide (keyframe_segment kp r' ≤ keyframe_segment kp r + 1)

/-- The rows cut wherever at least one whole keyframe segment lies between two consecutive
rows. -/
def video_runs (kp rows : List Int) : List (List Int) :=
  rows.splitBy (same_video_run kp)

/-- End keyframe index of a run: the segment of its last row plus one. -/
def run_end_index (kp run : List Int) : Nat :=
  keyframe_segment kp (run.getLastD 0) + 1

/-- Start keyframe index of a run that is not the first: the segment of its first row. -/
def run_start_index (kp run : List Int) : Nat :=
  keyframe_segment kp (run.headD 0)

/-- Start keyframe index of the first run: the loop starts with the interval `(0, 1)` open
and keeps index 0 unless the first row lies beyond the second segment. -/
def first_run_start_index (kp run : List Int) : Nat :=
  if keyframe_segment kp (run.headD 0) ≤ 1 then 0 else keyframe_segment kp (run.headD 0)

/-- The two parallel arrays built run by run. -/
def video_intervals_of_runs (kp : List Int) : List (List Int) → VideoIntervals
  | [] => ⟨[], []⟩
  | run :: runs =>
    ⟨(first_run_start_index kp run, run_end_index kp run) ::
        runs.map (fun x => (run_start_index kp x, run_end_index kp x)),
      run :: runs⟩

/-! ## `master.cpp` : `get_task_end_rows` and `MasterImpl::NewJob` -/

/-- Modelled from the spec: the method `DatabaseMetadata::add_table`, which enters the name
into the table index and returns the next table id. -/
def DatabaseMetadata.add_table (meta : DatabaseMetadata) (name : String) :
    DatabaseMetadata × Int :=
  ({ meta with table_names := meta.table_names ++ [name] }, meta.table_names.length)

/-- Modelled from the spec: the method `DatabaseMetadata::add_job`, which enters the job name
and returns the next job id. -/
def DatabaseMetadata.add_job (meta : DatabaseMetadata) (name : String) :
    DatabaseMetadata × Int :=
  ({ meta with job_names := meta.job_names ++ [name] }, meta.job_names.length)

/-- Message `proto::JobParameters`, as far as the master reads it. -/
structure JobParameters where
  job_name : String
  task_set : TaskSet
deriving DecidableEq, Repr

/-- The class `TaskSampler`, declared outside the sources, as `get_task_end_rows` observes the
sampler it builds for a task: the result of `validate()`, the value of `total_samples()`, and
for the `k`-th call (counted from 0) of `next_work` its result and the `io_item.end_row` it
wrote. -/
structure EndRowSampler where
  validate : Result
  total_samples : Int
  next_work : Nat → Result × Int

/-- The loop `for (i64 i = 0; i < num_samples; ++i)` of `get_task_end_rows`, with the number
of iterations left, the counter `i`, the result so far and `rows`. -/
def get_task_end_rows_loop (sampler : EndRowSampler) :
    Nat → Nat → Result → List Int → Result × List Int
  | 0, _, result, rows => (result, rows)
  | n + 1, i, _, rows =>
    if (sampler.next_work i).1.success = false then ((sampler.next_work i).1, [])
    else get_task_end_rows_loop sampler n (i + 1) (sampler.next_work i).1
      (rows ++ [(sampler.next_work i).2])

/-- Function `get_task_end_rows(table_metas, task, rows)` on the sampler that
`TaskSampler sampler(table_metas, task)` builds; `rows` is empty at the call.  It returns the
result and the final `rows`. -/
def get_task_end_rows (sampler : EndRowSampler) : Result × List Int :=
  if sampler.validate.success = false then (sampler.validate, [])
  else get_task_end_rows_loop sampler sampler.total_samples.toNat 0 sampler.validate []

/-- A write of `NewJob` to storage: `write_table_metadata` (id, name, end rows and job id of
the descriptor), `write_job_metadata` (id and name of the descriptor), or
`write_database_metadata`. -/
inductive StorageWrite where
  | table_metadata (table_id : Int) (name : String) (end_rows : List Int) (job_id : Int)
  | job_metadata (job_id : Int) (name : String)
  | database_metadata (meta : DatabaseMetadata)
deriving DecidableEq, Repr

/-- A `NewJob` RPC issued to a worker: its index in `workers_`, its address, and the
`local_id` and `local_total` set in the parameters sent to it. -/
structure WorkerRpc where
  worker : Nat
  address : String
  local_id : Int
  local_total : Int
deriving DecidableEq, Repr

/-- A `std::map<std::string, i32>`: `none` for a key that is not in the map. -/
abbrev AddressMap := String → Option Int

/-- Assignment `m[key] = value`. -/
def AddressMap.set (m : AddressMap) (key : String) (value : Int) : AddressMap :=
  fun k => if k = key then some value else m k

/-- Body of the loop over `addresses_` that fills `local_totals`:
`if (local_totals.count(address) == 0) local_totals[address] = 0; local_totals[address] += 1;`. -/
def count_local_total (local_totals : AddressMap) (address : String) : AddressMap :=
  let m1 := if (local_totals address).isNone then local_totals.set address 0 else local_totals
  m1.set address ((m1 address).getD 0 + 1)

/-- The loop `for (size_t i = 0; i < workers_.size(); ++i)` that numbers the workers and issues
the RPCs, from worker `i` on, with the map `local_ids` so far. -/
def worker_rpcs_loop (local_totals : AddressMap) : List String → Nat → AddressMap → List WorkerRpc
  | [], _, _ => []
  | address :: rest, i, local_ids =>
    let ids1 := if (local_ids address).isNone then local_ids.set address 0 else local_ids
    { worker := i, address := address, local_id := (ids1 address).getD 0
      local_total := (local_totals address).getD 0 } ::
      worker_rpcs_loop local_totals rest (i + 1) (ids1.set address ((ids1 address).getD 0 + 1))

/-- The RPCs that `NewJob` issues for the registered worker addresses `addresses_`. -/
def worker_rpcs (addresses : List String) : List WorkerRpc :=
  worker_rpcs_loop (addresses.foldl count_local_total (fun _ => none)) addresses 0
    (fun _ => none)

/-- Local variables and members that the task loop of `NewJob` updates. -/
structure NewJobTasksState where
  meta : DatabaseMetadata
  total_samples : Int
  writes : List StorageWrite
  job_result : Result
deriving DecidableEq, Repr

/-- The loop `for (auto &task : job_params->task_set().tasks())` of `NewJob`, from task `k`
on; `end_row_sampler k` is the sampler built for task `k`.  A failed `get_task_end_rows`
leaves the loop through `break`. -/
def NewJob_task_loop (job_id : Int) (end_row_sampler : Nat → EndRowSampler) :
    List Task → Nat → NewJobTasksState → NewJobTasksState
  | [], _, st => st
  | task :: rest, k, st =>
    if (get_task_end_rows (end_row_sampler k)).1.success = false then
      { st with meta := (st.meta.add_table task.output_table_name).1
                job_result := (get_task_end_rows (end_row_sampler k)).1 }
    else
      NewJob_task_loop job_id end_row_sampler rest (k + 1)
        { meta := (st.meta.add_table task.output_table_name).1
          total_samples := st.total_samples + (get_task_end_rows (end_row_sampler k)).2.length
          writes := st.writes ++
            [StorageWrite.table_metadata (st.meta.add_table task.output_table_name).2
              task.output_table_name (get_task_end_rows (end_row_sampler k)).2 job_id]
          job_result := st.job_result }

/-- What a `NewJob` call that returns leaves behind up to the point where it waits for the
workers: the result, the local copy `meta` of the database metadata, the writes to storage
and the RPCs issued, in order, the member `total_samples_` and the members of the sampler
state. -/
structure NewJobRun where
  job_result : Result
  meta : DatabaseMetadata
  writes : List StorageWrite
  rpcs : List WorkerRpc
  total_samples : Int
  state : MasterState

/-- How a `NewJob` call goes: it stops at `ops.Get(ops.size() - 1)` on an empty op list or at
`assert(last_op.name() == "OutputTable")`; or an exception leaves `validate_task_set` with
the result as it is then; or the call goes on as the run tells. -/
inductive NewJobOutcome where
  | aborted
  | thrown (job_result : Result)
  | returned (run : NewJobRun)

/-- Method `MasterImpl::NewJob` up to the wait for the workers.  `stored_meta` is what
`read_database_metadata` reads, `addresses` is `addresses_`, `total_samples` and `s` are the
members before the call and `job_result` is the reply object as it comes in. -/
def NewJob (op_registry : OpRegistry) (kernel_registry : KernelRegistry)
    (stored_meta : DatabaseMetadata) (end_row_sampler : Nat → EndRowSampler)
    (addresses : List String) (total_samples : Int) (s : MasterState) (job_result : Result)
    (job_params : JobParameters) : NewJobOutcome :=
  match job_params.task_set.ops.getLast? with
  | none => .aborted
  | some last_op =>
    if last_op.name ≠ "OutputTable" then .aborted
    else
      match validate_task_set op_registry kernel_registry stored_meta job_params.task_set
          { job_result with success := true } with
      | (r, true) => .thrown r
      | (r, false) =>
        if r.success = false then
          .returned { job_result := r, meta := stored_meta, writes := [], rpcs := []
                      total_samples := total_samples, state := s }
        else
          let st := NewJob_task_loop (stored_meta.add_job job_params.job_name).2 end_row_sampler
            job_params.task_set.tasks 0
            { meta := (stored_meta.add_job job_params.job_name).1, total_samples := 0
              writes := [], job_result := r }
          if st.job_result.success = false then
            .returned { job_result := st.job_result, meta := st.meta, writes := st.writes
                        rpcs := [], total_samples := st.total_samples
                        state := { s with total_samples_used := 0 } }
          else
            .returned
              { job_result := st.job_result
                meta := st.meta
                writes := st.writes ++
                  [StorageWrite.job_metadata (stored_meta.add_job job_params.job_name).2
                    job_params.job_name, StorageWrite.database_metadata st.meta]
                rpcs := worker_rpcs addresses
                total_samples := st.total_samples
                state := { s with total_samples_used := 0
                                  task_result := true
                                  samples_left := 0
                                  next_task := 0
                                  num_tasks := job_params.task_set.tasks.length } }

/-- The storage writes of an outcome; a call that stops before it returns has written
nothing. -/
def NewJobOutcome.writes : NewJobOutcome → List StorageWrite
  | .returned run => run.writes
  | _ => []

/-- The RPCs of an outcome. -/
def NewJobOutcome.rpcs : NewJobOutcome → List WorkerRpc
  | .returned run => run.rpcs
  | _ => []

/-- The result a returning call has at the point where it returns or starts to wait. -/
def NewJobOutcome.job_result : NewJobOutcome → Option Result
  | .returned run => some run.job_result
  | _ => none

/-- The call stopped at the op list, before `validate_task_set`. -/
def NewJobOutcome.is_aborted : NewJobOutcome → Bool
  | .aborted => true
  | _ => false

/-- The loop of `NewJob` over the replies of the workers: a non-success reply marks the job
failed, copies the message and sets `next_task_ = num_tasks_`.  The loop runs while the
other workers call `NextWork`, and it writes `next_task_` without taking `work_mutex_`: the
write can fall between two `NextWork` calls or between two statements of a running call
(`NextWork_reset_sampler`, `NextWork_count_task`, `NextWork_hand_out`). -/
def NewJob_collect_replies : List Result → MasterState × Result → MasterState × Result
  | [], p => p
  | reply :: rest, p =>
    if reply.success = false then
      NewJob_collect_replies rest
        ({ p.1 with next_task := p.1.num_tasks }, { success := false, msg := reply.msg })
    else NewJob_collect_replies rest p

/-- An op registry that knows the op `Blur`, with the output column `frame`. -/
def blur_registry : OpRegistry :=
  fun name => if name = "Blur" then some ["frame"] else none

/-- A kernel registry that has a kernel for every op and device type. -/
def all_kernels : KernelRegistry :=
  fun _ _ => true

/-- A sampler that validates and hands out two units, ending at rows 4 and 8. -/
def two_unit_sampler : EndRowSampler :=
  ⟨⟨true, ""⟩, 2, fun k => (⟨true, ""⟩, 4 * ((k : Int) + 1))⟩

/-- A sampler whose `validate()` fails. -/
def invalid_sampler : EndRowSampler :=
  ⟨⟨false, "bad sampler"⟩, 0, fun _ => (⟨false, "bad sampler"⟩, 0)⟩

/-- The map that holds, for every address that occurs in `l`, the number of its occurrences:
the content of `local_totals` and of `local_ids` after the addresses `l` have been run over. -/
def address_counts (l : List String) : AddressMap :=
  fun a => if l.count a = 0 then none else some (l.count a : Int)

/-- The number of units a master that starts no further task can still hand out: the rest of
the current task while no sampler call has failed. -/
def drain_budget (s : MasterState) : Nat :=
  if s.task_result = true then s.samples_left.toNat else 0

/-- A sampler that validates and hands out three units, numbered from 0. -/
def three_unit_sampler : TaskSampler :=
  ⟨true, 3, fun k => some (k : Int)⟩

/-- The state of a job of two tasks with `three_unit_sampler` after its first `NextWork`
call: the first task is started, one of its units is used. -/
def first_unit_state : MasterState :=
  { total_samples_used := 1
    next_task := 1
    num_tasks := 2
    task_sampler := some (three_unit_sampler, 1)
    samples_left := 2
    task_result := true }

/-- The declared outputs of the op at index `j` of an op list, as the op rules use them: for
the first op the columns its inputs list, for a later op the output columns under which the
registry knows it (none when it is not registered or there is no such op). -/
def declared_outputs (op_registry : OpRegistry) (ops : List Op) (j : Nat) : List String :=
  match ops[j]? with
  | none => []
  | some op =>
    if j = 0 then (op.inputs.map fun input => input.columns).flatten
    else (op_registry op.name).getD []

/-- An input of the op at index `i` breaks a dependency rule: it references an op at an index
`>= i`, or it names a column that is not among the declared outputs of the referenced op. -/
def dependency_violation (op_registry : OpRegistry) (ops : List Op) (i : Nat)
    (input : OpInput) : Bool :=
  decide ((i : Int) ≤ input.op_index) ||
    input.columns.any fun col =>
      !(declared_outputs op_registry ops input.op_index.toNat).contains col

/-- A task set whose op `Blur` requests the column `nope` of the input table, which exposes
the column `frame` only. -/
def missing_column_task_set : TaskSet :=
  { tasks := [⟨"out", [⟨"video", ["frame"]⟩]⟩]
    ops := [⟨"InputTable", [⟨-1, ["frame"]⟩], DeviceType.CPU⟩,
            ⟨"Blur", [⟨0, ["nope"]⟩], DeviceType.CPU⟩,
            ⟨"OutputTable", [⟨1, ["frame"]⟩], DeviceType.CPU⟩] }

/-! ## `load_worker.cpp` : the extraction loop of `read_other_column`, by kind of fault -/

/-- The undefined accesses an iteration of the extraction loop can make: `row_sizes[i]`
outside the vector, `valid_offsets[valid_idx]` outside the vector, a `memcpy` that leaves
`row_data`. -/
inductive ExtractFault where
  | row_sizes_index
  | valid_offsets_index
  | row_data_range
deriving DecidableEq, Repr

/-- Body of `for (i32 i = item_start; i < item_end; ++i)` in `read_other_column`, as
`extract_step`, telling which access has left its range. -/
def extract_step_checked (row_sizes valid_offsets : List Int) (row_data : List Nat)
    (st : ExtractState) (i : Int) : Except ExtractFault ExtractState :=
  match get_at row_sizes i with
  | none => .error .row_sizes_index
  | some sz =>
    let buffer_size := to_u64 sz
    match valid_offsets[st.valid_idx]? with
    | none => .error .valid_offsets_index
    | some v =>
      if i = v then
        if st.offset + buffer_size ≤ row_data.length then
          .ok { offset := (st.offset + buffer_size) % u64_mod
                valid_idx := st.valid_idx + 1
                row_list := st.row_list ++ [(row_data.drop st.offset).take buffer_size] }
        else .error .row_data_range
      else .ok { st with offset := (st.offset + buffer_size) % u64_mod }

/-- The extraction loop of `read_other_column` from `u64 offset = 0; size_t valid_idx = 0;`
to the end of the `for`; the state it returns is the one the closing
`assert(valid_idx == valid_offsets.size())` tests.  `item_start` and `item_end` are the
values of the `i32` parameters, as the call has converted them (`extract_rows_of_interval`);
the `i32` counter stays between them. -/
def extract_rows_checked (row_sizes valid_offsets : List Int) (row_data : List Nat)
    (item_start item_end : Int) (row_list : List (List Nat)) :
    Except ExtractFault ExtractState :=
  (int_range item_start item_end).foldlM
    (extract_step_checked row_sizes valid_offsets row_data) ⟨0, 0, row_list⟩

/-- The number of bytes of the rows `[lo, hi)` of an item, as the loops over `row_sizes` add
them up. -/
def chunk_size (row_sizes : List Int) (lo hi : Int) : Nat :=
  ((int_range lo hi).map fun i => to_u64 ((get_at row_sizes i).getD 0)).sum

/-- Invariant of the extraction loop before the iteration for row `t`: the offsets below
`valid_idx` have been matched, each by a row below `t`, so they ascend strictly; and when
all of `valid_offsets` ascends strictly, no offset from `valid_idx` on has been passed. -/
structure ExtractInv (valid_offsets : List Int) (t : Int) (valid_idx : Nat) : Prop where
  idx_le : valid_idx ≤ valid_offsets.length
  matched_lt : ∀ j, j < valid_idx → valid_offsets.getD j 0 < t
  matched_sorted : (valid_offsets.take valid_idx).Sorted (· < ·)
  pending : valid_offsets.Sorted (· < ·) →
    ∀ j, valid_idx ≤ j → j < valid_offsets.length → t ≤ valid_offsets.getD j 0

/-! ## `load_worker.cpp` : `read_video_column` -/

/-- Struct `VideoIndexEntry`; `file` is the content of the video file the entry holds open.
`read_video_index` has appended the frame count to `keyframe_positions` and the file size to
`keyframe_byte_offsets`. -/
structure VideoIndexEntry where
  width : Int
  height : Int
  file : List Nat
  file_size : Nat
  keyframe_positions : List Int
  keyframe_byte_offsets : List Int
deriving DecidableEq, Repr

/-- Message `proto::DecodeArgs` with the fields `read_video_column` sets.  The row that
`INSERT_ROW` appends is the serialised message; serialisation is a library call outside the
sources, and the row is represented by the message itself. -/
structure DecodeArgs where
  width : Int
  height : Int
  start_keyframe : Int
  end_keyframe : Int
  keyframes : List Int
  keyframe_byte_offsets : List Int
  valid_frames : List Int
  encoded_video : List Nat
deriving DecidableEq, Repr

/-- The elements `v[i], v[i+1], ..., v[i+n-1]` read by a loop
`for (size_t j = i; j < i + n; ++j) ... v[j]`; a read outside the vector is undefined. -/
def read_range (v : List Int) : Nat → Nat → Option (List Int)
  | _, 0 => some []
  | i, n + 1 =>
    match v[i]?, read_range v (i + 1) n with
    | some x, some rest => some (x :: rest)
    | _, _ => none

/-- Body of `for (size_t i = 0; i < num_intervals; ++i)` in `read_video_column`.  The byte
offsets are `i64` values cast to `u64`; the difference
`keyframe_byte_offsets[i] - start_keyframe_byte_offset` is taken in `u64` and stored in a
vector of `i64`. -/
def read_video_interval (index_entry : VideoIndexEntry) (intervals : VideoIntervals)
    (row_list : List DecodeArgs) (i : Nat) : Option (List DecodeArgs) :=
  match intervals.keyframe_index_intervals[i]? with
  | none => none
  | some (start_keyframe_index, end_keyframe_index) =>
    match index_entry.keyframe_byte_offsets[start_keyframe_index]?,
        index_entry.keyframe_byte_offsets[end_keyframe_index]?,
        index_entry.keyframe_positions[start_keyframe_index]?,
        index_entry.keyframe_positions[end_keyframe_index]? with
    | some start_byte, some end_byte, some start_keyframe, some end_keyframe =>
      let start_keyframe_byte_offset := to_u64 start_byte
      let end_keyframe_byte_offset := to_u64 end_byte
      match read_range index_entry.keyframe_positions start_keyframe_index
          (end_keyframe_index + 1 - start_keyframe_index),
        read_range index_entry.keyframe_byte_offsets start_keyframe_index
          (end_keyframe_index + 1 - start_keyframe_index) with
      | some all_keyframes, some byte_offsets =>
        let all_keyframes_byte_offsets := byte_offsets.map fun b =>
          to_i64 ((to_u64 b + u64_mod - start_keyframe_byte_offset) % u64_mod)
        let buffer_size :=
          (end_keyframe_byte_offset + u64_mod - start_keyframe_byte_offset) % u64_mod
        match s_read index_entry.file buffer_size start_keyframe_byte_offset with
        | none => none
        | some (buffer, _) =>
          match intervals.valid_frames[i]? with
          | none => none
          | some valid_frames =>
            some (row_list ++
              [{ width := index_entry.width
                 height := index_entry.height
                 start_keyframe := start_keyframe
                 end_keyframe := end_keyframe
                 keyframes := all_keyframes
                 keyframe_byte_offsets := all_keyframes_byte_offsets
                 valid_frames := valid_frames
                 encoded_video := buffer }])
      | _, _ => none
    | _, _, _, _ => none

/-- Function `read_video_column(profiler, index_entry, rows, row_list)`; the profiler is not
part of the state. -/
def read_video_column (index_entry : VideoIndexEntry) (rows : List Int)
    (row_list : List DecodeArgs) : Option (List DecodeArgs) :=
  match slice_into_video_intervals index_entry.keyframe_positions rows with
  | none => none
  | some intervals =>
    (List.range intervals.keyframe_index_intervals.length).foldlM
      (read_video_interval index_entry intervals) row_list

/-- The decode payload the specification describes for an interval `(s, e)` with the frames
`frames`: the keyframes `s..e` inclusive, their byte offsets relative to the offset of
keyframe `s`, and the file bytes from the offset of keyframe `s` up to that of keyframe
`e`. -/
def decode_payload (index_entry : VideoIndexEntry) (iv : Nat × Nat) (frames : List Int) :
    DecodeArgs :=
  { width := index_entry.width
    height := index_entry.height
    start_keyframe := index_entry.keyframe_positions.getD iv.1 0
    end_keyframe := index_entry.keyframe_positions.getD iv.2 0
    keyframes := (index_entry.keyframe_positions.drop iv.1).take (iv.2 - iv.1 + 1)
    keyframe_byte_offsets :=
      ((index_entry.keyframe_byte_offsets.drop iv.1).take (iv.2 - iv.1 + 1)).map fun b =>
        b - index_entry.keyframe_byte_offsets.getD iv.1 0
    valid_frames := frames
    encoded_video :=
      (index_entry.file.drop (index_entry.keyframe_byte_offsets.getD iv.1 0).toNat).take
        (index_entry.keyframe_byte_offsets.getD iv.2 0 -
          index_entry.keyframe_byte_offsets.getD iv.1 0).toNat }

/-- A video of 100 frames with keyframes at 0, 30, 60, 90 in a file of 40 bytes. -/
def small_video : VideoIndexEntry :=
  { width := 640
    height := 480
    file := (List.range 40).map fun k => k % 256
    file_size := 40
    keyframe_positions := [0, 30, 60, 90, 100]
    keyframe_byte_offsets := [0, 12, 20, 33, 40] }

/-- A sampler that validates, reports three samples and fails in every `next_work`. -/
def failing_sampler : TaskSampler :=
  ⟨true, 3, fun _ => none⟩

/-- The state after the first `NextWork` call of a job whose only task has the sampler
`failing_sampler`: the task is started (`samples_left = 3`, `next_task = 1`), one
`next_work` call was made and its failure is on record. -/
def failed_next_work_state : MasterState :=
  { NewJob_state [failing_sampler] none with
    task_sampler := some (failing_sampler, 1)
    task_result := false
    samples_left := 3
    next_task := 1 }

/-! ## `load_worker.cpp` : the call of `read_other_column` in `load_thread` -/

/-- Conversion of an `i64` to `i32`, as at the call
`read_other_column(..., item_start, item_end, ...)` in `load_thread`, which passes the `i64`
bounds of an interval to `i32` parameters: the value modulo two to the 32, in
`[-2^31, 2^31)`. -/
def to_i32 (x : Int) : Int := (x + 2 ^ 31) % 2 ^ 32 - 2 ^ 31

/-- The extraction loop as `load_thread` runs it for one entry of the result of
`slice_into_row_intervals`: `std::tie(item_start, item_end) = intervals.item_intervals[i]`
and `valid_offsets = intervals.valid_offsets[i]` are passed to `read_other_column`, whose
parameters `item_start` and `item_end` are `i32`. -/
def extract_rows_of_interval (row_sizes valid_offsets : List Int) (row_data : List Nat)
    (interval : Int × Int) (row_list : List (List Nat)) : Except ExtractFault ExtractState :=
  extract_rows_checked row_sizes valid_offsets row_data (to_i32 interval.1) (to_i32 interval.2)
    row_list

deriving instance DecidableEq for Except

/-- The entry of `item_intervals` the specification describes for a run: (offset of the
first row of the run, offset of the last row of the run + 1), the offset of a row being its
index within its item, the row minus the first row of the item. -/
def item_row_interval (end_rows run : List Int) : Int × Int :=
  (run.headD 0 - item_first_row end_rows (run_item end_rows run),
    run.getLastD 0 - item_first_row end_rows (run_item end_rows run) + 1)

/-! ## `master.cpp` : `MasterImpl::NextWork` statement by statement -/

/-- Statements `task_sampler_.reset(new TaskSampler(table_metas_,
job_params_.task_set().tasks(next_task_)));` and `task_result_ = task_sampler_->validate();`
of the first block of `NextWork`, reached when `samples_left_ <= 0`,
`next_task_ < num_tasks_` and `task_result_.success()` have been tested. -/
def NextWork_reset_sampler (tasks : List TaskSampler) (s : MasterState) : Option MasterState :=
  match get_at tasks s.next_task with
  | none => none
  | some sampler =>
    some { s with task_sampler := some (sampler, 0), task_result := sampler.validate }

/-- Statement `if (task_result_.success()) { samples_left_ = task_sampler_->total_samples();
next_task_++; }` of the first block of `NextWork`. -/
def NextWork_count_task (s : MasterState) : Option MasterState :=
  if s.task_result = true then
    match s.task_sampler with
    | none => none
    | some (sampler, _) =>
      some { s with samples_left := sampler.total_samples, next_task := s.next_task + 1 }
  else some s

/-- The part of `NextWork` that follows its first block: the sentinel for a failed
`task_result_`, the assert, `next_work` and the counters. -/
def NextWork_hand_out (s1 : MasterState) : Option (MasterState × Int) :=
  if s1.task_result = false then some (s1, -1)
  else if s1.samples_left > 0 then
    match s1.task_sampler with
    | none => none
    | some (sampler, calls) =>
      match sampler.next_work calls with
      | none =>
        some ({ s1 with task_sampler := some (sampler, calls + 1), task_result := false }, -1)
      | some item_id =>
        some ({ s1 with task_sampler := some (sampler, calls + 1)
                        task_result := true
                        samples_left := s1.samples_left - 1
                        total_samples_used := s1.total_samples_used + 1 }, item_id)
  else none

/-- The state of a job of two tasks with `three_unit_sampler` after the three units of the
first task have been handed out: no units are left and the second task is not started. -/
def first_task_done_state : MasterState :=
  { total_samples_used := 3
    next_task := 1
    num_tasks := 2
    task_sampler := some (three_unit_sampler, 3)
    samples_left := 0
    task_result := true }

/-! ## Lemmas on `item_from_row` and `offset_from_row` -/

theorem item_offset_loop (r : Int) :
    ∀ (l : List Int) (i0 : Nat) (s0 : Int), (∃ e ∈ l, r < e) →
      ∃ k, k < l.length ∧ item_from_row_loop r l i0 = some (i0 + k) ∧
        offset_from_row_loop r l s0 = some (r - (s0 + (l.take k).sum)) ∧
        r < l.getD k 0 ∧ ∀ j, j < k → l.getD j 0 ≤ r := by
  intro l
  induction l with
  | nil => intro i0 s0 h; obtain ⟨e, he, _⟩ := h; simp at he
  | cons a l ih =>
    intro i0 s0 h
    by_cases hra : r < a
    · refine ⟨0, by simp, ?_, ?_, ?_, ?_⟩
      · simp [item_from_row_loop, hra]
      · simp [offset_from_row_loop, hra]
      · simpa using hra
      · intro j hj; omega
    · have h' : ∃ e ∈ l, r < e := by
        obtain ⟨e, he, hre⟩ := h
        rcases List.mem_cons.1 he with rfl | he
        · exact absurd hre hra
        · exact ⟨e, he, hre⟩
      obtain ⟨k, hk, hi, ho, hlt, hle⟩ := ih (i0 + 1) (s0 + a) h'
      refine ⟨k + 1, by simpa using hk, ?_, ?_, ?_, ?_⟩
      · simp only [item_from_row_loop, hra, if_false, hi]
        congr 1; omega
      · simp only [offset_from_row_loop, hra, if_false, ho, List.take_succ_cons, List.sum_cons]
        congr 1; ring
      · simpa using hlt
      · intro j hj
        cases j with
        | zero => simpa using not_lt.1 hra
        | succ j => simpa using hle j (by omega)

/-- In range, `item_from_row` returns the first item whose end row exceeds the row, and
`offset_from_row` returns the row minus the sum of the end rows of all earlier items. -/
theorem item_offset_spec (end_rows : List Int) (r : Int) (h : ∃ e ∈ end_rows, r < e) :
    ∃ i, i < end_rows.length ∧ item_from_row end_rows r = some i ∧
      offset_from_row end_rows r = some (r - (end_rows.take i).sum) ∧
      r < end_rows.getD i 0 ∧ ∀ j, j < i → end_rows.getD j 0 ≤ r := by
  obtain ⟨k, hk, hi, ho, hlt, hle⟩ := item_offset_loop r end_rows 0 0 h
  exact ⟨k, hk, by simpa [item_from_row] using hi, by simpa [offset_from_row] using ho, hlt, hle⟩

/-- The item found is monotone in the row. -/
theorem item_from_row_mono (end_rows : List Int) (r r' : Int) (i i' : Nat) (hrr : r ≤ r')
    (h : ∃ e ∈ end_rows, r < e) (h' : ∃ e ∈ end_rows, r' < e)
    (hi : item_from_row end_rows r = some i) (hi' : item_from_row end_rows r' = some i') :
    i ≤ i' := by
  obtain ⟨k, _, hk, _, _, hle⟩ := item_offset_spec end_rows r h
  obtain ⟨k', _, hk', _, hlt', _⟩ := item_offset_spec end_rows r' h'
  rw [hi] at hk; rw [hi'] at hk'
  cases hk; cases hk'
  by_contra hcon
  have := hle i' (by omega)
  omega

/-- Rows of the same item get offsets relative to the same base. -/
theorem row_offset_same_item (end_rows : List Int) (r r' : Int)
    (h : ∃ e ∈ end_rows, r < e) (h' : ∃ e ∈ end_rows, r' < e)
    (hs : item_from_row end_rows r = item_from_row end_rows r') :
    row_offset end_rows r' - row_offset end_rows r = r' - r := by
  obtain ⟨k, _, hk, ho, _, _⟩ := item_offset_spec end_rows r h
  obtain ⟨k', _, hk', ho', _, _⟩ := item_offset_spec end_rows r' h'
  rw [hk, hk'] at hs
  cases hs
  simp only [row_offset, ho, ho', Option.getD_some]
  ring

/-! ## The row loop computes the runs -/

theorem row_intervals_of_runs_snoc (end_rows : List Int) (runs : List (List Int))
    (run : List Int) :
    row_intervals_of_runs end_rows (runs ++ [run]) =
      (row_intervals_of_runs end_rows runs).emit (run_item end_rows run)
        (run_interval end_rows run).1 (run_interval end_rows run).2
        (run.map (row_offset end_rows)) := by
  simp [row_intervals_of_runs, RowIntervals.emit]

theorem headD_reverse_cons_mem (ag : Int) (g : List Int) :
    (ag :: g).reverse.headD 0 ∈ ag :: g := by
  have hne : (ag :: g).reverse ≠ [] := by simp
  have : (ag :: g).reverse.headD 0 ∈ (ag :: g).reverse := by
    cases h : (ag :: g).reverse with
    | nil => exact absurd h hne
    | cons x xs => simp
  exact List.mem_reverse.1 this

theorem headD_reverse_cons_cons (a ag : Int) (g : List Int) :
    (a :: ag :: g).reverse.headD 0 = (ag :: g).reverse.headD 0 := by
  have hne : (ag :: g).reverse ≠ [] := by simp
  rw [List.reverse_cons a]
  cases h : (ag :: g).reverse with
  | nil => exact absurd h hne
  | cons x xs => simp

theorem run_item_reverse_cons (end_rows : List Int) (ag : Int) (g : List Int) (c : Nat)
    (hg : ∀ x ∈ g, item_from_row end_rows x = item_from_row end_rows ag)
    (hcur : item_from_row end_rows ag = some c) :
    run_item end_rows (ag :: g).reverse = c := by
  have hmem := headD_reverse_cons_mem ag g
  have : item_from_row end_rows ((ag :: g).reverse.headD 0) = some c := by
    rcases List.mem_cons.1 hmem with h | h
    · rw [h]; exact hcur
    · rw [hg _ h]; exact hcur
  unfold run_item
  rw [this]
  rfl

theorem run_interval_reverse_cons (end_rows : List Int) (ag : Int) (g : List Int) :
    run_interval end_rows (ag :: g).reverse =
      (row_offset end_rows ((ag :: g).reverse.headD 0), row_offset end_rows ag + 1) := by
  have : (ag :: g).reverse.getLastD 0 = ag := by simp
  unfold run_interval
  rw [this]

theorem row_loop_runs (end_rows : List Int) :
    ∀ (l : List Int) (ag : Int) (g : List Int) (gs : List (List Int)) (st : RowSliceState),
      (∀ r ∈ l, ∃ e ∈ end_rows, r < e) →
      (∀ x ∈ g, item_from_row end_rows x = item_from_row end_rows ag) →
      item_from_row end_rows ag = some st.current_item →
      st.item_start = row_offset end_rows ((ag :: g).reverse.headD 0) →
      st.item_end = row_offset end_rows ag + 1 →
      st.valid_offsets = (ag :: g).reverse.map (row_offset end_rows) →
      st.info = row_intervals_of_runs end_rows gs.reverse →
      (l.foldlM (row_step end_rows) st).map
          (fun st => st.info.emit st.current_item st.item_start st.item_end st.valid_offsets)
        = some (row_intervals_of_runs end_rows
            (List.splitBy.loop (same_item end_rows) l ag g gs)) := by
  intro l
  induction l with
  | nil =>
    intro ag g gs st _ hg hcur hstart hend hvo hinfo
    have hitem := run_item_reverse_cons end_rows ag g st.current_item hg hcur
    have hint : run_interval end_rows (ag :: g).reverse = (st.item_start, st.item_end) := by
      rw [run_interval_reverse_cons, hstart, hend]
    simp only [List.foldlM_nil, List.splitBy.loop, List.reverse_cons ((ag :: g).reverse) gs,
      row_intervals_of_runs_snoc, hitem, hint, ← hvo, ← hinfo]
    rfl
  | cons a l ih =>
    intro ag g gs st hl hg hcur hstart hend hvo hinfo
    obtain ⟨i, _, hi, ho, _, _⟩ := item_offset_spec end_rows a (hl a (List.mem_cons_self _ _))
    have hl' : ∀ r ∈ l, ∃ e ∈ end_rows, r < e := fun r hr => hl r (List.mem_cons_of_mem _ hr)
    have hoff : row_offset end_rows a = a - (List.take i end_rows).sum := by
      simp [row_offset, ho]
    rw [List.foldlM_cons]
    by_cases hic : i = st.current_item
    · have hR : same_item end_rows ag a = true := by
        simp [same_item, hi, hcur, hic]
      have hstep : row_step end_rows st a =
          some { st with valid_offsets := st.valid_offsets ++ [a - (List.take i end_rows).sum]
                         item_end := a - (List.take i end_rows).sum + 1 } := by
        simp [row_step, hi, ho, hic]
      rw [hstep]
      simp only [List.splitBy.loop, hR, Option.bind_eq_bind, Option.some_bind]
      apply ih a (ag :: g) gs _ hl'
      · intro x hx
        rcases List.mem_cons.1 hx with h | h
        · rw [h, hcur, hi, hic]
        · rw [hg x h, hcur, hi, hic]
      · simpa [hic] using hi
      · simpa [headD_reverse_cons_cons] using hstart
      · simp [hoff]
      · simp [hvo, hoff]
      · simpa using hinfo
    · have hR : same_item end_rows ag a = false := by
        simp only [same_item, hi, hcur, beq_eq_false_iff_ne, ne_eq, Option.some.injEq]
        exact fun h => hic h.symm
      have hstep : row_step end_rows st a =
          some { current_item := i
                 item_start := a - (List.take i end_rows).sum
                 item_end := a - (List.take i end_rows).sum + 1
                 valid_offsets := [a - (List.take i end_rows).sum]
                 info := st.info.emit st.current_item st.item_start st.item_end
                   st.valid_offsets } := by
        simp [row_step, hi, ho, hic]
      rw [hstep]
      simp only [List.splitBy.loop, hR, Option.bind_eq_bind, Option.some_bind]
      apply ih a [] ((ag :: g).reverse :: gs) _ hl'
      · intro x hx; simp at hx
      · exact hi
      · simp [hoff]
      · simp [hoff]
      · simp [hoff]
      · have hitem := run_item_reverse_cons end_rows ag g st.current_item hg hcur
        have hint : run_interval end_rows (ag :: g).reverse = (st.item_start, st.item_end) := by
          rw [run_interval_reverse_cons, hstart, hend]
        simp only [List.reverse_cons ((ag :: g).reverse) gs, row_intervals_of_runs_snoc, hitem,
          hint, ← hvo, ← hinfo]

/-- On rows in range, `slice_into_row_intervals` returns the arrays built from the maximal
runs of rows of the same item. -/
theorem slice_into_row_intervals_eq_runs (end_rows rows : List Int) (hrows : rows ≠ [])
    (hrange : ∀ r ∈ rows, ∃ e ∈ end_rows, r < e) :
    slice_into_row_intervals end_rows rows =
      some (row_intervals_of_runs end_rows (row_runs end_rows rows)) := by
  cases rows with
  | nil => exact absurd rfl hrows
  | cons r0 rest =>
    obtain ⟨i, _, hi, ho, _, _⟩ := item_offset_spec end_rows r0 (hrange r0 (List.mem_cons_self _ _))
    have hoff : row_offset end_rows r0 = r0 - (List.take i end_rows).sum := by
      simp [row_offset, ho]
    have hstep : row_step end_rows
        { current_item := i, item_start := r0 - (List.take i end_rows).sum
          item_end := r0 - (List.take i end_rows).sum + 1, valid_offsets := []
          info := ⟨[], [], []⟩ } r0 =
        some { current_item := i, item_start := r0 - (List.take i end_rows).sum
               item_end := r0 - (List.take i end_rows).sum + 1
               valid_offsets := [r0 - (List.take i end_rows).sum]
               info := ⟨[], [], []⟩ } := by
      simp [row_step, hi, ho]
    simp only [slice_into_row_intervals, hi, ho, List.foldlM_cons, hstep, row_runs,
      List.splitBy, Option.bind_eq_bind, Option.some_bind]
    apply row_loop_runs end_rows rest r0 [] [] _
      (fun r hr => hrange r (List.mem_cons_of_mem _ hr))
    · intro x hx; simp at hx
    · exact hi
    · simp [hoff]
    · simp [hoff]
    · simp [hoff]
    · simp [row_intervals_of_runs]

/-! ## Facts on the runs -/

theorem chain_same_value {α β : Type} (f : α → β) :
    ∀ (l : List α) (a : α), List.Chain (fun x y => f x = f y) a l → ∀ x ∈ l, f x = f a
  | [], _, _, x, hx => by simp at hx
  | b :: l, a, h, x, hx => by
    rw [List.chain_cons] at h
    rcases List.mem_cons.1 hx with rfl | hx
    · exact h.1.symm
    · exact (chain_same_value f l b h.2 x hx).trans h.1.symm

theorem chain'_of_pairwise_of_chain' {α : Type} {R S T : α → α → Prop} :
    ∀ (l : List α), (∀ a ∈ l, ∀ b ∈ l, R a b → S a b → T a b) →
      l.Pairwise R → l.Chain' S → l.Chain' T
  | [], _, _, _ => List.chain'_nil
  | [_], _, _, _ => List.chain'_singleton _
  | a :: b :: l, h, hp, hc => by
    rw [List.chain'_cons] at hc ⊢
    rw [List.pairwise_cons] at hp
    refine ⟨h a (by simp) b (by simp) (hp.1 b (by simp)) hc.1, ?_⟩
    exact chain'_of_pairwise_of_chain' (b :: l)
      (fun x hx y hy => h x (List.mem_cons_of_mem _ hx) y (List.mem_cons_of_mem _ hy)) hp.2 hc.2

theorem mem_rows_of_mem_run (end_rows rows run : List Int) (hrun : run ∈ row_runs end_rows rows)
    (r : Int) (hr : r ∈ run) : r ∈ rows := by
  have h : r ∈ (row_runs end_rows rows).flatten := List.mem_flatten.2 ⟨run, hrun, hr⟩
  simpa [row_runs] using h

/-- Every row of a run lies in the item recorded for the run. -/
theorem run_item_spec (end_rows rows run : List Int)
    (hrange : ∀ r ∈ rows, ∃ e ∈ end_rows, r < e) (hrun : run ∈ row_runs end_rows rows)
    (r : Int) (hr : r ∈ run) : item_from_row end_rows r = some (run_item end_rows run) := by
  have hch : run.Chain' (fun x y => item_from_row end_rows x = item_from_row end_rows y) :=
    (List.chain'_of_mem_splitBy hrun).imp fun x y hxy => by
      simpa [same_item] using hxy
  cases run with
  | nil => simp at hr
  | cons a t =>
    obtain ⟨i, _, hi, _⟩ := item_offset_spec end_rows a
      (hrange a (mem_rows_of_mem_run end_rows rows _ hrun a (List.mem_cons_self _ _)))
    have hitem : run_item end_rows (a :: t) = i := by simp [run_item, hi]
    rw [hitem]
    rcases List.mem_cons.1 hr with rfl | hr
    · exact hi
    · rw [chain_same_value (item_from_row end_rows) t a hch r hr, hi]

/-- The items of consecutive runs increase strictly when the rows ascend. -/
theorem run_items_sorted (end_rows rows : List Int) (hasc : rows.Sorted (· ≤ ·))
    (hrange : ∀ r ∈ rows, ∃ e ∈ end_rows, r < e) :
    ((row_runs end_rows rows).map (run_item end_rows)).Sorted (· < ·) := by
  have hflat : (row_runs end_rows rows).flatten = rows := by simp [row_runs]
  have hp : (row_runs end_rows rows).Pairwise (fun a b => ∀ x ∈ a, ∀ y ∈ b, x ≤ y) := by
    have h := hasc
    rw [← hflat] at h
    exact (List.pairwise_flatten.1 h).2
  have hc := List.chain'_getLast_head_splitBy (same_item end_rows) rows
  have hT : (row_runs end_rows rows).Chain'
      (fun a b => run_item end_rows a < run_item end_rows b) := by
    apply chain'_of_pairwise_of_chain' _ _ hp hc
    intro a ha b hb hle hne
    obtain ⟨hane, hbne, hR⟩ := hne
    have hla := List.getLast_mem hane
    have hhb := List.head_mem hbne
    have hia := run_item_spec end_rows rows a hrange ha _ hla
    have hib := run_item_spec end_rows rows b hrange hb _ hhb
    have hmono := item_from_row_mono end_rows _ _ _ _ (hle _ hla _ hhb)
      (hrange _ (mem_rows_of_mem_run end_rows rows a ha _ hla))
      (hrange _ (mem_rows_of_mem_run end_rows rows b hb _ hhb)) hia hib
    have hneq : run_item end_rows a ≠ run_item end_rows b := by
      intro heq
      simp [same_item, hia, hib, heq] at hR
    omega
  have := (List.chain'_map (run_item end_rows)).2 hT
  exact List.chain'_iff_pairwise.1 this

theorem getLastD_eq_getLast (l : List Int) (h : l ≠ []) : l.getLastD 0 = l.getLast h := by
  cases l with
  | nil => exact absurd rfl h
  | cons a t => rfl

theorem le_getLast_of_pairwise :
    ∀ (l : List Int) (hne : l ≠ []), l.Pairwise (· ≤ ·) → ∀ r ∈ l, r ≤ l.getLast hne
  | [], hne, _, _, _ => absurd rfl hne
  | [a], _, _, r, hr => by
    have : r = a := by simpa using hr
    simp [this]
  | a :: b :: t, _, hp, r, hr => by
    rw [List.getLast_cons (by simp : b :: t ≠ [])]
    rcases List.mem_cons.1 hr with rfl | hr
    · exact (List.pairwise_cons.1 hp).1 _ (List.getLast_mem _)
    · exact le_getLast_of_pairwise (b :: t) _ (List.pairwise_cons.1 hp).2 r hr

/-- Within a run the offsets lie between the offset of the first row and that of the last. -/
theorem run_offsets_bounds (end_rows rows run : List Int) (hasc : rows.Sorted (· ≤ ·))
    (hrange : ∀ r ∈ rows, ∃ e ∈ end_rows, r < e) (hrun : run ∈ row_runs end_rows rows)
    (hne : run ≠ []) (r : Int) (hr : r ∈ run) :
    row_offset end_rows (run.head hne) ≤ row_offset end_rows r ∧
      row_offset end_rows r ≤ row_offset end_rows (run.getLast hne) := by
  have hflat : (row_runs end_rows rows).flatten = rows := by simp [row_runs]
  have hs : run.Pairwise (· ≤ ·) := by
    have h := hasc
    rw [← hflat] at h
    exact (List.pairwise_flatten.1 h).1 run hrun
  have hin : ∀ x ∈ run, ∃ e ∈ end_rows, x < e := fun x hx =>
    hrange x (mem_rows_of_mem_run end_rows rows run hrun x hx)
  have hit : ∀ x ∈ run, item_from_row end_rows x = some (run_item end_rows run) :=
    run_item_spec end_rows rows run hrange hrun
  have hhead : run.head hne ≤ r := by
    cases run with
    | nil => exact absurd rfl hne
    | cons a t =>
      rcases List.mem_cons.1 hr with rfl | hr
      · simp
      · simpa using (List.pairwise_cons.1 hs).1 r hr
  have hlast : r ≤ run.getLast hne := le_getLast_of_pairwise run hne hs r hr
  have h1 := row_offset_same_item end_rows (run.head hne) r (hin _ (List.head_mem hne))
    (hin r hr) (by rw [hit _ (List.head_mem hne), hit r hr])
  have h2 := row_offset_same_item end_rows r (run.getLast hne) (hin r hr)
    (hin _ (List.getLast_mem hne)) (by rw [hit _ (List.getLast_mem hne), hit r hr])
  constructor <;> omega

/-! ## Claims on `slice_into_row_intervals` -/

/-- C1 (row-interval completeness), evaluated on a table of three items with
`end_rows = [3, 7, 10]` and `rows = [1, 5, 8]`: for row 8 of item 2 the code stores the offset
`8 - (3 + 7) = -2`, where the offset within the item is `8 - end_rows[1] = 1`; re-keying the
stored offsets to global rows yields `[1, 5, 5]`, which is not `rows`. -/
theorem row_interval_completeness_three_items :
    slice_into_row_intervals [3, 7, 10] [1, 5, 8] =
        some ⟨[0, 1, 2], [(1, 2), (2, 3), (-2, -1)], [[1], [2], [-2]]⟩ ∧
      global_rows [3, 7, 10] ⟨[0, 1, 2], [(1, 2), (2, 3), (-2, -1)], [[1], [2], [-2]]⟩
        = [1, 5, 5] ∧
      offset_from_row [3, 7, 10] 8 = some (-2) ∧
      item_from_row [3, 7, 10] 8 = some 2 ∧
      (8 : Int) - item_first_row [3, 7, 10] 2 = 1 := by
  decide

/-- C3 (shape of the result of `slice_into_row_intervals`): for a non-empty table, non-empty
ascending rows, each non-negative and below `end_rows.back()`, the call returns a result whose
three arrays have one entry per maximal run of consecutive rows lying in the same item (the
runs are non-empty and concatenate to `rows`); `valid_offsets[k]` has one entry per row of
run `k`; `item_ids[k]` is the item `i` of every row `r` of run `k`, namely the first `i` with
`r < end_rows[i]`, so that `(i == 0 ? 0 : end_rows[i-1]) <= r < end_rows[i]`; and `item_ids`
is strictly ascending. -/
theorem slice_into_row_intervals_shape (end_rows rows : List Int) (hne : end_rows ≠ [])
    (hrows : rows ≠ []) (hasc : rows.Sorted (· ≤ ·))
    (hrange : ∀ r ∈ rows, 0 ≤ r ∧ r < end_rows.getLast hne) :
    ∃ info, slice_into_row_intervals end_rows rows = some info ∧
      (row_runs end_rows rows).flatten = rows ∧
      (∀ run ∈ row_runs end_rows rows, run ≠ []) ∧
      info.item_ids.length = (row_runs end_rows rows).length ∧
      info.item_intervals.length = (row_runs end_rows rows).length ∧
      info.valid_offsets.length = (row_runs end_rows rows).length ∧
      List.Forall₂ (fun run offsets => offsets.length = run.length)
        (row_runs end_rows rows) info.valid_offsets ∧
      List.Forall₂ (fun run i => i < end_rows.length ∧ ∀ r ∈ run,
          item_from_row end_rows r = some i ∧ (∀ j, j < i → end_rows.getD j 0 ≤ r) ∧
          item_first_row end_rows i ≤ r ∧ r < end_rows.getD i 0)
        (row_runs end_rows rows) info.item_ids ∧
      info.item_ids.Sorted (· < ·) := by
  have hin : ∀ r ∈ rows, ∃ e ∈ end_rows, r < e := fun r hr =>
    ⟨_, List.getLast_mem hne, (hrange r hr).2⟩
  refine ⟨_, slice_into_row_intervals_eq_runs end_rows rows hrows hin, ?_, ?_, ?_, ?_, ?_,
    ?_, ?_, ?_⟩
  · simp [row_runs]
  · intro run hrun
    exact List.ne_nil_of_mem_splitBy _ hrun
  · simp [row_intervals_of_runs]
  · simp [row_intervals_of_runs]
  · simp [row_intervals_of_runs]
  · simp only [row_intervals_of_runs, List.forall₂_map_right_iff, List.forall₂_same]
    intro run _
    simp
  · simp only [row_intervals_of_runs, List.forall₂_map_right_iff, List.forall₂_same]
    intro run hrun
    have hrne : run ≠ [] := List.ne_nil_of_mem_splitBy _ hrun
    have hspec := run_item_spec end_rows rows run hin hrun
    have hlen : run_item end_rows run < end_rows.length := by
      have hh := hspec _ (List.head_mem hrne)
      obtain ⟨i, hi, hi', _⟩ := item_offset_spec end_rows _
        (hin _ (mem_rows_of_mem_run end_rows rows run hrun _ (List.head_mem hrne)))
      rw [hh] at hi'
      cases hi'
      exact hi
    refine ⟨hlen, ?_⟩
    intro r hr
    have hrr := mem_rows_of_mem_run end_rows rows run hrun r hr
    obtain ⟨i, _, hi, _, hlt, hle⟩ := item_offset_spec end_rows r (hin r hrr)
    have hh := hspec r hr
    rw [hi] at hh
    cases hh
    refine ⟨hi, hle, ?_, hlt⟩
    unfold item_first_row
    split
    · exact (hrange r hrr).1
    · exact hle _ (by omega)
  · exact run_items_sorted end_rows rows hasc hin

/-- Instance of C3 on `end_rows = [3, 7]`, `rows = [1, 2, 5]`. -/
theorem slice_into_row_intervals_shape_witness :
    ∃ info, slice_into_row_intervals [3, 7] [1, 2, 5] = some info ∧
      (row_runs [3, 7] [1, 2, 5]).flatten = [1, 2, 5] ∧
      (∀ run ∈ row_runs [3, 7] [1, 2, 5], run ≠ []) ∧
      info.item_ids.length = (row_runs [3, 7] [1, 2, 5]).length ∧
      info.item_intervals.length = (row_runs [3, 7] [1, 2, 5]).length ∧
      info.valid_offsets.length = (row_runs [3, 7] [1, 2, 5]).length ∧
      List.Forall₂ (fun run offsets => offsets.length = run.length)
        (row_runs [3, 7] [1, 2, 5]) info.valid_offsets ∧
      List.Forall₂ (fun run i => i < ([3, 7] : List Int).length ∧ ∀ r ∈ run,
          item_from_row [3, 7] r = some i ∧ (∀ j, j < i → ([3, 7] : List Int).getD j 0 ≤ r) ∧
          item_first_row [3, 7] i ≤ r ∧ r < ([3, 7] : List Int).getD i 0)
        (row_runs [3, 7] [1, 2, 5]) info.item_ids ∧
      info.item_ids.Sorted (· < ·) :=
  slice_into_row_intervals_shape [3, 7] [1, 2, 5] (by decide) (by decide) (by decide)
    (by decide)

/-- The stored intervals enclose the stored offsets, whatever `offset_from_row` computes: for
a non-empty table and non-empty ascending rows below `end_rows.back()`, the call returns a
result in which, for every entry `k`, `valid_offsets[k]` holds the values of `offset_from_row`
for the rows of run `k` in order and is non-empty, `item_intervals[k]` is (value for the first
row of the run, value for the last row of the run + 1), which is (first stored offset, last
stored offset + 1), and every stored offset `v` satisfies `item_start <= v < item_end`.
Whether these values are the offsets of the rows within their item is not part of this. -/
theorem slice_into_row_intervals_contiguity (end_rows rows : List Int) (hne : end_rows ≠ [])
    (hrows : rows ≠ []) (hasc : rows.Sorted (· ≤ ·))
    (hrange : ∀ r ∈ rows, r < end_rows.getLast hne) :
    ∃ info, slice_into_row_intervals end_rows rows = some info ∧
      List.Forall₂ (fun run offsets => List.Forall₂
          (fun r o => offset_from_row end_rows r = some o) run offsets)
        (row_runs end_rows rows) info.valid_offsets ∧
      List.Forall₂ (fun run iv => ∃ h : run ≠ [],
          offset_from_row end_rows (run.head h) = some iv.1 ∧
          offset_from_row end_rows (run.getLast h) = some (iv.2 - 1))
        (row_runs end_rows rows) info.item_intervals ∧
      List.Forall₂ (fun offsets iv => ∃ h : offsets ≠ [],
          iv = (offsets.head h, offsets.getLast h + 1) ∧
          ∀ v ∈ offsets, iv.1 ≤ v ∧ v < iv.2)
        info.valid_offsets info.item_intervals := by
  have hin : ∀ r ∈ rows, ∃ e ∈ end_rows, r < e := fun r hr =>
    ⟨_, List.getLast_mem hne, hrange r hr⟩
  have hoff : ∀ r ∈ rows, offset_from_row end_rows r = some (row_offset end_rows r) := by
    intro r hr
    obtain ⟨i, _, _, ho, _⟩ := item_offset_spec end_rows r (hin r hr)
    simp [row_offset, ho]
  refine ⟨_, slice_into_row_intervals_eq_runs end_rows rows hrows hin, ?_, ?_, ?_⟩
  · simp only [row_intervals_of_runs, List.forall₂_map_right_iff, List.forall₂_same]
    intro run hrun r hr
    exact hoff r (mem_rows_of_mem_run end_rows rows run hrun r hr)
  · simp only [row_intervals_of_runs, List.forall₂_map_right_iff, List.forall₂_same]
    intro run hrun
    have hrne : run ≠ [] := List.ne_nil_of_mem_splitBy _ hrun
    refine ⟨hrne, ?_, ?_⟩
    · rw [hoff _ (mem_rows_of_mem_run end_rows rows run hrun _ (List.head_mem hrne))]
      cases run with
      | nil => exact absurd rfl hrne
      | cons a t => simp [run_interval]
    · rw [hoff _ (mem_rows_of_mem_run end_rows rows run hrun _ (List.getLast_mem hrne))]
      unfold run_interval
      rw [getLastD_eq_getLast run hrne]
      simp
  · simp only [row_intervals_of_runs, List.forall₂_map_right_iff, List.forall₂_map_left_iff,
      List.forall₂_same]
    intro run hrun
    have hrne : run ≠ [] := List.ne_nil_of_mem_splitBy _ hrun
    have hb := run_offsets_bounds end_rows rows run hasc hin hrun hrne
    have hhd : run.headD 0 = run.head hrne := by
      cases run with
      | nil => exact absurd rfl hrne
      | cons a t => rfl
    have hlt : run.getLastD 0 = run.getLast hrne := getLastD_eq_getLast run hrne
    refine ⟨by simpa using hrne, ?_, ?_⟩
    · simp only [run_interval, hhd, hlt, List.head_map, List.getLast_map]
    · intro v hv
      obtain ⟨r, hr, rfl⟩ := List.mem_map.1 hv
      have := hb r hr
      simp only [run_interval, hhd, hlt]
      omega

/-- The stored intervals and offsets on `end_rows = [3, 7]`, `rows = [1, 2, 5]`. -/
theorem slice_into_row_intervals_contiguity_witness :
    ∃ info, slice_into_row_intervals [3, 7] [1, 2, 5] = some info ∧
      List.Forall₂ (fun run offsets => List.Forall₂
          (fun r o => offset_from_row [3, 7] r = some o) run offsets)
        (row_runs [3, 7] [1, 2, 5]) info.valid_offsets ∧
      List.Forall₂ (fun run iv => ∃ h : run ≠ [],
          offset_from_row [3, 7] (run.head h) = some iv.1 ∧
          offset_from_row [3, 7] (run.getLast h) = some (iv.2 - 1))
        (row_runs [3, 7] [1, 2, 5]) info.item_intervals ∧
      List.Forall₂ (fun offsets iv => ∃ h : offsets ≠ [],
          iv = (offsets.head h, offsets.getLast h + 1) ∧
          ∀ v ∈ offsets, iv.1 ≤ v ∧ v < iv.2)
        info.valid_offsets info.item_intervals :=
  slice_into_row_intervals_contiguity [3, 7] [1, 2, 5] (by decide) (by decide) (by decide)
    (by decide)

/-! ## The loop of `slice_into_video_intervals` -/

theorem getD_lt_of_sorted (kp : List Int) (hs : kp.Sorted (· < ·)) (i j : Nat) (hij : i < j)
    (hj : j < kp.length) : kp.getD i 0 < kp.getD j 0 := by
  rw [List.getD_eq_getElem kp 0 (by omega : i < kp.length), List.getD_eq_getElem kp 0 hj]
  exact List.pairwise_iff_getElem.1 hs i j (by omega) hj hij

theorem getD_le_of_sorted (kp : List Int) (hs : kp.Sorted (· < ·)) (i j : Nat) (hij : i ≤ j)
    (hj : j < kp.length) : kp.getD i 0 ≤ kp.getD j 0 := by
  rcases Nat.eq_or_lt_of_le hij with h | h
  · rw [h]
  · exact le_of_lt (getD_lt_of_sorted kp hs i j h hj)

theorem getElem?_eq_some_getD (kp : List Int) (i : Nat) (hi : i < kp.length) :
    kp[i]? = some (kp.getD i 0) := by
  rw [List.getD_eq_getElem kp 0 hi, List.getElem?_eq_getElem hi]

/-- The inner `while` loop stops at the first keyframe beyond the row. -/
theorem skip_keyframes_spec (kp : List Int) (row : Int)
    (hrow : row < kp.getD (kp.length - 1) 0) :
    ∀ (fuel e : Nat), e < kp.length → kp.length - e ≤ fuel →
      ∃ e2, skip_keyframes kp row fuel e = some e2 ∧ e ≤ e2 ∧ e2 < kp.length ∧
        row < kp.getD e2 0 ∧ ∀ j, e ≤ j → j < e2 → kp.getD j 0 ≤ row := by
  intro fuel
  induction fuel with
  | zero => intro e he hf; omega
  | succ fuel ih =>
    intro e he hf
    simp only [skip_keyframes, getElem?_eq_some_getD kp e he]
    by_cases hge : row ≥ kp.getD e 0
    · have he1 : e + 1 < kp.length := by
        by_contra hcon
        have : e = kp.length - 1 := by omega
        rw [this] at hge
        omega
      obtain ⟨e2, h1, h2, h3, h4, h5⟩ := ih (e + 1) he1 (by omega)
      refine ⟨e2, ?_, by omega, h3, h4, ?_⟩
      · rw [if_pos hge, if_pos he1]; exact h1
      · intro j hj1 hj2
        rcases Nat.eq_or_lt_of_le hj1 with h | h
        · rw [← h]; exact hge
        · exact h5 j (by omega) hj2
    · refine ⟨e, ?_, le_refl _, he, by omega, ?_⟩
      · rw [if_neg hge]
      · intro j hj1 hj2; omega

/-- One iteration of the row loop preserves the invariant. -/
theorem video_step_inv (kp : List Int) (hs : kp.Sorted (· < ·)) (done : List Int)
    (st : VideoSliceState) (row : Int) (hinv : VideoInv kp done st)
    (hprev : ∀ r, done.getLast? = some r → r ≤ row) (hlo : kp.getD 0 0 ≤ row)
    (hhi : row < kp.getD (kp.length - 1) 0) :
    ∃ st1, video_step kp st row = some st1 ∧ VideoInv kp (done ++ [row]) st1 := by
  have hbelow : kp.getD (st.end_keyframe_index - 1) 0 ≤ row := by
    cases hd : done.getLast? with
    | none =>
      have : done = [] := by simpa using hd
      rw [hinv.fresh this]
      exact hlo
    | some r => exact le_trans (hinv.last_row r hd).1 (hprev r hd)
  have hse := hinv.start_lt_end
  have hel := hinv.end_lt_size
  by_cases h1 : row ≥ st.next_keyframe
  · have hend : st.end_keyframe_index < kp.length - 1 := by
      by_contra hcon
      have : st.end_keyframe_index = kp.length - 1 := by omega
      rw [hinv.next_eq, this] at h1
      omega
    have he1 : st.end_keyframe_index + 1 < kp.length := by omega
    by_cases h2 : row ≥ kp.getD (st.end_keyframe_index + 1) 0
    · obtain ⟨e2, hk, hle, hlt, hrow, hall⟩ :=
        skip_keyframes_spec kp row hhi kp.length (st.end_keyframe_index + 1) he1 (by omega)
      have hne : e2 ≠ st.end_keyframe_index + 1 := by
        intro h; rw [h] at hrow; omega
      have hprevk : kp.getD (e2 - 1) 0 ≤ row := hall (e2 - 1) (by omega) (by omega)
      have hstep : video_step kp st row = some
          { start_keyframe_index := e2 - 1
            end_keyframe_index := e2
            next_keyframe := kp.getD e2 0
            valid_frames := [row]
            info := if st.valid_frames ≠ [] then
                st.info.emit st.start_keyframe_index (st.end_keyframe_index + 1 - 1)
                  st.valid_frames
              else st.info } := by
        unfold video_step
        rw [if_pos h1, if_pos hend]
        simp only [getElem?_eq_some_getD kp _ he1]
        rw [if_pos h2]
        simp only [hk, getElem?_eq_some_getD kp _ hlt]
      refine ⟨_, hstep, ?_⟩
      · by_cases hvf : st.valid_frames = []
        · refine ⟨by simp only; omega, hlt, rfl, by simp, ?_, ?_, ?_, ?_, ?_, ?_⟩
          · intro r hr
            have : r = row := by simpa using hr.symm
            rw [this]; exact ⟨hprevk, hrow⟩
          · intro f hf
            have : f = row := by simpa using hf
            rw [this]; exact ⟨hprevk, hrow⟩
          · have hc := hinv.concat
            simp only [hvf, List.append_nil] at hc
            simp [hvf, hc]
          · simpa [hvf] using hinv.emitted
          · simpa [hvf] using hinv.ordered
          · intro iv hiv
            have := hinv.before_start iv (by simpa [hvf] using hiv)
            simp only
            omega
        · refine ⟨by simp only; omega, hlt, rfl, by simp, ?_, ?_, ?_, ?_, ?_, ?_⟩
          · intro r hr
            have : r = row := by simpa using hr.symm
            rw [this]; exact ⟨hprevk, hrow⟩
          · intro f hf
            have : f = row := by simpa using hf
            rw [this]; exact ⟨hprevk, hrow⟩
          · simp only [hvf, ne_eq, not_false_eq_true, if_true, VideoIntervals.emit,
              List.flatten_append, List.flatten_cons, List.flatten_nil, List.append_nil]
            rw [hinv.concat]
          · simp only [hvf, ne_eq, not_false_eq_true, if_true, VideoIntervals.emit,
              Nat.add_sub_cancel]
            refine List.rel_append hinv.emitted ?_
            exact List.Forall₂.cons ⟨hse, hel, hinv.frames⟩ List.Forall₂.nil
          · simp only [hvf, ne_eq, not_false_eq_true, if_true, VideoIntervals.emit,
              Nat.add_sub_cancel]
            rw [List.chain'_append]
            refine ⟨hinv.ordered, List.chain'_singleton _, ?_⟩
            intro x hx y hy
            have hy' : y = (st.start_keyframe_index, st.end_keyframe_index) := by
              simpa using hy.symm
            rw [hy']
            exact hinv.before_start x hx
          · intro iv hiv
            have hiv2 : (st.start_keyframe_index, st.end_keyframe_index) = iv := by
              simpa [hvf, VideoIntervals.emit] using hiv
            rw [← hiv2]
            dsimp only
            omega
    · have hstep : video_step kp st row = some
          { st with end_keyframe_index := st.end_keyframe_index + 1
                    next_keyframe := kp.getD (st.end_keyframe_index + 1) 0
                    valid_frames := st.valid_frames ++ [row] } := by
        unfold video_step
        rw [if_pos h1, if_pos hend]
        simp only [getElem?_eq_some_getD kp _ he1]
        rw [if_neg h2]
      refine ⟨_, hstep, ?_⟩
      · refine ⟨by simp only; omega, he1, rfl, by simp, ?_, ?_, ?_, hinv.emitted,
          hinv.ordered, hinv.before_start⟩
        · intro r hr
          have : r = row := by simpa using hr.symm
          rw [this, hinv.next_eq] at *
          simp only [Nat.add_sub_cancel]
          exact ⟨h1, by omega⟩
        · intro f hf
          simp only at hf ⊢
          rcases List.mem_append.1 hf with hf | hf
          · have := hinv.frames f hf
            have hk := getD_lt_of_sorted kp hs st.end_keyframe_index
              (st.end_keyframe_index + 1) (by omega) he1
            exact ⟨this.1, by omega⟩
          · have : f = row := by simpa using hf
            rw [this]
            have hk := getD_le_of_sorted kp hs st.start_keyframe_index
              (st.end_keyframe_index - 1) (by omega) (by omega)
            exact ⟨by omega, by omega⟩
        · simp only
          rw [← List.append_assoc, hinv.concat]
  · have hstep : video_step kp st row =
        some { st with valid_frames := st.valid_frames ++ [row] } := by
      unfold video_step
      rw [if_neg h1]
    refine ⟨_, hstep, ?_⟩
    · refine ⟨hse, hel, hinv.next_eq, by simp, ?_, ?_, ?_, hinv.emitted, hinv.ordered,
        hinv.before_start⟩
      · intro r hr
        have hr2 : r = row := by simpa using hr.symm
        have := hinv.next_eq
        dsimp only
        exact ⟨by omega, by omega⟩
      · intro f hf
        simp only at hf ⊢
        rcases List.mem_append.1 hf with hf | hf
        · exact hinv.frames f hf
        · have : f = row := by simpa using hf
          rw [this]
          have hk := getD_le_of_sorted kp hs st.start_keyframe_index
            (st.end_keyframe_index - 1) (by omega) (by omega)
          have := hinv.next_eq
          exact ⟨by omega, by omega⟩
      · simp only
        rw [← List.append_assoc, hinv.concat]

/-- The row loop of `slice_into_video_intervals` runs to its end and keeps the invariant. -/
theorem video_loop_inv (kp : List Int) (hs : kp.Sorted (· < ·)) :
    ∀ (rows done : List Int) (st : VideoSliceState), VideoInv kp done st →
      (done ++ rows).Sorted (· ≤ ·) →
      (∀ r ∈ rows, kp.getD 0 0 ≤ r ∧ r < kp.getD (kp.length - 1) 0) →
      ∃ st1, rows.foldlM (video_step kp) st = some st1 ∧ VideoInv kp (done ++ rows) st1 := by
  intro rows
  induction rows with
  | nil =>
    intro done st hinv _ _
    exact ⟨st, rfl, by simpa using hinv⟩
  | cons row rest ih =>
    intro done st hinv hasc hrange
    have hprev : ∀ r, done.getLast? = some r → r ≤ row := by
      intro r hr
      have hmem : r ∈ done := List.mem_of_getLast?_eq_some hr
      exact (List.pairwise_append.1 hasc).2.2 r hmem row (List.mem_cons_self _ _)
    obtain ⟨st1, hstep, hinv1⟩ := video_step_inv kp hs done st row hinv hprev
      (hrange row (List.mem_cons_self _ _)).1 (hrange row (List.mem_cons_self _ _)).2
    have hasc1 : ((done ++ [row]) ++ rest).Sorted (· ≤ ·) := by simpa using hasc
    obtain ⟨st2, hfold, hinv2⟩ := ih (done ++ [row]) st1 hinv1 hasc1
      (fun r hr => hrange r (List.mem_cons_of_mem _ hr))
    refine ⟨st2, ?_, by simpa using hinv2⟩
    rw [List.foldlM_cons, hstep]
    exact hfold

/-- On valid input `slice_into_video_intervals` returns the intervals emitted by the loop
followed by the open run, and the final loop state satisfies the invariant for `rows`. -/
theorem slice_into_video_intervals_inv (kp rows : List Int) (hlen : 2 ≤ kp.length)
    (hs : kp.Sorted (· < ·)) (hasc : rows.Sorted (· ≤ ·))
    (hrange : ∀ r ∈ rows, kp.getD 0 0 ≤ r ∧ r < kp.getD (kp.length - 1) 0) :
    ∃ st, VideoInv kp rows st ∧
      slice_into_video_intervals kp rows =
        some (st.info.emit st.start_keyframe_index st.end_keyframe_index st.valid_frames) := by
  have h0 : VideoInv kp []
      { start_keyframe_index := 0, end_keyframe_index := 1, next_keyframe := kp.getD 1 0
        valid_frames := [], info := ⟨[], []⟩ } :=
    ⟨Nat.zero_lt_one, by dsimp only; omega, rfl, fun _ => rfl, by simp, by simp, by simp,
      List.Forall₂.nil, List.chain'_nil, by simp⟩
  obtain ⟨st, hfold, hinv⟩ := video_loop_inv kp hs rows [] _ h0 (by simpa using hasc) hrange
  refine ⟨st, by simpa using hinv, ?_⟩
  unfold slice_into_video_intervals
  rw [if_pos hlen]
  simp only [getElem?_eq_some_getD kp 1 (by omega), hfold, Option.map_some']

theorem forall₂_left_of_imp {α β : Type} {R : α → β → Prop} {P : α → Prop}
    (himp : ∀ a b, R a b → P a) (l : List α) (m : List β) (h : List.Forall₂ R l m) :
    ∀ a ∈ l, P a := by
  induction h with
  | nil => intro a ha; simp at ha
  | cons hab _ ih =>
    intro a ha
    rcases List.mem_cons.1 ha with rfl | ha
    · exact himp _ _ hab
    · exact ih a ha

/-! ## Claims on `slice_into_video_intervals` -/

/-- C2 (video-interval coverage): for strictly ascending `keyframe_positions` of size at least
two and non-empty ascending rows with `keyframe_positions[0] <= row < keyframe_positions.back()`,
the call returns a result in which `keyframe_index_intervals` and `valid_frames` have the same
length, the lists of `valid_frames` concatenated in order are `rows`, and every frame `f` of
`valid_frames[k]` satisfies
`keyframe_positions[start_kf_index[k]] <= f < keyframe_positions[end_kf_index[k]]`, both
indices being within the array. -/
theorem slice_into_video_intervals_coverage (kp rows : List Int) (hlen : 2 ≤ kp.length)
    (hs : kp.Sorted (· < ·)) (_hrows : rows ≠ []) (hasc : rows.Sorted (· ≤ ·))
    (hrange : ∀ r ∈ rows, kp.getD 0 0 ≤ r ∧ r < kp.getD (kp.length - 1) 0) :
    ∃ info, slice_into_video_intervals kp rows = some info ∧
      info.keyframe_index_intervals.length = info.valid_frames.length ∧
      info.valid_frames.flatten = rows ∧
      List.Forall₂ (fun (iv : Nat × Nat) (frames : List Int) =>
          iv.1 < kp.length ∧ iv.2 < kp.length ∧
          ∀ f ∈ frames, kp.getD iv.1 0 ≤ f ∧ f < kp.getD iv.2 0)
        info.keyframe_index_intervals info.valid_frames := by
  obtain ⟨st, hinv, hres⟩ := slice_into_video_intervals_inv kp rows hlen hs hasc hrange
  have hall : List.Forall₂ (fun (iv : Nat × Nat) (frames : List Int) =>
      iv.1 < kp.length ∧ iv.2 < kp.length ∧
      ∀ f ∈ frames, kp.getD iv.1 0 ≤ f ∧ f < kp.getD iv.2 0)
      (st.info.keyframe_index_intervals ++
        [(st.start_keyframe_index, st.end_keyframe_index)])
      (st.info.valid_frames ++ [st.valid_frames]) := by
    refine List.rel_append (hinv.emitted.imp ?_) ?_
    · intro iv fs h
      exact ⟨by omega, h.2.1, h.2.2⟩
    · have h1 := hinv.start_lt_end
      have h2 := hinv.end_lt_size
      exact List.Forall₂.cons ⟨by dsimp only; omega, h2, hinv.frames⟩ List.Forall₂.nil
  refine ⟨_, hres, ?_, ?_, hall⟩
  · exact hall.length_eq
  · simp only [VideoIntervals.emit, List.flatten_append, List.flatten_cons, List.flatten_nil,
      List.append_nil]
    exact hinv.concat

/-- Instance of C2 on `keyframe_positions = [0, 30, 60, 90, 100]`, `rows = [35, 95]`. -/
theorem slice_into_video_intervals_coverage_witness :
    ∃ info, slice_into_video_intervals [0, 30, 60, 90, 100] [35, 95] = some info ∧
      info.keyframe_index_intervals.length = info.valid_frames.length ∧
      info.valid_frames.flatten = [35, 95] ∧
      List.Forall₂ (fun (iv : Nat × Nat) (frames : List Int) =>
          iv.1 < ([0, 30, 60, 90, 100] : List Int).length ∧
          iv.2 < ([0, 30, 60, 90, 100] : List Int).length ∧
          ∀ f ∈ frames, ([0, 30, 60, 90, 100] : List Int).getD iv.1 0 ≤ f ∧
            f < ([0, 30, 60, 90, 100] : List Int).getD iv.2 0)
        info.keyframe_index_intervals info.valid_frames :=
  slice_into_video_intervals_coverage [0, 30, 60, 90, 100] [35, 95] (by decide) (by decide)
    (by decide) (by decide) (by decide)

/-- C5 (video-interval byte monotonicity): for strictly ascending `keyframe_positions` (size
at least two) and `keyframe_byte_offsets` of the same length and valid ascending rows, every
interval returned has `start_kf_index < end_kf_index` within the arrays, hence
`keyframe_byte_offsets[start_kf_index] < keyframe_byte_offsets[end_kf_index]`, and
`end_kf_index[k] <= start_kf_index[k+1]` for every consecutive pair of intervals. -/
theorem slice_into_video_intervals_byte_monotone (kp kbo rows : List Int)
    (hlen : 2 ≤ kp.length) (hs : kp.Sorted (· < ·)) (hkbo : kbo.Sorted (· < ·))
    (hsame : kbo.length = kp.length) (_hrows : rows ≠ []) (hasc : rows.Sorted (· ≤ ·))
    (hrange : ∀ r ∈ rows, kp.getD 0 0 ≤ r ∧ r < kp.getD (kp.length - 1) 0) :
    ∃ info, slice_into_video_intervals kp rows = some info ∧
      (∀ iv ∈ info.keyframe_index_intervals, iv.1 < iv.2 ∧ iv.2 < kbo.length ∧
        kbo.getD iv.1 0 < kbo.getD iv.2 0) ∧
      info.keyframe_index_intervals.Chain' (fun a b => a.2 ≤ b.1) := by
  obtain ⟨st, hinv, hres⟩ := slice_into_video_intervals_inv kp rows hlen hs hasc hrange
  refine ⟨_, hres, ?_, ?_⟩
  · intro iv hiv
    have hb : iv.1 < iv.2 ∧ iv.2 < kp.length := by
      rcases List.mem_append.1 hiv with h | h
      · exact forall₂_left_of_imp (P := fun iv : Nat × Nat => iv.1 < iv.2 ∧ iv.2 < kp.length)
          (fun a b hab => ⟨hab.1, hab.2.1⟩) _ _ hinv.emitted iv h
      · have : iv = (st.start_keyframe_index, st.end_keyframe_index) := by simpa using h
        rw [this]
        exact ⟨hinv.start_lt_end, hinv.end_lt_size⟩
    exact ⟨hb.1, by omega, getD_lt_of_sorted kbo hkbo iv.1 iv.2 hb.1 (by omega)⟩
  · simp only [VideoIntervals.emit]
    rw [List.chain'_append]
    refine ⟨hinv.ordered, List.chain'_singleton _, ?_⟩
    intro x hx y hy
    have hy2 : y = (st.start_keyframe_index, st.end_keyframe_index) := by
      simpa using hy.symm
    rw [hy2]
    exact hinv.before_start x hx

/-- Instance of C5 on `keyframe_positions = [0, 30, 60, 90, 100]`,
`keyframe_byte_offsets = [0, 500, 900, 1400, 2000]`, `rows = [35, 95]`. -/
theorem slice_into_video_intervals_byte_monotone_witness :
    ∃ info, slice_into_video_intervals [0, 30, 60, 90, 100] [35, 95] = some info ∧
      (∀ iv ∈ info.keyframe_index_intervals, iv.1 < iv.2 ∧
        iv.2 < ([0, 500, 900, 1400, 2000] : List Int).length ∧
        ([0, 500, 900, 1400, 2000] : List Int).getD iv.1 0 <
          ([0, 500, 900, 1400, 2000] : List Int).getD iv.2 0) ∧
      info.keyframe_index_intervals.Chain' (fun a b => a.2 ≤ b.1) :=
  slice_into_video_intervals_byte_monotone [0, 30, 60, 90, 100] [0, 500, 900, 1400, 2000]
    [35, 95] (by decide) (by decide) (by decide) (by decide) (by decide) (by decide)
    (by decide)

/-- C6 (terminator keyframe of the last run): for strictly ascending `keyframe_positions` of
size at least two and non-empty ascending rows within
`[keyframe_positions[0], keyframe_positions.back())`, the call returns a result whose last
interval `(s, e)` has `e` within the array, `keyframe_positions[e] > rows.back()`, and
`keyframe_positions[j] <= rows.back()` for every `j < e`: `e` is the smallest index whose
keyframe position exceeds the last row. -/
theorem slice_into_video_intervals_terminator (kp rows : List Int) (hlen : 2 ≤ kp.length)
    (hs : kp.Sorted (· < ·)) (hrows : rows ≠ []) (hasc : rows.Sorted (· ≤ ·))
    (hrange : ∀ r ∈ rows, kp.getD 0 0 ≤ r ∧ r < kp.getD (kp.length - 1) 0) :
    ∃ info s e, slice_into_video_intervals kp rows = some info ∧
      info.keyframe_index_intervals.getLast? = some (s, e) ∧ e < kp.length ∧
      rows.getLast hrows < kp.getD e 0 ∧ ∀ j, j < e → kp.getD j 0 ≤ rows.getLast hrows := by
  obtain ⟨st, hinv, hres⟩ := slice_into_video_intervals_inv kp rows hlen hs hasc hrange
  have hl := hinv.last_row (rows.getLast hrows) (List.getLast?_eq_getLast _ hrows)
  have h1 := hinv.start_lt_end
  have h2 := hinv.end_lt_size
  refine ⟨_, st.start_keyframe_index, st.end_keyframe_index, hres, ?_, h2, hl.2, ?_⟩
  · simp [VideoIntervals.emit]
  · intro j hj
    have := getD_le_of_sorted kp hs j (st.end_keyframe_index - 1) (by omega) (by omega)
    omega

/-- Instance of C6 on `keyframe_positions = [0, 30, 60, 90, 100]`, `rows = [35, 95]`. -/
theorem slice_into_video_intervals_terminator_witness :
    ∃ info s e, slice_into_video_intervals [0, 30, 60, 90, 100] [35, 95] = some info ∧
      info.keyframe_index_intervals.getLast? = some (s, e) ∧
      e < ([0, 30, 60, 90, 100] : List Int).length ∧
      ([35, 95] : List Int).getLast (by decide) < ([0, 30, 60, 90, 100] : List Int).getD e 0 ∧
      ∀ j, j < e → ([0, 30, 60, 90, 100] : List Int).getD j 0 ≤
        ([35, 95] : List Int).getLast (by decide) :=
  slice_into_video_intervals_terminator [0, 30, 60, 90, 100] [35, 95] (by decide) (by decide)
    (by decide) (by decide) (by decide)

/-! ## The item file and its header -/

theorem le_bytes_length : ∀ (w n : Nat), (le_bytes w n).length = w
  | 0, _ => rfl
  | w + 1, n => by simp [le_bytes, le_bytes_length w]

theorem le_value_le_bytes : ∀ (w n : Nat), le_value (le_bytes w n) = n % 256 ^ w
  | 0, n => by simp [le_bytes, le_value, Nat.mod_one]
  | w + 1, n => by
    simp only [le_bytes, le_value, le_value_le_bytes w, pow_succ']
    rw [Nat.mod_mul]

theorem le_value_le_bytes_u64 (n : Nat) (h : n < u64_mod) : le_value (le_bytes 8 n) = n := by
  rw [le_value_le_bytes]
  exact Nat.mod_eq_of_lt (by simpa [u64_mod] using h)

/-- Converting the stored `i64` back to `u64` gives the stored bits. -/
theorem to_u64_to_i64 (n : Nat) (h : n < u64_mod) : to_u64 (to_i64 n) = n := by
  unfold to_u64 to_i64
  unfold u64_mod at *
  split
  · have h1 : ((n : Int) % ((2 ^ 64 : Nat) : Int)) = n := by
      apply Int.emod_eq_of_lt <;> omega
    rw [h1]; simp
  · have h1 : (((n : Int) - ((2 ^ 64 : Nat) : Int)) % ((2 ^ 64 : Nat) : Int)) = n := by
      rw [Int.sub_emod, Int.emod_self, sub_zero, Int.emod_emod]
      apply Int.emod_eq_of_lt <;> omega
    rw [h1]; simp

theorem sizes_bytes_length (blobs : List (List Nat)) :
    (blobs.map fun b => le_bytes 8 b.length).flatten.length = 8 * blobs.length := by
  induction blobs with
  | nil => rfl
  | cons b t ih =>
    simp only [List.map_cons, List.flatten_cons, List.length_append, le_bytes_length, ih,
      List.length_cons]
    ring

theorem item_file_length (blobs : List (List Nat)) :
    (item_file blobs).length = 8 + 8 * blobs.length + (blobs.map List.length).sum := by
  unfold item_file
  rw [List.length_append, List.length_append, le_bytes_length, sizes_bytes_length,
    List.length_flatten]

/-- The vector `row_sizes` read back from the header holds the blob lengths. -/
theorem decode_i64s_sizes (blobs : List (List Nat)) (hlen : ∀ b ∈ blobs, b.length < u64_mod)
    (rest : List Nat) :
    decode_i64s blobs.length ((blobs.map fun b => le_bytes 8 b.length).flatten ++ rest) =
      blobs.map fun b => to_i64 b.length := by
  induction blobs with
  | nil => rfl
  | cons b t ih =>
    have hb : b.length < u64_mod := hlen b (List.mem_cons_self _ _)
    simp only [List.length_cons, List.map_cons, List.flatten_cons, decode_i64s,
      List.append_assoc]
    rw [List.take_left' (le_bytes_length 8 _), List.drop_left' (le_bytes_length 8 _),
      le_value_le_bytes_u64 _ hb, ih (fun x hx => hlen x (List.mem_cons_of_mem _ hx))]

theorem s_read_num_rows (blobs : List (List Nat)) :
    s_read (item_file blobs) 8 0 = some (le_bytes 8 blobs.length, 8) := by
  unfold s_read
  rw [if_pos (by rw [item_file_length]; omega)]
  simp only [item_file, List.drop_zero, List.append_assoc, Nat.zero_add]
  rw [List.take_left' (le_bytes_length 8 _)]

theorem s_read_row_sizes (blobs : List (List Nat)) :
    s_read (item_file blobs) (8 * blobs.length) 8 =
      some ((blobs.map fun b => le_bytes 8 b.length).flatten, 8 + 8 * blobs.length) := by
  unfold s_read
  rw [if_pos (by rw [item_file_length]; omega)]
  simp only [item_file, List.append_assoc]
  rw [List.drop_left' (le_bytes_length 8 _), List.take_left' (sizes_bytes_length blobs)]

theorem s_read_chunk (blobs : List (List Nat)) (a c : Nat) :
    s_read (item_file blobs) (((blobs.drop a).take c).map List.length).sum
        (8 + 8 * blobs.length + ((blobs.take a).map List.length).sum) =
      some (((blobs.drop a).take c).flatten,
        8 + 8 * blobs.length + ((blobs.take a).map List.length).sum +
          (((blobs.drop a).take c).map List.length).sum) := by
  have hsum : ((blobs.take a).map List.length).sum +
      (((blobs.drop a).take c).map List.length).sum ≤ (blobs.map List.length).sum := by
    have h1 := List.sum_take_add_sum_drop (blobs.map List.length) a
    have h2 := List.sum_take_add_sum_drop ((blobs.drop a).map List.length) c
    simp only [← List.map_take, ← List.map_drop] at h1 h2
    omega
  unfold s_read
  rw [if_pos (by rw [item_file_length]; omega)]
  have hhdr : (le_bytes 8 blobs.length ++
      (blobs.map fun b => le_bytes 8 b.length).flatten).length = 8 + 8 * blobs.length := by
    rw [List.length_append, le_bytes_length, sizes_bytes_length]
  have hdrop : List.drop (8 + 8 * blobs.length + ((blobs.take a).map List.length).sum)
      (item_file blobs) = (blobs.drop a).flatten := by
    unfold item_file
    rw [← hhdr, List.drop_append, List.map_take, List.drop_sum_flatten]
  rw [hdrop]
  have htake := List.take_sum_flatten (blobs.drop a) c
  rw [List.map_take, htake]

/-! ## The loops of `read_other_column` -/

theorem int_range_self (a : Int) : int_range a a = [] := by
  simp [int_range]

theorem int_range_cons (a b : Nat) (h : a < b) :
    int_range (a : Int) (b : Int) = (a : Int) :: int_range ((a + 1 : Nat) : Int) (b : Int) := by
  unfold int_range
  have h1 : ((b : Int) - (a : Int)).toNat = (b - (a + 1)) + 1 := by omega
  have h2 : ((b : Int) - ((a + 1 : Nat) : Int)).toNat = b - (a + 1) := by omega
  rw [h1, h2, List.range_succ_eq_map, List.map_cons, List.map_map]
  refine congrArg₂ _ (by simp) ?_
  apply List.map_congr_left
  intro k _
  simp only [Function.comp_apply, Nat.succ_eq_add_one]
  push_cast
  ring

theorem get_at_map_natCast {α β : Type} (f : α → β) (l : List α) (d : α) (i : Nat)
    (hi : i < l.length) : get_at (l.map f) (i : Int) = some (f (l.getD i d)) := by
  unfold get_at
  rw [if_pos (Int.natCast_nonneg i), Int.toNat_natCast, List.getElem?_map,
    List.getElem?_eq_getElem hi, List.getD_eq_getElem l d hi]
  rfl

theorem drop_take_succ (blobs : List (List Nat)) (a c : Nat) (ha : a < blobs.length) :
    (blobs.drop a).take (c + 1) = blobs.getD a [] :: (blobs.drop (a + 1)).take c := by
  rw [List.drop_eq_getElem_cons ha, List.take_succ_cons, List.getD_eq_getElem blobs [] ha]

/-- The two summation loops add up the sizes of the rows they run over. -/
theorem sum_row_sizes (blobs : List (List Nat)) (hlen : ∀ b ∈ blobs, b.length < u64_mod) :
    ∀ (c a acc : Nat), a + c ≤ blobs.length →
      acc + (((blobs.drop a).take c).map List.length).sum < u64_mod →
      (int_range (a : Int) ((a + c : Nat) : Int)).foldlM
          (add_row_size (blobs.map fun b => to_i64 b.length)) acc =
        some (acc + (((blobs.drop a).take c).map List.length).sum) := by
  intro c
  induction c with
  | zero =>
    intro a acc _ _
    simp [int_range_self]
  | succ c ih =>
    intro a acc hac hsum
    have ha : a < blobs.length := by omega
    have hb : (blobs.getD a []).length < u64_mod := by
      rw [List.getD_eq_getElem blobs [] ha]
      exact hlen _ (List.getElem_mem _)
    rw [drop_take_succ blobs a c ha, List.map_cons, List.sum_cons] at hsum ⊢
    rw [int_range_cons a (a + (c + 1)) (by omega), List.foldlM_cons]
    have hstep : add_row_size (blobs.map fun b => to_i64 b.length) acc (a : Int) =
        some (acc + (blobs.getD a []).length) := by
      unfold add_row_size
      rw [get_at_map_natCast (fun b : List Nat => to_i64 b.length) blobs [] a ha]
      simp only [Option.map_some', to_u64_to_i64 _ hb]
      rw [Nat.mod_eq_of_lt (by omega)]
    rw [hstep]
    have := ih (a + 1) (acc + (blobs.getD a []).length) (by omega) (by omega)
    simp only [Option.bind_eq_bind, Option.some_bind]
    rw [show a + (c + 1) = a + 1 + c by omega, this]
    congr 1
    omega

theorem sum_take_getD_drop (C : List (List Nat)) (j : Nat) (hj : j < C.length) :
    ((C.take j).map List.length).sum + (C.getD j []).length +
      ((C.drop (j + 1)).map List.length).sum = (C.map List.length).sum := by
  have h1 := List.sum_take_add_sum_drop (C.map List.length) j
  rw [← List.map_take, ← List.map_drop, List.drop_eq_getElem_cons hj, List.map_cons,
    List.sum_cons, ← List.getD_eq_getElem C [] hj] at h1
  omega

theorem sum_take_succ (C : List (List Nat)) (j : Nat) (hj : j < C.length) :
    ((C.take (j + 1)).map List.length).sum =
      ((C.take j).map List.length).sum + (C.getD j []).length := by
  rw [List.getD_eq_getElem C [] hj, List.take_succ, List.getElem?_eq_getElem hj]
  simp only [Option.toList, List.map_append, List.map_cons, List.map_nil, List.sum_append,
    List.sum_cons, List.sum_nil, Nat.add_zero]

/-- The bytes of row `j` of the chunk sit at the running offset. -/
theorem chunk_slice (C : List (List Nat)) (j : Nat) (hj : j < C.length) :
    (C.flatten.drop ((C.take j).map List.length).sum).take (C.getD j []).length =
      C.getD j [] := by
  rw [List.map_take, List.drop_sum_flatten, List.drop_eq_getElem_cons hj, List.flatten_cons,
    List.getD_eq_getElem C [] hj]
  exact List.take_left' rfl

/-- The extraction loop, started at row `is_ + j` of the item with the offsets `rest` still to
serve, inserts exactly the rows named by `rest` and consumes all of `valid_offsets`. -/
theorem extract_loop (rs vo : List Int) (C : List (List Nat)) (is_ : Nat)
    (hrs : ∀ j, j < C.length →
      get_at rs ((is_ + j : Nat) : Int) = some (to_i64 (C.getD j []).length))
    (hC : (C.map List.length).sum < u64_mod) :
    ∀ (m j : Nat) (st : ExtractState) (pre rest : List Int), j + m = C.length →
      vo = pre ++ rest → pre.length = st.valid_idx → rest.Sorted (· < ·) →
      (∀ v ∈ rest, ((is_ + j : Nat) : Int) ≤ v ∧ v < ((is_ + C.length : Nat) : Int)) →
      (0 < m → rest.getLast? = some (((is_ + C.length : Nat) : Int) - 1)) →
      st.offset = ((C.take j).map List.length).sum →
      ∃ st1, (int_range ((is_ + j : Nat) : Int) ((is_ + C.length : Nat) : Int)).foldlM
            (extract_step rs vo C.flatten) st = some st1 ∧
        st1.valid_idx = vo.length ∧
        st1.row_list = st.row_list ++ rest.map (fun v => C.getD (v.toNat - is_) []) := by
  intro m
  induction m with
  | zero =>
    intro j st pre rest hj hvo hpre _ hin _ _
    have hjC : j = C.length := by omega
    have hrest : rest = [] := by
      cases rest with
      | nil => rfl
      | cons v t =>
        have := hin v (List.mem_cons_self _ _)
        omega
    subst hjC
    refine ⟨st, by simp [int_range_self], ?_, by simp [hrest]⟩
    rw [hvo, hrest, List.append_nil, hpre]
  | succ m ih =>
    intro j st pre rest hj hvo hpre hsorted hin hlast hoff
    have hjC : j < C.length := by omega
    have hsplit := sum_take_getD_drop C j hjC
    cases rest with
    | nil => simp at hlast
    | cons v rest1 =>
      have hv := hin v (List.mem_cons_self _ _)
      have hidx : vo[st.valid_idx]? = some v := by
        rw [hvo, ← hpre, List.getElem?_append_right (le_refl _), Nat.sub_self]
        simp
      have hsz : (C.getD j []).length < u64_mod := by omega
      have hgt : ∀ w ∈ rest1, v < w := (List.pairwise_cons.1 hsorted).1
      rw [int_range_cons (is_ + j) (is_ + C.length) (by omega), List.foldlM_cons]
      by_cases hvi : ((is_ + j : Nat) : Int) = v
      · have hstep : extract_step rs vo C.flatten st ((is_ + j : Nat) : Int) =
            some { offset := st.offset + (C.getD j []).length
                   valid_idx := st.valid_idx + 1
                   row_list := st.row_list ++ [C.getD j []] } := by
          unfold extract_step
          simp only [hrs j hjC, hidx, to_u64_to_i64 _ hsz]
          rw [if_pos hvi, if_pos (by rw [List.length_flatten, hoff]; omega),
            Nat.mod_eq_of_lt (by rw [hoff]; omega), hoff, chunk_slice C j hjC]
        rw [hstep]
        obtain ⟨st1, hfold, hidx1, hrows⟩ := ih (j + 1)
          { offset := st.offset + (C.getD j []).length
            valid_idx := st.valid_idx + 1
            row_list := st.row_list ++ [C.getD j []] }
          (pre ++ [v]) rest1 (by omega) (by simp [hvo]) (by simp [hpre])
          (List.pairwise_cons.1 hsorted).2
          (fun w hw => by
            have h1 := hgt w hw
            have h2 := hin w (List.mem_cons_of_mem _ hw)
            exact ⟨by omega, h2.2⟩)
          (fun hm => by
            have hl := hlast (Nat.succ_pos _)
            cases rest1 with
            | nil =>
              have : v = ((is_ + C.length : Nat) : Int) - 1 := by simpa using hl
              omega
            | cons w t => simpa [List.getLast?_cons_cons] using hl)
          (by rw [sum_take_succ C j hjC, hoff])
        refine ⟨st1, ?_, hidx1, ?_⟩
        · simpa using hfold
        · rw [hrows]
          have hb : C.getD (v.toNat - is_) [] = C.getD j [] := by
            congr 1
            omega
          dsimp only
          rw [List.map_cons, hb, List.append_assoc, List.singleton_append]
      · have hstep : extract_step rs vo C.flatten st ((is_ + j : Nat) : Int) =
            some { st with offset := st.offset + (C.getD j []).length } := by
          unfold extract_step
          simp only [hrs j hjC, hidx, to_u64_to_i64 _ hsz]
          rw [if_neg hvi, Nat.mod_eq_of_lt (by rw [hoff]; omega)]
        rw [hstep]
        obtain ⟨st1, hfold, hidx1, hrows⟩ := ih (j + 1)
          { st with offset := st.offset + (C.getD j []).length }
          pre (v :: rest1) (by omega) hvo hpre hsorted
          (fun w hw => by
            have h2 := hin w hw
            rcases List.mem_cons.1 hw with h | h
            · rw [h]; exact ⟨by omega, hv.2⟩
            · have h1 := hgt w h
              exact ⟨by omega, h2.2⟩)
          (fun _ => hlast (Nat.succ_pos _))
          (by rw [sum_take_succ C j hjC, hoff])
        exact ⟨st1, by simpa using hfold, hidx1, hrows⟩

theorem length_le_sum_lengths (blobs : List (List Nat)) :
    ∀ b ∈ blobs, b.length ≤ (blobs.map List.length).sum := by
  induction blobs with
  | nil => intro b hb; simp at hb
  | cons x t ih =>
    intro b hb
    rw [List.map_cons, List.sum_cons]
    rcases List.mem_cons.1 hb with rfl | hb
    · omega
    · have := ih b hb
      omega

theorem chunk_getD (blobs : List (List Nat)) (a c j : Nat) (hj : j < c) :
    ((blobs.drop a).take c).getD j [] = blobs.getD (a + j) [] := by
  rw [List.getD_eq_getElem?_getD, List.getD_eq_getElem?_getD, List.getElem?_take_of_lt hj,
    List.getElem?_drop]

/-! ## Claim on `read_other_column` -/

/-- C7 (row extraction of `read_other_column`): for an item file laid out as
`[u64 num_rows][i64 row_sizes[num_rows]]` followed by the row blobs in row order (of a size
that fits `u64`), every `0 <= item_start < item_end <= num_rows` and every strictly ascending
`valid_offsets` within `[item_start, item_end)` whose last element is `item_end - 1`, the call
returns; after the two header reads it issues the single read of the
`sum row_sizes[item_start..item_end)` bytes that start `sum row_sizes[0..item_start)` bytes
after the header; and it appends to the output exactly one row per element of
`valid_offsets`, in order, the row for `v` being the stored blob of row `v`. -/
theorem read_other_column_rows (blobs : List (List Nat)) (item_start item_end : Int)
    (valid_offsets : List Int) (row_list : List (List Nat))
    (hfile : (item_file blobs).length < 2 ^ 64)
    (h0 : 0 ≤ item_start) (h1 : item_start < item_end) (h2 : item_end ≤ blobs.length)
    (hasc : valid_offsets.Sorted (· < ·))
    (hin : ∀ v ∈ valid_offsets, item_start ≤ v ∧ v < item_end)
    (hlast : valid_offsets.getLast? = some (item_end - 1)) :
    read_other_column (item_file blobs) item_start item_end valid_offsets row_list =
      some { row_list := row_list ++ valid_offsets.map fun v => blobs.getD v.toNat []
             reads := [(0, 8), (8, 8 * blobs.length),
               (8 + 8 * blobs.length + ((blobs.take item_start.toNat).map List.length).sum,
                (((blobs.drop item_start.toNat).take (item_end - item_start).toNat).map
                  List.length).sum)] } := by
  obtain ⟨a, rfl⟩ := Int.eq_ofNat_of_zero_le h0
  obtain ⟨b, rfl⟩ := Int.eq_ofNat_of_zero_le (by omega : 0 ≤ item_end)
  have hab : a < b := by omega
  have hbn : b ≤ blobs.length := by omega
  have hM : 8 + 8 * blobs.length + (blobs.map List.length).sum < u64_mod := by
    rw [← item_file_length]; exact hfile
  have hlen : ∀ x ∈ blobs, x.length < u64_mod := fun x hx =>
    lt_of_le_of_lt (length_le_sum_lengths blobs x hx) (by omega)
  have hparts : ((blobs.take a).map List.length).sum +
      (((blobs.drop a).take (b - a)).map List.length).sum ≤ (blobs.map List.length).sum := by
    have e1 := List.sum_take_add_sum_drop (blobs.map List.length) a
    have e2 := List.sum_take_add_sum_drop ((blobs.drop a).map List.length) (b - a)
    simp only [← List.map_take, ← List.map_drop] at e1 e2
    omega
  have hsum1 := sum_row_sizes blobs hlen a 0 0 (by omega)
    (by simp only [List.drop_zero]; omega)
  simp only [Nat.cast_zero, Nat.zero_add, List.drop_zero] at hsum1
  have hsum2 := sum_row_sizes blobs hlen (b - a) a ((blobs.take a).map List.length).sum
    (by omega) (by omega)
  rw [show a + (b - a) = b by omega] at hsum2
  have hCl : ((blobs.drop a).take (b - a)).length = b - a := by
    rw [List.length_take, List.length_drop]; omega
  have hloop := extract_loop (blobs.map fun x => to_i64 x.length) valid_offsets
    ((blobs.drop a).take (b - a)) a
    (fun j hj => by
      rw [hCl] at hj
      rw [chunk_getD blobs a (b - a) j hj]
      exact get_at_map_natCast (fun x : List Nat => to_i64 x.length) blobs [] (a + j)
        (by omega))
    (by omega) (b - a) 0 ⟨0, 0, row_list⟩ [] valid_offsets (by rw [hCl]; omega) rfl rfl hasc
    (fun v hv => by
      have := hin v hv
      rw [hCl]
      exact ⟨by omega, by omega⟩)
    (fun _ => by
      rw [hCl, hlast]
      congr 1
      omega)
    (by simp)
  rw [hCl] at hloop
  simp only [Nat.add_zero, show a + (b - a) = b by omega] at hloop
  obtain ⟨st1, hfold, hidx, hrows⟩ := hloop
  have hmap : (valid_offsets.map fun v => ((blobs.drop a).take (b - a)).getD (v.toNat - a) []) =
      valid_offsets.map fun v => blobs.getD v.toNat [] := by
    apply List.map_congr_left
    intro v hv
    have := hin v hv
    rw [chunk_getD blobs a (b - a) (v.toNat - a) (by omega)]
    congr 1
    omega
  unfold read_other_column
  simp only [s_read_num_rows, le_value_le_bytes_u64 blobs.length (by omega)]
  rw [show blobs.length * 8 % u64_mod = 8 * blobs.length by
    rw [Nat.mod_eq_of_lt (by omega)]; omega]
  simp only [s_read_row_sizes]
  have hdec := decode_i64s_sizes blobs hlen []
  rw [List.append_nil] at hdec
  simp only [hdec, hsum1, hsum2]
  rw [show (((blobs.take a).map List.length).sum +
        (((blobs.drop a).take (b - a)).map List.length).sum + u64_mod -
        ((blobs.take a).map List.length).sum) % u64_mod =
      (((blobs.drop a).take (b - a)).map List.length).sum by
    rw [show ((blobs.take a).map List.length).sum +
        (((blobs.drop a).take (b - a)).map List.length).sum + u64_mod -
        ((blobs.take a).map List.length).sum =
        (((blobs.drop a).take (b - a)).map List.length).sum + u64_mod by omega]
    rw [Nat.add_mod_right, Nat.mod_eq_of_lt (by omega)]]
  rw [show (8 + 8 * blobs.length + ((blobs.take a).map List.length).sum) % u64_mod =
      8 + 8 * blobs.length + ((blobs.take a).map List.length).sum from
    Nat.mod_eq_of_lt (by omega)]
  simp only [s_read_chunk, hfold, hidx, if_true, hrows, hmap, Int.toNat_natCast]
  rw [show ((b : Int) - (a : Int)).toNat = b - a by omega]

/-- Instance of C7, the scenario of the non-video column: the table has
`end_rows = [3, 7]`, the rows of item 0 are three blobs of 4 bytes and those of item 1 four
blobs of 8 bytes, and rows `[1, 2, 5]` are requested.  The row-intervals are `(1, 3)` on item
0 and `(2, 3)` on item 1; the call on item 0 inserts the two 4-byte blobs of rows 1 and 2, the
call on item 1 appends the 8-byte blob of row 2 of that item. -/
theorem read_other_column_rows_witness :
    slice_into_row_intervals [3, 7] [1, 2, 5] =
        some ⟨[0, 1], [(1, 3), (2, 3)], [[1, 2], [2]]⟩ ∧
      read_other_column (item_file [[10, 11, 12, 13], [20, 21, 22, 23], [30, 31, 32, 33]])
          1 3 [1, 2] [] =
        some { row_list := [[20, 21, 22, 23], [30, 31, 32, 33]]
               reads := [(0, 8), (8, 24), (36, 8)] } ∧
      read_other_column
          (item_file [[1, 1, 1, 1, 1, 1, 1, 1], [2, 2, 2, 2, 2, 2, 2, 2],
            [3, 4, 5, 6, 7, 8, 9, 10], [4, 4, 4, 4, 4, 4, 4, 4]])
          2 3 [2] [[20, 21, 22, 23], [30, 31, 32, 33]] =
        some { row_list := [[20, 21, 22, 23], [30, 31, 32, 33], [3, 4, 5, 6, 7, 8, 9, 10]]
               reads := [(0, 8), (8, 32), (56, 8)] } :=
  ⟨by decide,
    read_other_column_rows [[10, 11, 12, 13], [20, 21, 22, 23], [30, 31, 32, 33]] 1 3 [1, 2] []
      (by decide) (by decide) (by decide) (by decide) (by decide) (by decide) (by decide),
    read_other_column_rows
      [[1, 1, 1, 1, 1, 1, 1, 1], [2, 2, 2, 2, 2, 2, 2, 2], [3, 4, 5, 6, 7, 8, 9, 10],
        [4, 4, 4, 4, 4, 4, 4, 4]]
      2 3 [2] [[20, 21, 22, 23], [30, 31, 32, 33]]
      (by decide) (by decide) (by decide) (by decide) (by decide) (by decide) (by decide)⟩

/-! ## `validate_task_set` never turns a failed result into a success -/

theorem validate_sample_false (meta : DatabaseMetadata) (result : Result) (sample : TableSample)
    (h : result.success = false) : (validate_sample meta result sample).success = false := by
  unfold validate_sample
  split <;> split <;> simp [Result.set_success_false, h]

theorem validate_samples_false (meta : DatabaseMetadata) :
    ∀ (samples : List TableSample) (result : Result), result.success = false →
      (samples.foldl (validate_sample meta) result).success = false
  | [], _, h => h
  | s :: rest, result, h =>
    validate_samples_false meta rest _ (validate_sample_false meta result s h)

theorem ite_set_false (c : Prop) [Decidable c] (r : Result) (h : r.success = false) :
    (if c then r.set_success_false else r).success = false := by
  split
  · rfl
  · exact h

theorem ite_set_true (c : Prop) [Decidable c] (r : Result) (hc : c) :
    (if c then r.set_success_false else r).success = false := by
  rw [if_pos hc]
  rfl

theorem validate_sample_bad (meta : DatabaseMetadata) (result : Result) (sample : TableSample)
    (h : sample.column_names = [] ∨ meta.has_table sample.table_name = false) :
    (validate_sample meta result sample).success = false := by
  unfold validate_sample
  dsimp only
  rcases h with h | h
  · exact ite_set_true _ _ (by simp [h])
  · exact ite_set_false _ _ (ite_set_true _ _ (by simp [h]))

theorem validate_samples_bad (meta : DatabaseMetadata) :
    ∀ (samples : List TableSample) (result : Result),
      (∃ s ∈ samples, s.column_names = [] ∨ meta.has_table s.table_name = false) →
      (samples.foldl (validate_sample meta) result).success = false
  | [], _, h => by obtain ⟨s, hs, _⟩ := h; simp at hs
  | s :: rest, result, h => by
    obtain ⟨x, hx, hbad⟩ := h
    rw [List.foldl_cons]
    rcases List.mem_cons.1 hx with rfl | hx
    · exact validate_samples_false meta rest _ (validate_sample_bad meta result x hbad)
    · exact validate_samples_bad meta rest _ ⟨x, hx, hbad⟩

theorem validate_task_names (meta : DatabaseMetadata) (st : List String × Result)
    (task : Task) : (validate_task meta st task).1 = task.output_table_name :: st.1 := by
  unfold validate_task
  dsimp only
  by_cases hs : task.samples.length = 0
  · rw [if_pos hs]
  · rw [if_neg hs]

theorem validate_task_false (meta : DatabaseMetadata) (st : List String × Result) (task : Task)
    (h : st.2.success = false) : (validate_task meta st task).2.success = false := by
  unfold validate_task
  dsimp only
  by_cases hs : task.samples.length = 0
  · rw [if_pos hs]
    rfl
  · rw [if_neg hs]
    apply validate_samples_false
    exact ite_set_false _ _ (ite_set_false _ _ (ite_set_false _ _ h))

/-- A task that breaks one of the task-level rules makes the result fail. -/
theorem validate_task_bad (meta : DatabaseMetadata) (st : List String × Result) (task : Task)
    (h : task.output_table_name = "" ∨ meta.has_table task.output_table_name = true ∨
      task.output_table_name ∈ st.1 ∨ task.samples = [] ∨
      ∃ s ∈ task.samples, s.column_names = [] ∨ meta.has_table s.table_name = false) :
    (validate_task meta st task).2.success = false := by
  unfold validate_task
  dsimp only
  by_cases hs : task.samples.length = 0
  · rw [if_pos hs]
    rfl
  · rw [if_neg hs]
    rcases h with h | h | h | h | h
    · apply validate_samples_false
      exact ite_set_false _ _ (ite_set_false _ _ (ite_set_true _ _ h))
    · apply validate_samples_false
      exact ite_set_false _ _ (ite_set_true _ _ h)
    · apply validate_samples_false
      exact ite_set_true _ _ (by simpa using h)
    · exact absurd (by simp [h]) hs
    · exact validate_samples_bad meta _ _ h

theorem validate_tasks_names (meta : DatabaseMetadata) :
    ∀ (tasks : List Task) (st : List String × Result) (x : String), x ∈ st.1 →
      x ∈ (tasks.foldl (validate_task meta) st).1
  | [], _, _, h => h
  | t :: rest, st, x, h => by
    rw [List.foldl_cons]
    apply validate_tasks_names meta rest
    rw [validate_task_names]
    exact List.mem_cons_of_mem _ h

/-- The task loop ends with a failed result when the result was failed before, when a task
breaks a rule, or when an output table name occurs twice. -/
theorem validate_tasks_fail (meta : DatabaseMetadata) :
    ∀ (tasks : List Task) (st : List String × Result),
      (st.2.success = false ∨
        (∃ t ∈ tasks, t.output_table_name = "" ∨ meta.has_table t.output_table_name = true ∨
          t.output_table_name ∈ st.1 ∨ t.samples = [] ∨
          ∃ s ∈ t.samples, s.column_names = [] ∨ meta.has_table s.table_name = false) ∨
        ¬ (tasks.map fun t => t.output_table_name).Nodup) →
      (tasks.foldl (validate_task meta) st).2.success = false
  | [], st, h => by
    rcases h with h | h | h
    · exact h
    · obtain ⟨t, ht, _⟩ := h; simp at ht
    · simp at h
  | t :: rest, st, h => by
    rw [List.foldl_cons]
    apply validate_tasks_fail meta rest
    rcases h with h | h | h
    · exact Or.inl (validate_task_false meta st t h)
    · obtain ⟨x, hx, hbad⟩ := h
      rcases List.mem_cons.1 hx with rfl | hx
      · exact Or.inl (validate_task_bad meta st x hbad)
      · refine Or.inr (Or.inl ⟨x, hx, ?_⟩)
        rcases hbad with h | h | h | h
        · exact Or.inl h
        · exact Or.inr (Or.inl h)
        · refine Or.inr (Or.inr (Or.inl ?_))
          rw [validate_task_names]
          exact List.mem_cons_of_mem _ h
        · exact Or.inr (Or.inr (Or.inr h))
    · rw [List.map_cons, List.nodup_cons, not_and_or, not_not] at h
      rcases h with h | h
      · obtain ⟨x, hx, hname⟩ := List.mem_map.1 h
        refine Or.inr (Or.inl ⟨x, hx, Or.inr (Or.inr (Or.inl ?_))⟩)
        rw [validate_task_names, hname]
        exact List.mem_cons_self _ _
      · exact Or.inr (Or.inr h)

theorem check_columns_false (op_name : String) (op_idx : Int) (input_op_name : String)
    (input_op_index : Int) (inputs : List String) :
    ∀ (cols : List String) (result : Result), result.success = false →
      (cols.foldl (check_column op_name op_idx input_op_name input_op_index inputs)
        result).success = false
  | [], _, h => h
  | c :: rest, result, h => by
    rw [List.foldl_cons]
    apply check_columns_false op_name op_idx input_op_name input_op_index inputs rest
    unfold check_column
    split
    · exact h
    · rfl

theorem check_input_false (op_names : List String) (op_outputs : List (List String))
    (op_name : String) (op_idx : Int) (result : Result) (input : OpInput)
    (h : result.success = false) :
    (check_input op_names op_outputs op_name op_idx result input).1.success = false := by
  unfold check_input
  split
  · rfl
  · split
    · exact check_columns_false _ _ _ _ _ _ _ h
    · exact h

theorem check_inputs_false (op_names : List String) (op_outputs : List (List String))
    (op_name : String) (op_idx : Int) :
    ∀ (inputs : List OpInput) (result : Result), result.success = false →
      (check_inputs op_names op_outputs op_name op_idx result inputs).1.success = false
  | [], _, h => h
  | input :: rest, result, h => by
    have h1 := check_input_false op_names op_outputs op_name op_idx result input h
    unfold check_inputs
    split
    · next r heq => rw [heq] at h1; exact h1
    · next r heq =>
      rw [heq] at h1
      exact check_inputs_false op_names op_outputs op_name op_idx rest r h1

theorem validate_op_false (op_registry : OpRegistry) (kernel_registry : KernelRegistry)
    (st : OpLoopState) (op : Op) (h : st.result.success = false) :
    (validate_op op_registry kernel_registry st op).1.result.success = false := by
  unfold validate_op
  split
  · split
    · rfl
    · exact h
  · have hst1 : ∀ st1 : OpLoopState, st1.result.success = false →
        (match check_inputs st1.op_names st1.op_outputs op.name st1.op_idx st1.result
            op.inputs with
          | (r, true) => (({ st1 with result := r } : OpLoopState), LoopExit.thrown)
          | (r, false) => ({ st1 with result := r, op_idx := st1.op_idx + 1 },
              LoopExit.next)).1.result.success = false := by
      intro st1 h1
      have h2 := check_inputs_false st1.op_names st1.op_outputs op.name st1.op_idx op.inputs
        st1.result h1
      split
      · next r heq => rw [heq] at h2; exact h2
      · next r heq => rw [heq] at h2; exact h2
    apply hst1
    split
    · dsimp only
      split
      · rfl
      · split
        · rfl
        · exact h
    · exact h

theorem validate_ops_loop_false (op_registry : OpRegistry) (kernel_registry : KernelRegistry) :
    ∀ (ops : List Op) (st : OpLoopState), st.result.success = false →
      (validate_ops_loop op_registry kernel_registry st ops).1.result.success = false
  | [], _, h => h
  | op :: rest, st, h => by
    have h1 := validate_op_false op_registry kernel_registry st op h
    unfold validate_ops_loop
    split
    · next st1 heq =>
      rw [heq] at h1
      exact validate_ops_loop_false op_registry kernel_registry rest st1 h1
    · next st1 heq => rw [heq] at h1; exact h1
    · next st1 heq => rw [heq] at h1; exact h1

theorem validate_op_names_false (op_names : List String) (result : Result)
    (h : result.success = false) : (validate_op_names op_names result).success = false := by
  unfold validate_op_names
  split
  · rfl
  · dsimp only
    split
    · rfl
    · split
      · rfl
      · exact h

/-- A result that has failed after the task loop is still failed when the function ends. -/
theorem validate_task_set_of_tasks_failed (op_registry : OpRegistry)
    (kernel_registry : KernelRegistry) (meta : DatabaseMetadata) (task_set : TaskSet)
    (result : Result)
    (h : (task_set.tasks.foldl (validate_task meta) ([], result)).2.success = false) :
    (validate_task_set op_registry kernel_registry meta task_set result).1.success = false := by
  have h1 := validate_ops_loop_false op_registry kernel_registry task_set.ops
    { op_idx := 0, op_names := [], op_outputs := []
      result := (task_set.tasks.foldl (validate_task meta) ([], result)).2 } h
  unfold validate_task_set
  dsimp only
  split
  · next st heq => rw [heq] at h1; exact h1
  · next st heq =>
    rw [heq] at h1
    exact validate_op_names_false _ _ h1

/-! ## Claim on the task-level rules of `validate_task_set` -/

/-- C10 (task-level validation): for every registry, database metadata, task set and initial
result, if some task has an empty output table name, or an output table name that already
exists in the database, or no samples, or a sample with no columns, or a sample naming a table
that does not exist, or if two tasks of the job have the same output table name, then
`validate_task_set` leaves the `Result` with `success = false` (whether it returns or an
`at` throws later in the op checks). -/
theorem validate_task_set_task_rules (op_registry : OpRegistry)
    (kernel_registry : KernelRegistry) (meta : DatabaseMetadata) (task_set : TaskSet)
    (result : Result)
    (h : (∃ t ∈ task_set.tasks, t.output_table_name = "" ∨
          meta.has_table t.output_table_name = true ∨ t.samples = [] ∨
          ∃ s ∈ t.samples, s.column_names = [] ∨ meta.has_table s.table_name = false) ∨
      ¬ (task_set.tasks.map fun t => t.output_table_name).Nodup) :
    (validate_task_set op_registry kernel_registry meta task_set result).1.success = false := by
  apply validate_task_set_of_tasks_failed
  apply validate_tasks_fail
  rcases h with ⟨t, ht, hbad⟩ | h
  · refine Or.inr (Or.inl ⟨t, ht, ?_⟩)
    rcases hbad with h | h | h | h
    · exact Or.inl h
    · exact Or.inr (Or.inl h)
    · exact Or.inr (Or.inr (Or.inr (Or.inl h)))
    · exact Or.inr (Or.inr (Or.inr (Or.inr h)))
  · exact Or.inr (Or.inr h)

/-- Instance of C10: two tasks of a well-formed job write the same output table `out`. -/
theorem validate_task_set_task_rules_witness :
    (validate_task_set (fun name => if name = "Blur" then some ["frame"] else none)
      (fun _ _ => true) ⟨["video"], []⟩
      { tasks := [⟨"out", [⟨"video", ["frame"]⟩]⟩, ⟨"out", [⟨"video", ["frame"]⟩]⟩]
        ops := [⟨"InputTable", [⟨-1, ["frame"]⟩], DeviceType.CPU⟩,
          ⟨"Blur", [⟨0, ["frame"]⟩], DeviceType.CPU⟩,
          ⟨"OutputTable", [⟨1, ["frame"]⟩], DeviceType.CPU⟩] }
      ⟨true, ""⟩).1.success = false :=
  validate_task_set_task_rules _ _ _ _ _ (Or.inr (by decide))

/-! ## The `NextWork` state machine -/

/-- What the first block of `NextWork` leaves: the counters `total_samples_used_` and
`num_tasks_` as they were; the whole state when it returns the sentinel itself; and
`samples_left_`, `next_task_` as they were when `validate()` failed, a failure was on record,
or samples of the current task were left. -/
theorem NextWork_select_task_spec (tasks : List TaskSampler) (s s0 : MasterState)
    (early : Bool) (h : NextWork_select_task tasks s = some (s0, early)) :
    s0.total_samples_used = s.total_samples_used ∧ s0.num_tasks = s.num_tasks ∧
      (early = true → s0 = s) ∧
      (s0.task_result = false ∨ 0 < s.samples_left →
        s0.samples_left = s.samples_left ∧ s0.next_task = s.next_task) := by
  unfold NextWork_select_task at h
  by_cases h1 : s.samples_left ≤ 0
  · rw [if_pos h1] at h
    by_cases h2 : s.next_task < s.num_tasks ∧ s.task_result = true
    · rw [if_pos h2] at h
      cases hg : get_at tasks s.next_task with
      | none => simp [hg] at h
      | some sampler =>
        simp only [hg] at h
        by_cases h3 : sampler.validate = true
        · rw [if_pos h3] at h
          simp only [Option.some.injEq, Prod.mk.injEq] at h
          obtain ⟨hs, he⟩ := h
          subst hs
          subst he
          refine ⟨rfl, rfl, by simp, ?_⟩
          intro hor
          rcases hor with hor | hor
          · simp [h3] at hor
          · omega
        · rw [if_neg h3] at h
          simp only [Option.some.injEq, Prod.mk.injEq] at h
          obtain ⟨hs, he⟩ := h
          subst hs
          subst he
          exact ⟨rfl, rfl, by simp, fun _ => ⟨rfl, rfl⟩⟩
    · rw [if_neg h2] at h
      simp only [Option.some.injEq, Prod.mk.injEq] at h
      obtain ⟨hs, he⟩ := h
      subst hs
      exact ⟨rfl, rfl, fun _ => rfl, fun _ => ⟨rfl, rfl⟩⟩
  · rw [if_neg h1] at h
    simp only [Option.some.injEq, Prod.mk.injEq] at h
    obtain ⟨hs, he⟩ := h
    subst hs
    exact ⟨rfl, rfl, fun _ => rfl, fun _ => ⟨rfl, rfl⟩⟩

/-- With a failure on record, `NextWork` returns the sentinel and changes nothing. -/
theorem NextWork_of_failed (tasks : List TaskSampler) (s : MasterState)
    (h : s.task_result = false) : NextWork tasks s = some (s, -1) := by
  unfold NextWork NextWork_select_task
  by_cases h1 : s.samples_left ≤ 0
  · rw [if_pos h1, if_neg (by simp [h])]
  · rw [if_neg h1]
    simp [h]

theorem NextWork_calls_of_failed (tasks : List TaskSampler) (s : MasterState)
    (h : s.task_result = false) :
    ∀ n, NextWork_calls tasks n s = some (s, List.replicate n (-1))
  | 0 => rfl
  | n + 1 => by
    simp only [NextWork_calls, NextWork_of_failed tasks s h, NextWork_calls_of_failed tasks s h n,
      Option.map_some', List.replicate_succ]

/-! ## `NextWork` on jobs whose tasks all have samples -/

theorem total_samples_take_succ (tasks : List TaskSampler) (j : Nat) (t : TaskSampler)
    (ht : tasks[j]? = some t) :
    total_samples (tasks.take (j + 1)) = total_samples (tasks.take j) + t.total_samples := by
  unfold total_samples
  rw [List.take_succ, ht]
  simp

theorem total_samples_take_le (tasks : List TaskSampler)
    (hpos : ∀ t ∈ tasks, 0 < t.total_samples) :
    ∀ j, total_samples (tasks.take j) ≤ total_samples tasks := by
  induction tasks with
  | nil => intro j; simp [total_samples]
  | cons t rest ih =>
    intro j
    have ht := hpos t (List.mem_cons_self _ _)
    cases j with
    | zero =>
      have := ih (fun x hx => hpos x (List.mem_cons_of_mem _ hx)) 0
      simp only [total_samples, List.take_zero, List.map_nil, List.sum_nil, List.map_cons,
        List.sum_cons] at this ⊢
      omega
    | succ j =>
      have := ih (fun x hx => hpos x (List.mem_cons_of_mem _ hx)) j
      simp only [total_samples, List.take_succ_cons, List.map_cons, List.sum_cons] at this ⊢
      omega

theorem get_at_natCast {α : Type} (l : List α) (j : Nat) : get_at l (j : Int) = l[j]? := by
  unfold get_at
  rw [if_pos (Int.natCast_nonneg j), Int.toNat_natCast]

/-- One `NextWork` call on a state that satisfies the invariant: while units remain it hands
out a unit and keeps the invariant, afterwards it returns the sentinel and changes nothing. -/
theorem NextWork_step (tasks : List TaskSampler)
    (hpos : ∀ t ∈ tasks, t.validate = true ∧ 0 < t.total_samples ∧
      ∀ k, ∃ id, t.next_work k = some id ∧ id ≠ -1)
    (s : MasterState) (hinv : NextWorkInv tasks s) :
    s.total_samples_used ≤ total_samples tasks ∧
      (s.total_samples_used < total_samples tasks →
        ∃ s1 id, NextWork tasks s = some (s1, id) ∧ id ≠ -1 ∧ NextWorkInv tasks s1 ∧
          s1.total_samples_used = s.total_samples_used + 1) ∧
      (s.total_samples_used = total_samples tasks → NextWork tasks s = some (s, -1)) := by
  have hpos2 : ∀ t ∈ tasks, 0 < t.total_samples := fun t ht => (hpos t ht).2.1
  obtain ⟨j, hj⟩ := Int.eq_ofNat_of_zero_le hinv.next_task_nonneg
  have hjle : j ≤ tasks.length := by have := hinv.next_task_le; omega
  have hacc := hinv.accounted
  rw [hj, Int.toNat_natCast] at hacc
  have hle := total_samples_take_le tasks hpos2 j
  have hres := hinv.result_ok
  have hnum := hinv.num_tasks_eq
  have hnn := hinv.samples_left_nonneg
  by_cases hleft : 0 < s.samples_left
  · obtain ⟨t, calls, ht, hts⟩ := hinv.sampler_set hleft
    obtain ⟨id, hid, hne⟩ := (hpos t ht).2.2 calls
    have hcall : NextWork tasks s =
        some ({ s with task_sampler := some (t, calls + 1)
                       task_result := true
                       samples_left := s.samples_left - 1
                       total_samples_used := s.total_samples_used + 1 }, id) := by
      unfold NextWork NextWork_select_task
      rw [if_neg (by omega)]
      simp only [hres, Bool.true_eq_false, if_false]
      rw [if_pos (by omega)]
      simp only [hts, hid]
    refine ⟨by omega, fun _ => ⟨_, id, hcall, hne, ?_, rfl⟩, fun h => by omega⟩
    exact ⟨rfl, hnum, hinv.next_task_nonneg, hinv.next_task_le, by dsimp only; omega,
      fun _ => ⟨t, calls + 1, ht, rfl⟩, by
        dsimp only
        rw [hj, Int.toNat_natCast]
        omega⟩
  · have hzero : s.samples_left = 0 := by omega
    by_cases hmore : j < tasks.length
    · have hget : get_at tasks s.next_task = some (tasks[j]) := by
        rw [hj, get_at_natCast, List.getElem?_eq_getElem hmore]
      have ht := hpos _ (List.getElem_mem hmore)
      obtain ⟨id, hid, hne⟩ := ht.2.2 0
      have hsucc := total_samples_take_succ tasks j tasks[j] (List.getElem?_eq_getElem hmore)
      have hle1 := total_samples_take_le tasks hpos2 (j + 1)
      have hcall : NextWork tasks s =
          some ({ s with task_sampler := some (tasks[j], 0 + 1)
                         task_result := true
                         samples_left := (tasks[j]).total_samples - 1
                         next_task := s.next_task + 1
                         total_samples_used := s.total_samples_used + 1 }, id) := by
        unfold NextWork NextWork_select_task
        rw [if_pos (by omega), if_pos ⟨by omega, hres⟩]
        simp only [hget, ht.1, if_true, Bool.true_eq_false, if_false]
        rw [if_pos ht.2.1]
        simp only [hid]
      refine ⟨by omega, fun _ => ⟨_, id, hcall, hne, ?_, rfl⟩, fun h => by omega⟩
      exact ⟨rfl, hnum, by dsimp only; omega, by dsimp only; omega, by dsimp only; omega,
        fun _ => ⟨tasks[j], 0 + 1, List.getElem_mem hmore, rfl⟩, by
          dsimp only
          rw [hj, show ((j : Int) + 1).toNat = j + 1 by omega, hsucc]
          omega⟩
    · have hjeq : j = tasks.length := by omega
      have htot : total_samples (tasks.take j) = total_samples tasks := by
        rw [hjeq, List.take_length]
      have hcall : NextWork tasks s = some (s, -1) := by
        unfold NextWork NextWork_select_task
        rw [if_pos (by omega), if_neg (by omega)]
      exact ⟨by omega, fun h => by omega, fun _ => hcall⟩

/-- Exhaustion on jobs whose tasks all validate, never fail in `next_work`, write item ids
other than the sentinel and report at least one sample: from a state that satisfies the
invariant, call number `i` (from 0) returns a unit exactly when
`total_samples_used + i < total_samples`. -/
theorem NextWork_calls_of_inv (tasks : List TaskSampler)
    (hpos : ∀ t ∈ tasks, t.validate = true ∧ 0 < t.total_samples ∧
      ∀ k, ∃ id, t.next_work k = some id ∧ id ≠ -1) :
    ∀ (n : Nat) (s : MasterState), NextWorkInv tasks s →
      ∃ s1 replies, NextWork_calls tasks n s = some (s1, replies) ∧ replies.length = n ∧
        ∀ i, i < n → (replies.getD i (-1) ≠ -1 ↔
          s.total_samples_used + (i : Int) < total_samples tasks) := by
  intro n
  induction n with
  | zero =>
    intro s _
    exact ⟨s, [], rfl, rfl, fun i hi => by omega⟩
  | succ n ih =>
    intro s hinv
    obtain ⟨hle, hlt, heq⟩ := NextWork_step tasks hpos s hinv
    by_cases hused : s.total_samples_used < total_samples tasks
    · obtain ⟨s1, id, hcall, hne, hinv1, hused1⟩ := hlt hused
      obtain ⟨s2, replies, hcalls, hlen, hrep⟩ := ih s1 hinv1
      refine ⟨s2, id :: replies, ?_, by simp [hlen], ?_⟩
      · simp only [NextWork_calls, hcall, hcalls, Option.map_some']
      · intro i hi
        cases i with
        | zero =>
          simp only [List.getD_cons_zero, Nat.cast_zero, add_zero]
          exact ⟨fun _ => hused, fun _ => hne⟩
        | succ i =>
          have := hrep i (by omega)
          rw [hused1] at this
          simp only [List.getD_cons_succ]
          rw [this]
          push_cast
          constructor <;> intro h <;> omega
    · have hcall := heq (by omega)
      obtain ⟨s2, replies, hcalls, hlen, hrep⟩ := ih s hinv
      refine ⟨s2, (-1) :: replies, ?_, by simp [hlen], ?_⟩
      · simp only [NextWork_calls, hcall, hcalls, Option.map_some']
      · intro i hi
        cases i with
        | zero =>
          simp only [List.getD_cons_zero, Nat.cast_zero, add_zero]
          exact ⟨fun h => absurd rfl h, fun h => absurd h hused⟩
        | succ i =>
          have := hrep i (by omega)
          simp only [List.getD_cons_succ]
          rw [this]
          push_cast
          constructor <;> intro h <;> omega

/-- The state `NewJob` initialises satisfies the invariant. -/
theorem NewJob_state_inv (tasks : List TaskSampler) (ts : Option (TaskSampler × Nat)) :
    NextWorkInv tasks (NewJob_state tasks ts) :=
  ⟨rfl, rfl, le_refl _, by simp [NewJob_state], le_refl _,
    fun h => absurd h (lt_irrefl _), by simp [NewJob_state, total_samples]⟩

/-- Exhaustion from the state `NewJob` initialises, for jobs whose tasks all report at least
one sample: exactly the first `total_samples` calls return a unit, every later call returns
the sentinel. -/
theorem NextWork_exhaustion_of_positive (tasks : List TaskSampler)
    (ts : Option (TaskSampler × Nat))
    (hpos : ∀ t ∈ tasks, t.validate = true ∧ 0 < t.total_samples ∧
      ∀ k, ∃ id, t.next_work k = some id ∧ id ≠ -1) (n : Nat) :
    ∃ s1 replies, NextWork_calls tasks n (NewJob_state tasks ts) = some (s1, replies) ∧
      replies.length = n ∧
      ∀ i, i < n → (replies.getD i (-1) ≠ -1 ↔ (i : Int) < total_samples tasks) := by
  obtain ⟨s1, replies, h1, h2, h3⟩ :=
    NextWork_calls_of_inv tasks hpos n _ (NewJob_state_inv tasks ts)
  refine ⟨s1, replies, h1, h2, fun i hi => ?_⟩
  have := h3 i hi
  simpa [NewJob_state] using this

/-! ## Claims on `NextWork` -/

/-- C8 (NextWork exhaustion), evaluated on a job of two tasks whose samplers validate, never
fail in `next_work`, and report `total_samples()` 2 and 0: `total_samples` is 2, the first
two calls return the units 0 and 1 and leave `samples_left = 0`, `next_task = 1`; the third
call starts the second task with `samples_left = 0` and stops at `assert(samples_left_ > 0)`
where the claim has it return the sentinel. -/
theorem NextWork_exhaustion_zero_sample_task :
    total_samples [⟨true, 2, fun k => some (k : Int)⟩, ⟨true, 0, fun k => some (k : Int)⟩] = 2 ∧
      (NextWork_calls [⟨true, 2, fun k => some (k : Int)⟩, ⟨true, 0, fun k => some (k : Int)⟩] 2
          (NewJob_state [⟨true, 2, fun k => some (k : Int)⟩,
            ⟨true, 0, fun k => some (k : Int)⟩] none)).map
        (fun p => (p.2, p.1.samples_left, p.1.next_task, p.1.total_samples_used)) =
        some ([0, 1], 0, 1, 2) ∧
      (NextWork_calls [⟨true, 2, fun k => some (k : Int)⟩, ⟨true, 0, fun k => some (k : Int)⟩] 3
          (NewJob_state [⟨true, 2, fun k => some (k : Int)⟩,
            ⟨true, 0, fun k => some (k : Int)⟩] none)).isNone = true := by
  decide

/-- C9 as stated, evaluated on the first call of a job whose only task validates, reports
three samples and fails in its first `next_work`: the call returns the sentinel and records
the failure, and it has changed `samples_left` from 0 to 3 and `next_task` from 0 to 1. -/
theorem NextWork_failed_call_sets_counters :
    (NextWork [⟨true, 3, fun _ => none⟩] (NewJob_state [⟨true, 3, fun _ => none⟩] none)).map
        (fun p => (p.2, p.1.task_result, p.1.samples_left, p.1.next_task,
          p.1.total_samples_used)) = some (-1, false, 3, 1, 0) ∧
      (NewJob_state [⟨true, 3, fun _ => none⟩] none).samples_left = 0 ∧
      (NewJob_state [⟨true, 3, fun _ => none⟩] none).next_task = 0 := by
  decide

/-- What the first block of `NextWork` does, case by case: with units left it changes
nothing; without units and without a task to start it returns the sentinel itself; otherwise
it installs the sampler of task `next_task`, and when that sampler validates it sets
`samples_left` to its `total_samples()` and advances `next_task` by one. -/
theorem NextWork_select_task_cases (tasks : List TaskSampler) (s s0 : MasterState)
    (early : Bool) (h : NextWork_select_task tasks s = some (s0, early)) :
    (0 < s.samples_left ∧ s0 = s ∧ early = false) ∨
      (s.samples_left ≤ 0 ∧ ¬(s.next_task < s.num_tasks ∧ s.task_result = true) ∧
        s0 = s ∧ early = true) ∨
      (s.samples_left ≤ 0 ∧ (s.next_task < s.num_tasks ∧ s.task_result = true) ∧
        early = false ∧
        ∃ sampler, get_at tasks s.next_task = some sampler ∧
          ((sampler.validate = false ∧
              s0 = { s with task_sampler := some (sampler, 0), task_result := false }) ∨
            (sampler.validate = true ∧
              s0 = { s with task_sampler := some (sampler, 0)
                            task_result := true
                            samples_left := sampler.total_samples
                            next_task := s.next_task + 1 }))) := by
  unfold NextWork_select_task at h
  by_cases h1 : s.samples_left ≤ 0
  · rw [if_pos h1] at h
    by_cases h2 : s.next_task < s.num_tasks ∧ s.task_result = true
    · rw [if_pos h2] at h
      cases hg : get_at tasks s.next_task with
      | none => simp [hg] at h
      | some sampler =>
        simp only [hg] at h
        by_cases h3 : sampler.validate = true
        · rw [if_pos h3] at h
          simp only [Option.some.injEq, Prod.mk.injEq] at h
          obtain ⟨hs, he⟩ := h
          refine Or.inr (Or.inr ⟨h1, h2, he.symm, sampler, rfl, Or.inr ⟨h3, ?_⟩⟩)
          rw [← hs, h3]
        · rw [if_neg h3] at h
          simp only [Option.some.injEq, Prod.mk.injEq] at h
          obtain ⟨hs, he⟩ := h
          have h3f : sampler.validate = false := by simpa using h3
          refine Or.inr (Or.inr ⟨h1, h2, he.symm, sampler, rfl, Or.inl ⟨h3f, ?_⟩⟩)
          rw [← hs, h3f]
    · rw [if_neg h2] at h
      simp only [Option.some.injEq, Prod.mk.injEq] at h
      exact Or.inr (Or.inl ⟨h1, h2, h.1.symm, h.2.symm⟩)
  · rw [if_neg h1] at h
    simp only [Option.some.injEq, Prod.mk.injEq] at h
    exact Or.inl ⟨by omega, h.1.symm, h.2.symm⟩

/-- The part of `NextWork` after its first block, on a state whose failure is not on record
and that has units left and a sampler installed: a failing `next_work` records the failure
and changes nothing else but the call count of the sampler. -/
theorem NextWork_after_select (s0 s1 : MasterState) (r : Int)
    (h : (if s0.task_result = false then some (s0, (-1 : Int))
      else if s0.samples_left > 0 then
        match s0.task_sampler with
        | none => none
        | some (sampler, calls) =>
          match sampler.next_work calls with
          | none =>
            some ({ s0 with task_sampler := some (sampler, calls + 1)
                            task_result := false }, -1)
          | some item_id =>
            some ({ s0 with task_sampler := some (sampler, calls + 1)
                            task_result := true
                            samples_left := s0.samples_left - 1
                            total_samples_used := s0.total_samples_used + 1 }, item_id)
      else none) = some (s1, r))
    (hfail : s1.task_result = false) :
    r = -1 ∧ s1.total_samples_used = s0.total_samples_used ∧
      s1.samples_left = s0.samples_left ∧ s1.next_task = s0.next_task ∧
      (s0.task_result = true → ∃ sampler calls, s0.task_sampler = some (sampler, calls) ∧
        sampler.next_work calls = none) := by
  by_cases h1 : s0.task_result = false
  · rw [if_pos h1] at h
    simp only [Option.some.injEq, Prod.mk.injEq] at h
    obtain ⟨hs, hr⟩ := h
    subst hs
    exact ⟨hr.symm, rfl, rfl, rfl, fun ht => by rw [h1] at ht; cases ht⟩
  · rw [if_neg h1] at h
    by_cases h2 : s0.samples_left > 0
    · rw [if_pos h2] at h
      cases hts : s0.task_sampler with
      | none => simp [hts] at h
      | some q =>
        obtain ⟨sampler, calls⟩ := q
        simp only [hts] at h
        cases hnw : sampler.next_work calls with
        | none =>
          simp only [hnw, Option.some.injEq, Prod.mk.injEq] at h
          obtain ⟨hs, hr⟩ := h
          subst hs
          exact ⟨hr.symm, rfl, rfl, rfl, fun _ => ⟨sampler, calls, rfl, hnw⟩⟩
        | some item_id =>
          simp only [hnw, Option.some.injEq, Prod.mk.injEq] at h
          obtain ⟨hs, _⟩ := h
          subst hs
          simp at hfail
    · rw [if_neg h2] at h
      simp at h

/-- A call that starts a task whose sampler fails `validate()` returns the sentinel, with
the sampler installed and the failure on record. -/
theorem NextWork_of_validate_failure (tasks : List TaskSampler) (s : MasterState)
    (sampler : TaskSampler) (hleft : s.samples_left ≤ 0)
    (hcond : s.next_task < s.num_tasks ∧ s.task_result = true)
    (hget : get_at tasks s.next_task = some sampler) (hv : sampler.validate = false) :
    NextWork tasks s =
      some ({ s with task_sampler := some (sampler, 0), task_result := false }, -1) := by
  unfold NextWork NextWork_select_task
  rw [if_pos hleft, if_pos hcond, hget]
  simp [hv]

/-- A call that starts a task whose sampler validates, reports at least one sample and fails
in its first `next_work()` returns the sentinel, with the task counted as started. -/
theorem NextWork_of_first_next_work_failure (tasks : List TaskSampler) (s : MasterState)
    (sampler : TaskSampler) (hleft : s.samples_left ≤ 0)
    (hcond : s.next_task < s.num_tasks ∧ s.task_result = true)
    (hget : get_at tasks s.next_task = some sampler) (hv : sampler.validate = true)
    (hpos : 0 < sampler.total_samples) (hnw : sampler.next_work 0 = none) :
    NextWork tasks s =
      some ({ s with task_sampler := some (sampler, 1)
                     task_result := false
                     samples_left := sampler.total_samples
                     next_task := s.next_task + 1 }, -1) := by
  unfold NextWork NextWork_select_task
  rw [if_pos hleft, if_pos hcond, hget]
  simp [hv, hpos, hnw]

/-- A call with units left whose `next_work()` fails returns the sentinel and records the
failure. -/
theorem NextWork_of_next_work_failure (tasks : List TaskSampler) (s : MasterState)
    (sampler : TaskSampler) (calls : Nat) (hleft : 0 < s.samples_left)
    (hres : s.task_result = true) (hts : s.task_sampler = some (sampler, calls))
    (hnw : sampler.next_work calls = none) :
    NextWork tasks s =
      some ({ s with task_sampler := some (sampler, calls + 1), task_result := false }, -1) := by
  unfold NextWork NextWork_select_task
  rw [if_neg (by omega)]
  simp [hres, hleft, hts, hnw]

/-- C9, amended (task failure is absorbing).  First part: if a `NextWork` call ends with a
failed `task_result_` (a `validate()` or `next_work()` has returned non-success in this call
or before), then the call returns the sentinel and leaves `total_samples_used` unchanged.
When the call did not start a task (units were left, or no task was left to start, or a
failure was on record), `samples_left` and `next_task` are as before the call.  When it
started the task `next_task` (no units left, `next_task < num_tasks`, no failure on record),
the sampler of that task either failed `validate()`, and `samples_left` and `next_task` are
as before the call, or it validated and failed in its first `next_work()`, and `samples_left`
is its `total_samples()` and `next_task` is one more than before the call.  Every later
sequence of `NextWork` calls returns sentinels only and leaves the whole state unchanged.
Second part: a call in which `validate()` fails, in which the first `next_work()` of a task
just started (of at least one sample) fails, or in which `next_work()` of the running task
fails does return, with the sentinel and the state written out. -/
theorem NextWork_failure_absorbing (tasks : List TaskSampler) (s : MasterState) :
    (∀ (s1 : MasterState) (r : Int), NextWork tasks s = some (s1, r) →
      s1.task_result = false →
      r = -1 ∧ s1.total_samples_used = s.total_samples_used ∧
        (0 < s.samples_left ∨ ¬(s.next_task < s.num_tasks ∧ s.task_result = true) →
          s1.samples_left = s.samples_left ∧ s1.next_task = s.next_task) ∧
        (s.samples_left ≤ 0 ∧ s.next_task < s.num_tasks ∧ s.task_result = true →
          ∃ sampler, get_at tasks s.next_task = some sampler ∧
            ((sampler.validate = false ∧ s1.samples_left = s.samples_left ∧
                s1.next_task = s.next_task) ∨
              (sampler.validate = true ∧ sampler.next_work 0 = none ∧
                s1.samples_left = sampler.total_samples ∧
                s1.next_task = s.next_task + 1))) ∧
        ∀ n, NextWork_calls tasks n s1 = some (s1, List.replicate n (-1))) ∧
      (∀ sampler : TaskSampler, s.samples_left ≤ 0 →
        s.next_task < s.num_tasks ∧ s.task_result = true →
        get_at tasks s.next_task = some sampler → sampler.validate = false →
        NextWork tasks s =
          some ({ s with task_sampler := some (sampler, 0), task_result := false }, -1)) ∧
      (∀ sampler : TaskSampler, s.samples_left ≤ 0 →
        s.next_task < s.num_tasks ∧ s.task_result = true →
        get_at tasks s.next_task = some sampler → sampler.validate = true →
        0 < sampler.total_samples → sampler.next_work 0 = none →
        NextWork tasks s =
          some ({ s with task_sampler := some (sampler, 1)
                         task_result := false
                         samples_left := sampler.total_samples
                         next_task := s.next_task + 1 }, -1)) ∧
      (∀ (sampler : TaskSampler) (calls : Nat), 0 < s.samples_left →
        s.task_result = true → s.task_sampler = some (sampler, calls) →
        sampler.next_work calls = none →
        NextWork tasks s =
          some ({ s with task_sampler := some (sampler, calls + 1)
                         task_result := false }, -1)) := by
  refine ⟨?_, NextWork_of_validate_failure tasks s,
    NextWork_of_first_next_work_failure tasks s, NextWork_of_next_work_failure tasks s⟩
  intro s1 r hcall hfail
  have hlater := NextWork_calls_of_failed tasks s1 hfail
  unfold NextWork at hcall
  cases hsel : NextWork_select_task tasks s with
  | none => simp [hsel] at hcall
  | some p =>
    obtain ⟨s0, early⟩ := p
    simp only [hsel] at hcall
    rcases NextWork_select_task_cases tasks s s0 early hsel with
      ⟨hpos, hs0, hearly⟩ | ⟨hle, hcond, hs0, hearly⟩ |
      ⟨hle, hcond, hearly, sampler, hget, hval⟩
    · subst hs0
      subst hearly
      simp only at hcall
      obtain ⟨hr, hused, hleft, hnext, _⟩ := NextWork_after_select s0 s1 r hcall hfail
      exact ⟨hr, hused, fun _ => ⟨hleft, hnext⟩, fun h => by omega, hlater⟩
    · subst hs0
      subst hearly
      simp only [Option.some.injEq, Prod.mk.injEq] at hcall
      obtain ⟨hs, hr⟩ := hcall
      subst hs
      exact ⟨hr.symm, rfl, fun _ => ⟨rfl, rfl⟩, fun h => absurd ⟨h.2.1, h.2.2⟩ hcond, hlater⟩
    · subst hearly
      simp only at hcall
      obtain ⟨hr, hused, hleft, hnext, hnw⟩ := NextWork_after_select s0 s1 r hcall hfail
      refine ⟨hr, ?_, ?_, ?_, hlater⟩
      · rcases hval with ⟨_, hs0⟩ | ⟨_, hs0⟩
        · rw [hused, hs0]
        · rw [hused, hs0]
      · intro hor
        rcases hor with hor | hor
        · omega
        · exact absurd hcond hor
      · intro _
        refine ⟨sampler, hget, ?_⟩
        rcases hval with ⟨hv, hs0⟩ | ⟨hv, hs0⟩
        · refine Or.inl ⟨hv, ?_, ?_⟩
          · rw [hleft, hs0]
          · rw [hnext, hs0]
        · obtain ⟨sampler2, calls, hts, hnone⟩ := hnw (by rw [hs0])
          rw [hs0] at hts
          simp only [Option.some.injEq, Prod.mk.injEq] at hts
          obtain ⟨hsame, hcalls⟩ := hts
          rw [← hsame, ← hcalls] at hnone
          refine Or.inr ⟨hv, hnone, ?_, ?_⟩
          · rw [hleft, hs0]
          · rw [hnext, hs0]

/-- Instance of amended C9: the only task of the job validates, reports three samples and
fails in its first `next_work()`, in the call that starts the task. -/
theorem NextWork_failure_absorbing_witness :
    NextWork [failing_sampler] (NewJob_state [failing_sampler] none) =
        some (failed_next_work_state, -1) ∧
      failed_next_work_state.task_result = false ∧
      ((-1 : Int) = -1 ∧
        failed_next_work_state.total_samples_used =
          (NewJob_state [failing_sampler] none).total_samples_used ∧
        (0 < (NewJob_state [failing_sampler] none).samples_left ∨
            ¬((NewJob_state [failing_sampler] none).next_task <
                (NewJob_state [failing_sampler] none).num_tasks ∧
              (NewJob_state [failing_sampler] none).task_result = true) →
          failed_next_work_state.samples_left =
              (NewJob_state [failing_sampler] none).samples_left ∧
            failed_next_work_state.next_task =
              (NewJob_state [failing_sampler] none).next_task) ∧
        ((NewJob_state [failing_sampler] none).samples_left ≤ 0 ∧
            (NewJob_state [failing_sampler] none).next_task <
              (NewJob_state [failing_sampler] none).num_tasks ∧
            (NewJob_state [failing_sampler] none).task_result = true →
          ∃ sampler, get_at [failing_sampler]
              (NewJob_state [failing_sampler] none).next_task = some sampler ∧
            ((sampler.validate = false ∧
                failed_next_work_state.samples_left =
                  (NewJob_state [failing_sampler] none).samples_left ∧
                failed_next_work_state.next_task =
                  (NewJob_state [failing_sampler] none).next_task) ∨
              (sampler.validate = true ∧ sampler.next_work 0 = none ∧
                failed_next_work_state.samples_left = sampler.total_samples ∧
                failed_next_work_state.next_task =
                  (NewJob_state [failing_sampler] none).next_task + 1))) ∧
        ∀ n, NextWork_calls [failing_sampler] n failed_next_work_state =
          some (failed_next_work_state, List.replicate n (-1))) ∧
      NextWork [failing_sampler] (NewJob_state [failing_sampler] none) =
        some ({ NewJob_state [failing_sampler] none with
                task_sampler := some (failing_sampler, 1)
                task_result := false
                samples_left := failing_sampler.total_samples
                next_task := (NewJob_state [failing_sampler] none).next_task + 1 }, -1) :=
  ⟨rfl, rfl,
    (NextWork_failure_absorbing [failing_sampler] (NewJob_state [failing_sampler] none)).1
      failed_next_work_state (-1) rfl rfl,
    (NextWork_failure_absorbing [failing_sampler]
      (NewJob_state [failing_sampler] none)).2.2.1 failing_sampler (by decide)
      (by decide) rfl rfl (by decide) rfl⟩

/-! ## The video loop computes the runs -/

/-- Within the keyframe range the segment of a frame is the one whose bounds enclose it. -/
theorem keyframe_segment_eq (kp : List Int) (hs : kp.Sorted (· < ·)) (r : Int) (j : Nat)
    (hj : j + 1 < kp.length) (hlo : kp.getD j 0 ≤ r) (hhi : r < kp.getD (j + 1) 0) :
    keyframe_segment kp r = j := by
  have hidx : kp.findIdx (fun k => decide (r < k)) = j + 1 := by
    rw [List.findIdx_eq hj]
    refine ⟨?_, ?_⟩
    · rw [List.getD_eq_getElem kp 0 hj] at hhi
      simpa using hhi
    · intro i hi
      have h1 := getD_le_of_sorted kp hs i j (by omega) (by omega)
      rw [List.getD_eq_getElem kp 0 (by omega : i < kp.length)] at h1
      simp only [decide_eq_false_iff_not, not_lt]
      omega
  unfold keyframe_segment
  rw [hidx]
  rfl

theorem video_intervals_of_runs_snoc (kp : List Int) (runs : List (List Int))
    (hne : runs ≠ []) (run : List Int) :
    video_intervals_of_runs kp (runs ++ [run]) =
      (video_intervals_of_runs kp runs).emit (run_start_index kp run) (run_end_index kp run)
        run := by
  cases runs with
  | nil => exact absurd rfl hne
  | cons a t => simp [video_intervals_of_runs, VideoIntervals.emit]

/-- The three ways an iteration of the row loop goes, for a state whose open interval ends
right after the segment of the previous row. -/
theorem video_step_same_segment (kp : List Int) (st : VideoSliceState) (row : Int)
    (h : row < st.next_keyframe) :
    video_step kp st row = some { st with valid_frames := st.valid_frames ++ [row] } := by
  unfold video_step
  rw [if_neg (by omega)]

theorem video_step_next_segment (kp : List Int) (st : VideoSliceState) (row : Int)
    (h1 : st.next_keyframe ≤ row) (he : st.end_keyframe_index + 1 < kp.length)
    (h2 : row < kp.getD (st.end_keyframe_index + 1) 0) :
    video_step kp st row =
      some { st with end_keyframe_index := st.end_keyframe_index + 1
                     next_keyframe := kp.getD (st.end_keyframe_index + 1) 0
                     valid_frames := st.valid_frames ++ [row] } := by
  unfold video_step
  rw [if_pos h1, if_pos (by omega)]
  simp only [getElem?_eq_some_getD kp _ he]
  rw [if_neg (by omega)]

theorem video_step_skip (kp : List Int) (st : VideoSliceState) (row : Int)
    (h1 : st.next_keyframe ≤ row) (he : st.end_keyframe_index + 1 < kp.length)
    (h2 : kp.getD (st.end_keyframe_index + 1) 0 ≤ row)
    (hhi : row < kp.getD (kp.length - 1) 0) :
    ∃ e2, st.end_keyframe_index + 2 ≤ e2 ∧ e2 < kp.length ∧ kp.getD (e2 - 1) 0 ≤ row ∧
      row < kp.getD e2 0 ∧
      video_step kp st row = some
        { start_keyframe_index := e2 - 1
          end_keyframe_index := e2
          next_keyframe := kp.getD e2 0
          valid_frames := [row]
          info := if st.valid_frames ≠ [] then
              st.info.emit st.start_keyframe_index st.end_keyframe_index st.valid_frames
            else st.info } := by
  obtain ⟨e2, hk, hle, hlt, hrow, hall⟩ :=
    skip_keyframes_spec kp row hhi kp.length (st.end_keyframe_index + 1) he (by omega)
  have hne : e2 ≠ st.end_keyframe_index + 1 := by
    intro h; rw [h] at hrow; omega
  refine ⟨e2, by omega, hlt, hall (e2 - 1) (by omega) (by omega), hrow, ?_⟩
  unfold video_step
  rw [if_pos h1, if_pos (by omega)]
  simp only [getElem?_eq_some_getD kp _ he]
  rw [if_pos h2]
  simp only [hk, getElem?_eq_some_getD kp _ hlt, Nat.add_sub_cancel]

/-- Within the keyframe range every frame has a segment, and its bounds enclose the frame. -/
theorem keyframe_segment_spec (kp : List Int) (r : Int) (hlen : 2 ≤ kp.length)
    (hlo : kp.getD 0 0 ≤ r) (hhi : r < kp.getD (kp.length - 1) 0) :
    keyframe_segment kp r + 1 < kp.length ∧ kp.getD (keyframe_segment kp r) 0 ≤ r ∧
      r < kp.getD (keyframe_segment kp r + 1) 0 := by
  have hex : ∃ x ∈ kp, (fun k => decide (r < k)) x = true := by
    refine ⟨kp.getD (kp.length - 1) 0, ?_, by simpa using hhi⟩
    rw [List.getD_eq_getElem kp 0 (by omega : kp.length - 1 < kp.length)]
    exact List.getElem_mem _
  have hlt : kp.findIdx (fun k => decide (r < k)) < kp.length :=
    List.findIdx_lt_length_of_exists hex
  have hat : r < kp[kp.findIdx (fun k => decide (r < k))] := by
    have := @List.findIdx_getElem _ (fun k => decide (r < k)) kp hlt
    simpa using this
  have hpos : 0 < kp.findIdx (fun k => decide (r < k)) := by
    by_contra hcon
    have h0 : kp.findIdx (fun k => decide (r < k)) = 0 := by omega
    have h1 : r < kp.getD 0 0 := by
      rw [List.getD_eq_getElem kp 0 (by omega : 0 < kp.length)]
      simpa [h0] using hat
    omega
  have hprev : kp.getD (kp.findIdx (fun k => decide (r < k)) - 1) 0 ≤ r := by
    rw [List.getD_eq_getElem kp 0 (by omega)]
    have := @List.not_of_lt_findIdx _ (fun k => decide (r < k)) kp
      (kp.findIdx (fun k => decide (r < k)) - 1) (by omega)
    simpa using this
  unfold keyframe_segment
  refine ⟨by omega, hprev, ?_⟩
  rw [show kp.findIdx (fun k => decide (r < k)) - 1 + 1 = kp.findIdx (fun k => decide (r < k))
    by omega, List.getD_eq_getElem kp 0 hlt]
  exact hat

theorem getLastD_reverse_cons (ag : Int) (g : List Int) : (ag :: g).reverse.getLastD 0 = ag := by
  simp

/-- Emitting the open run appends it to the runs emitted so far. -/
theorem video_emit_group (kp : List Int) (st : VideoSliceState) (ag : Int) (g : List Int)
    (gs : List (List Int))
    (hend : st.end_keyframe_index = keyframe_segment kp ag + 1)
    (hvf : st.valid_frames = (ag :: g).reverse)
    (hstart : st.start_keyframe_index =
      if gs = [] then first_run_start_index kp (ag :: g).reverse
      else run_start_index kp (ag :: g).reverse)
    (hinfo : st.info = video_intervals_of_runs kp gs.reverse) :
    st.info.emit st.start_keyframe_index st.end_keyframe_index st.valid_frames =
      video_intervals_of_runs kp (gs.reverse ++ [(ag :: g).reverse]) := by
  have hre : run_end_index kp (ag :: g).reverse = st.end_keyframe_index := by
    unfold run_end_index
    rw [getLastD_reverse_cons, hend]
  by_cases hgs : gs = []
  · rw [if_pos hgs] at hstart
    subst hgs
    rw [hinfo, hstart, ← hre, hvf]
    rfl
  · rw [if_neg hgs] at hstart
    rw [video_intervals_of_runs_snoc kp gs.reverse (by simpa using hgs), hinfo, hstart, hre, hvf]

theorem video_loop_runs (kp : List Int) (hs : kp.Sorted (· < ·)) :
    ∀ (l : List Int) (ag : Int) (g : List Int) (gs : List (List Int)) (st : VideoSliceState),
      (ag :: l).Sorted (· ≤ ·) →
      (∀ r ∈ l, r < kp.getD (kp.length - 1) 0) →
      st.end_keyframe_index = keyframe_segment kp ag + 1 →
      st.end_keyframe_index < kp.length →
      kp.getD (st.end_keyframe_index - 1) 0 ≤ ag →
      ag < kp.getD st.end_keyframe_index 0 →
      st.next_keyframe = kp.getD st.end_keyframe_index 0 →
      st.valid_frames = (ag :: g).reverse →
      st.start_keyframe_index =
        (if gs = [] then first_run_start_index kp (ag :: g).reverse
          else run_start_index kp (ag :: g).reverse) →
      st.info = video_intervals_of_runs kp gs.reverse →
      (l.foldlM (video_step kp) st).map
          (fun st => st.info.emit st.start_keyframe_index st.end_keyframe_index st.valid_frames)
        = some (video_intervals_of_runs kp
            (List.splitBy.loop (same_video_run kp) l ag g gs)) := by
  intro l
  induction l with
  | nil =>
    intro ag g gs st _ _ hend _ _ _ _ hvf hstart hinfo
    simp only [List.foldlM_nil, List.splitBy.loop, List.reverse_cons ((ag :: g).reverse) gs]
    rw [← video_emit_group kp st ag g gs hend hvf hstart hinfo]
    rfl
  | cons a l ih =>
    intro ag g gs st hasc hhi hend hel hlo hup hnext hvf hstart hinfo
    have haga : ag ≤ a := (List.pairwise_cons.1 hasc).1 a (List.mem_cons_self _ _)
    have hasc1 : (a :: l).Sorted (· ≤ ·) := (List.pairwise_cons.1 hasc).2
    have hhi1 : ∀ r ∈ l, r < kp.getD (kp.length - 1) 0 := fun r hr =>
      hhi r (List.mem_cons_of_mem _ hr)
    have hahi := hhi a (List.mem_cons_self _ _)
    have hhead : (a :: ag :: g).reverse.headD 0 = (ag :: g).reverse.headD 0 :=
      headD_reverse_cons_cons a ag g
    have hstart1 : st.start_keyframe_index =
        (if gs = [] then first_run_start_index kp (a :: ag :: g).reverse
          else run_start_index kp (a :: ag :: g).reverse) := by
      rw [hstart]
      unfold first_run_start_index run_start_index
      rw [hhead]
    have hpos : 1 ≤ st.end_keyframe_index := by omega
    rw [List.foldlM_cons]
    by_cases h1 : a < st.next_keyframe
    · have hseg : keyframe_segment kp a = st.end_keyframe_index - 1 :=
        keyframe_segment_eq kp hs a (st.end_keyframe_index - 1) (by omega) (by omega)
          (by rw [show st.end_keyframe_index - 1 + 1 = st.end_keyframe_index by omega]; omega)
      have hR : same_video_run kp ag a = true := by
        unfold same_video_run
        simp only [decide_eq_true_eq]
        omega
      rw [video_step_same_segment kp st a h1]
      simp only [List.splitBy.loop, hR, Option.bind_eq_bind, Option.some_bind]
      exact ih a (ag :: g) gs _ hasc1 hhi1 (by dsimp only; omega) hel (by dsimp only; omega)
        (by dsimp only; omega) hnext (by simp [hvf]) hstart1 hinfo
    · have he1 : st.end_keyframe_index + 1 < kp.length := by
        by_contra hcon
        have : st.end_keyframe_index = kp.length - 1 := by omega
        rw [hnext, this] at h1
        omega
      by_cases h2 : a < kp.getD (st.end_keyframe_index + 1) 0
      · have hseg : keyframe_segment kp a = st.end_keyframe_index :=
          keyframe_segment_eq kp hs a st.end_keyframe_index he1 (by omega) h2
        have hR : same_video_run kp ag a = true := by
          unfold same_video_run
          simp only [decide_eq_true_eq]
          omega
        rw [video_step_next_segment kp st a (by omega) he1 h2]
        simp only [List.splitBy.loop, hR, Option.bind_eq_bind, Option.some_bind]
        exact ih a (ag :: g) gs _ hasc1 hhi1 (by dsimp only; omega) he1
          (by dsimp only; rw [Nat.add_sub_cancel]; omega) h2 rfl (by simp [hvf]) hstart1 hinfo
      · obtain ⟨e2, hge, hlt, hprev, hrow, hstep⟩ :=
          video_step_skip kp st a (by omega) he1 (by omega) hahi
        have hseg : keyframe_segment kp a = e2 - 1 :=
          keyframe_segment_eq kp hs a (e2 - 1) (by omega) hprev
            (by rw [show e2 - 1 + 1 = e2 by omega]; exact hrow)
        have hR : same_video_run kp ag a = false := by
          unfold same_video_run
          simp only [decide_eq_false_iff_not, not_le]
          omega
        have hvne : st.valid_frames ≠ [] := by rw [hvf]; simp
        rw [hstep, if_pos hvne]
        simp only [List.splitBy.loop, hR, Option.bind_eq_bind, Option.some_bind]
        refine ih a [] ((ag :: g).reverse :: gs) _ hasc1 hhi1 (by dsimp only; omega) hlt hprev
          hrow rfl rfl ?_ ?_
        · rw [if_neg (by simp)]
          unfold run_start_index
          simp only [List.reverse_cons, List.reverse_nil, List.nil_append, List.headD_cons]
          omega
        · dsimp only
          rw [List.reverse_cons ((ag :: g).reverse) gs]
          exact video_emit_group kp st ag g gs hend hvf hstart hinfo

/-- On valid input `slice_into_video_intervals` returns the arrays built from the runs that
are cut wherever a whole keyframe segment lies between two consecutive rows. -/
theorem slice_into_video_intervals_eq_runs (kp rows : List Int) (hlen : 2 ≤ kp.length)
    (hs : kp.Sorted (· < ·)) (hrows : rows ≠ []) (hasc : rows.Sorted (· ≤ ·))
    (hrange : ∀ r ∈ rows, kp.getD 0 0 ≤ r ∧ r < kp.getD (kp.length - 1) 0) :
    slice_into_video_intervals kp rows =
      some (video_intervals_of_runs kp (video_runs kp rows)) := by
  cases rows with
  | nil => exact absurd rfl hrows
  | cons r0 rest =>
    have h0 := hrange r0 (List.mem_cons_self _ _)
    have hhi1 : ∀ r ∈ rest, r < kp.getD (kp.length - 1) 0 := fun r hr =>
      (hrange r (List.mem_cons_of_mem _ hr)).2
    unfold slice_into_video_intervals video_runs
    rw [if_pos hlen]
    simp only [getElem?_eq_some_getD kp 1 (by omega), List.foldlM_cons, List.splitBy]
    by_cases h1 : r0 < kp.getD 1 0
    · have hseg : keyframe_segment kp r0 = 0 :=
        keyframe_segment_eq kp hs r0 0 (by omega) h0.1 h1
      rw [video_step_same_segment kp _ r0 h1]
      simp only [Option.bind_eq_bind, Option.some_bind]
      refine video_loop_runs kp hs rest r0 [] [] _ hasc hhi1 (by dsimp only; omega)
        (by dsimp only; omega) h0.1 h1 rfl rfl ?_ rfl
      rw [if_pos rfl]
      unfold first_run_start_index
      simp [hseg]
    · have he1 : 1 + 1 < kp.length := by
        by_contra hcon
        have : 1 = kp.length - 1 := by omega
        rw [this] at h1
        omega
      by_cases h2 : r0 < kp.getD (1 + 1) 0
      · have hseg : keyframe_segment kp r0 = 1 :=
          keyframe_segment_eq kp hs r0 1 he1 (by omega) h2
        rw [video_step_next_segment kp _ r0 (by dsimp only; omega) he1 h2]
        simp only [Option.bind_eq_bind, Option.some_bind]
        refine video_loop_runs kp hs rest r0 [] [] _ hasc hhi1 (by dsimp only; omega) he1
          (by dsimp only; rw [Nat.add_sub_cancel]; omega) h2 rfl rfl ?_ rfl
        rw [if_pos rfl]
        unfold first_run_start_index
        simp [hseg]
      · obtain ⟨e2, hge, hlt, hprev, hrow, hstep⟩ :=
          video_step_skip kp
            { start_keyframe_index := 0, end_keyframe_index := 1, next_keyframe := kp.getD 1 0
              valid_frames := [], info := ⟨[], []⟩ } r0 (by dsimp only; omega) he1
            (by dsimp only; omega) h0.2
        have hseg : keyframe_segment kp r0 = e2 - 1 :=
          keyframe_segment_eq kp hs r0 (e2 - 1) (by omega) hprev
            (by rw [show e2 - 1 + 1 = e2 by omega]; exact hrow)
        dsimp only at hge
        rw [hstep, if_neg (by simp)]
        simp only [Option.bind_eq_bind, Option.some_bind]
        refine video_loop_runs kp hs rest r0 [] [] _ hasc hhi1 (by dsimp only; omega) hlt hprev
          hrow rfl rfl ?_ rfl
        rw [if_pos rfl]
        unfold first_run_start_index
        simp only [List.reverse_cons, List.reverse_nil, List.nil_append, List.headD_cons, hseg]
        rw [if_neg (by omega)]

theorem video_intervals_of_runs_valid_frames (kp : List Int) (runs : List (List Int)) :
    (video_intervals_of_runs kp runs).valid_frames = runs := by
  cases runs <;> rfl

theorem video_intervals_of_runs_ends (kp : List Int) (runs : List (List Int)) :
    List.Forall₂ (fun (run : List Int) (iv : Nat × Nat) => iv.2 = run_end_index kp run) runs
      (video_intervals_of_runs kp runs).keyframe_index_intervals := by
  cases runs with
  | nil => exact List.Forall₂.nil
  | cons a t =>
    refine List.Forall₂.cons rfl ?_
    rw [List.forall₂_map_right_iff, List.forall₂_same]
    intro x _
    rfl

theorem forall₂_imp_of_mem_left {α β : Type} {R S : α → β → Prop} :
    ∀ {l : List α}, (∀ a ∈ l, ∀ b, R a b → S a b) → ∀ (k : List α) (m : List β),
      k = l → List.Forall₂ R k m → List.Forall₂ S k m := by
  intro l himp k m hk h
  subst hk
  induction h with
  | nil => exact List.Forall₂.nil
  | cons hab _ ih =>
    refine List.Forall₂.cons (himp _ (List.mem_cons_self _ _) _ hab) (ih ?_)
    intro a ha b hR
    exact himp a (List.mem_cons_of_mem _ ha) b hR

/-! ## Claims on the runs of `slice_into_video_intervals` -/

/-- C19 as stated (strided video read), evaluated: on `keyframe_positions = [0, 30, 60, 90]`
extended with the sentinel 100 and rows `[0, 10, 40, 80]` the call does not return the two
video-intervals `(0, 2)` with frames `[0, 10]` and `(2, 4)` with frames `[40, 80]`. -/
theorem strided_read_not_two_intervals :
    slice_into_video_intervals [0, 30, 60, 90, 100] [0, 10, 40, 80] ≠
      some ⟨[(0, 2), (2, 4)], [[0, 10], [40, 80]]⟩ := by
  decide

/-- C19, amended (strided video read): on `keyframe_positions = [0, 30, 60, 90]` extended with
the sentinel 100 and rows `[0, 10, 40, 80]` the call returns exactly one video-interval,
`(0, 3)`, with the valid frames `[0, 10, 40, 80]`: every keyframe segment from the first to
the third holds a requested frame, so no run is closed. -/
theorem strided_read_one_interval :
    slice_into_video_intervals [0, 30, 60, 90, 100] [0, 10, 40, 80] =
      some ⟨[(0, 3)], [[0, 10, 40, 80]]⟩ := by
  decide

/-- C20 (run-splitting rule): for strictly ascending `keyframe_positions` of size at least two
and non-empty ascending rows within `[keyframe_positions[0], keyframe_positions.back())`, every
row `r` has a segment `seg(r)` with
`keyframe_positions[seg(r)] <= r < keyframe_positions[seg(r)+1]`, and the call returns a result
whose `valid_frames` are the rows cut exactly between those consecutive rows `r`, `r'` that
have `seg(r') >= seg(r) + 2`: within a run consecutive rows satisfy `seg(r') <= seg(r) + 1`,
the last row of a run and the first row of the next satisfy `seg(r') >= seg(r) + 2`, and the
`end_kf_index` of every run is `seg(r) + 1` for its last row `r`. -/
theorem slice_into_video_intervals_run_splitting (kp rows : List Int) (hlen : 2 ≤ kp.length)
    (hs : kp.Sorted (· < ·)) (hrows : rows ≠ []) (hasc : rows.Sorted (· ≤ ·))
    (hrange : ∀ r ∈ rows, kp.getD 0 0 ≤ r ∧ r < kp.getD (kp.length - 1) 0) :
    ∃ info, slice_into_video_intervals kp rows = some info ∧
      (∀ r ∈ rows, keyframe_segment kp r + 1 < kp.length ∧
        kp.getD (keyframe_segment kp r) 0 ≤ r ∧ r < kp.getD (keyframe_segment kp r + 1) 0) ∧
      info.valid_frames =
        rows.splitBy (fun r r' => decide (keyframe_segment kp r' ≤ keyframe_segment kp r + 1)) ∧
      info.valid_frames.flatten = rows ∧
      (∀ run ∈ info.valid_frames, run.Chain'
        (fun r r' => keyframe_segment kp r' ≤ keyframe_segment kp r + 1)) ∧
      info.valid_frames.Chain' (fun a b => ∃ (ha : a ≠ []) (hb : b ≠ []),
        keyframe_segment kp (a.getLast ha) + 2 ≤ keyframe_segment kp (b.head hb)) ∧
      List.Forall₂ (fun (run : List Int) (iv : Nat × Nat) => ∃ h : run ≠ [],
          iv.2 = keyframe_segment kp (run.getLast h) + 1)
        info.valid_frames info.keyframe_index_intervals := by
  refine ⟨_, slice_into_video_intervals_eq_runs kp rows hlen hs hrows hasc hrange,
    fun r hr => keyframe_segment_spec kp r hlen (hrange r hr).1 (hrange r hr).2, ?_, ?_, ?_, ?_,
    ?_⟩
  · rw [video_intervals_of_runs_valid_frames]
    rfl
  · rw [video_intervals_of_runs_valid_frames]
    exact List.flatten_splitBy _ _
  · rw [video_intervals_of_runs_valid_frames]
    intro run hrun
    refine (List.chain'_of_mem_splitBy hrun).imp ?_
    intro a b hab
    simpa [same_video_run] using hab
  · rw [video_intervals_of_runs_valid_frames]
    refine (List.chain'_getLast_head_splitBy (same_video_run kp) rows).imp ?_
    rintro a b ⟨ha, hb, hab⟩
    refine ⟨ha, hb, ?_⟩
    have : ¬ keyframe_segment kp (b.head hb) ≤ keyframe_segment kp (a.getLast ha) + 1 := by
      simpa [same_video_run] using hab
    omega
  · rw [video_intervals_of_runs_valid_frames]
    refine forall₂_imp_of_mem_left ?_ _ _ rfl
      (video_intervals_of_runs_ends kp (video_runs kp rows))
    intro run hrun iv h
    have hne : run ≠ [] := List.ne_nil_of_mem_splitBy _ hrun
    refine ⟨hne, ?_⟩
    rw [h]
    unfold run_end_index
    rw [getLastD_eq_getLast run hne]

/-- Instance of C20 on `keyframe_positions = [0, 30, 60, 90, 120, 150]` and rows
`[0, 10, 40, 130]`, whose segments are 0, 0, 1 and 4: the runs are `[0, 10, 40]` and `[130]`. -/
theorem slice_into_video_intervals_run_splitting_witness :
    slice_into_video_intervals [0, 30, 60, 90, 120, 150] [0, 10, 40, 130] =
        some ⟨[(0, 2), (4, 5)], [[0, 10, 40], [130]]⟩ ∧
      ∃ info, slice_into_video_intervals [0, 30, 60, 90, 120, 150] [0, 10, 40, 130] =
          some info ∧
        (∀ r ∈ ([0, 10, 40, 130] : List Int),
          keyframe_segment [0, 30, 60, 90, 120, 150] r + 1 <
            ([0, 30, 60, 90, 120, 150] : List Int).length ∧
          ([0, 30, 60, 90, 120, 150] : List Int).getD
            (keyframe_segment [0, 30, 60, 90, 120, 150] r) 0 ≤ r ∧
          r < ([0, 30, 60, 90, 120, 150] : List Int).getD
            (keyframe_segment [0, 30, 60, 90, 120, 150] r + 1) 0) ∧
        info.valid_frames =
          ([0, 10, 40, 130] : List Int).splitBy (fun r r' =>
            decide (keyframe_segment [0, 30, 60, 90, 120, 150] r' ≤
              keyframe_segment [0, 30, 60, 90, 120, 150] r + 1)) ∧
        info.valid_frames.flatten = [0, 10, 40, 130] ∧
        (∀ run ∈ info.valid_frames, run.Chain'
          (fun r r' => keyframe_segment [0, 30, 60, 90, 120, 150] r' ≤
            keyframe_segment [0, 30, 60, 90, 120, 150] r + 1)) ∧
        info.valid_frames.Chain' (fun a b => ∃ (ha : a ≠ []) (hb : b ≠ []),
          keyframe_segment [0, 30, 60, 90, 120, 150] (a.getLast ha) + 2 ≤
            keyframe_segment [0, 30, 60, 90, 120, 150] (b.head hb)) ∧
        List.Forall₂ (fun (run : List Int) (iv : Nat × Nat) => ∃ h : run ≠ [],
            iv.2 = keyframe_segment [0, 30, 60, 90, 120, 150] (run.getLast h) + 1)
          info.valid_frames info.keyframe_index_intervals :=
  ⟨by decide,
    slice_into_video_intervals_run_splitting [0, 30, 60, 90, 120, 150] [0, 10, 40, 130]
      (by decide) (by decide) (by decide) (by decide) (by decide)⟩

/-! ## Claims on the op rules of `validate_task_set` -/

/-- C11 (DAG-shape validation), evaluated on two task sets with a valid task, the op `Blur`
registered and a kernel for it.  With the ops `[InputTable, Blur]`, fewer than three, where the
input of `Blur` has `op_index = -1`, the lookup `op_names.at(-1)` throws before the size check
is reached.  With the ops `[InputTable, OutputTable, OutputTable, Blur]`, whose last op is not
`OutputTable` and where the input of the third op has `op_index = 1`, `op_outputs` has one
entry when the third op is checked and `op_outputs.at(1)` throws.  In both calls the
`Result` is left with `success = true`. -/
theorem validate_task_set_throws_before_shape_checks :
    validate_task_set blur_registry all_kernels ⟨["video"], []⟩
        { tasks := [⟨"out", [⟨"video", ["frame"]⟩]⟩]
          ops := [⟨"InputTable", [⟨-1, ["frame"]⟩], DeviceType.CPU⟩,
            ⟨"Blur", [⟨-1, ["frame"]⟩], DeviceType.CPU⟩] }
        ⟨true, ""⟩ = (⟨true, ""⟩, true) ∧
      validate_task_set blur_registry all_kernels ⟨["video"], []⟩
        { tasks := [⟨"out", [⟨"video", ["frame"]⟩]⟩]
          ops := [⟨"InputTable", [⟨-1, ["frame"]⟩], DeviceType.CPU⟩,
            ⟨"OutputTable", [⟨0, ["frame"]⟩], DeviceType.CPU⟩,
            ⟨"OutputTable", [⟨1, ["frame"]⟩], DeviceType.CPU⟩,
            ⟨"Blur", [⟨0, ["frame"]⟩], DeviceType.CPU⟩] }
        ⟨true, ""⟩ = (⟨true, ""⟩, true) := by
  decide

/-- C12 as stated (dependency validation), evaluated on a task set with a valid task and the
ops `[InputTable, Blur, OutputTable]`, where the input of `InputTable` has `op_index = 0`, the
index of the op that declares it: the call returns and leaves `success = true`. -/
theorem validate_task_set_ignores_input_table_index :
    validate_task_set blur_registry all_kernels ⟨["video"], []⟩
        { tasks := [⟨"out", [⟨"video", ["frame"]⟩]⟩]
          ops := [⟨"InputTable", [⟨0, ["frame"]⟩], DeviceType.CPU⟩,
            ⟨"Blur", [⟨0, ["frame"]⟩], DeviceType.CPU⟩,
            ⟨"OutputTable", [⟨1, ["frame"]⟩], DeviceType.CPU⟩] }
        ⟨true, ""⟩ = (⟨true, ""⟩, false) := by
  decide

/-- C15 (every rejection carries a message), evaluated on a task set whose only task has an
empty output table name and whose ops are well formed: the call returns with
`success = false` and the message as it came in, empty. -/
theorem validate_task_set_task_rejection_without_msg :
    validate_task_set blur_registry all_kernels ⟨["video"], []⟩
        { tasks := [⟨"", [⟨"video", ["frame"]⟩]⟩]
          ops := [⟨"InputTable", [⟨-1, ["frame"]⟩], DeviceType.CPU⟩,
            ⟨"Blur", [⟨0, ["frame"]⟩], DeviceType.CPU⟩,
            ⟨"OutputTable", [⟨1, ["frame"]⟩], DeviceType.CPU⟩] }
        ⟨true, ""⟩ = (⟨false, ""⟩, false) := by
  decide

/-! ## Claims on `NewJob` -/

/-- C13 (a rejected job changes nothing persistent), evaluated on a job whose op list is
`[InputTable, Blur]`: `validate_task_set` returns `success = false` for it, and `NewJob` stops
at `assert(last_op.name() == "OutputTable")` before it calls `validate_task_set`, so it does
not return a result. -/
theorem NewJob_rejected_job_without_result :
    ((validate_task_set blur_registry all_kernels ⟨["video"], []⟩
        { tasks := [⟨"out", [⟨"video", ["frame"]⟩]⟩]
          ops := [⟨"InputTable", [⟨-1, ["frame"]⟩], DeviceType.CPU⟩,
            ⟨"Blur", [⟨0, ["frame"]⟩], DeviceType.CPU⟩] }
        ⟨true, ""⟩).1.success = false ∧
      (validate_task_set blur_registry all_kernels ⟨["video"], []⟩
        { tasks := [⟨"out", [⟨"video", ["frame"]⟩]⟩]
          ops := [⟨"InputTable", [⟨-1, ["frame"]⟩], DeviceType.CPU⟩,
            ⟨"Blur", [⟨0, ["frame"]⟩], DeviceType.CPU⟩] }
        ⟨true, ""⟩).2 = false) ∧
      (NewJob blur_registry all_kernels ⟨["video"], []⟩ (fun _ => two_unit_sampler) ["w0"] 0
        (NewJob_state [] none) ⟨false, ""⟩
        { job_name := "job"
          task_set :=
            { tasks := [⟨"out", [⟨"video", ["frame"]⟩]⟩]
              ops := [⟨"InputTable", [⟨-1, ["frame"]⟩], DeviceType.CPU⟩,
                ⟨"Blur", [⟨0, ["frame"]⟩], DeviceType.CPU⟩] } }).job_result = none := by
  decide

/-- C14 (a malformed op list is surfaced as an error result), evaluated on a job with an empty
op list and on a job with the ops `[InputTable, Blur, Blur]`: in both calls `NewJob` stops at
the op list (`ops.Get(ops.size() - 1)` on the empty list, the assert on the name of the last
op) before `validate_task_set` is reached, and returns no result. -/
theorem NewJob_malformed_op_list_aborts :
    (NewJob blur_registry all_kernels ⟨["video"], []⟩ (fun _ => two_unit_sampler) ["w0"] 0
        (NewJob_state [] none) ⟨false, ""⟩
        { job_name := "job"
          task_set := { tasks := [⟨"out", [⟨"video", ["frame"]⟩]⟩], ops := [] } }).is_aborted
        = true ∧
      (NewJob blur_registry all_kernels ⟨["video"], []⟩ (fun _ => two_unit_sampler) ["w0"] 0
        (NewJob_state [] none) ⟨false, ""⟩
        { job_name := "job"
          task_set :=
            { tasks := [⟨"out", [⟨"video", ["frame"]⟩]⟩]
              ops := [⟨"InputTable", [⟨-1, ["frame"]⟩], DeviceType.CPU⟩,
                ⟨"Blur", [⟨0, ["frame"]⟩], DeviceType.CPU⟩,
                ⟨"Blur", [⟨1, ["frame"]⟩], DeviceType.CPU⟩] } }).is_aborted = true := by
  decide

/-- C16 (early exit on a task-sampler error), evaluated on a job of two tasks that passes
`validate_task_set`, where `get_task_end_rows` succeeds for the first task (end rows 4 and 8)
and fails for the second: `NewJob` returns the failed result, issues no RPC and writes neither
job descriptor nor database metadata, and it has written the table descriptor of the first
task to storage. -/
theorem NewJob_sampler_error_after_table_write :
    (NewJob blur_registry all_kernels ⟨["video"], []⟩
        (fun k => if k = 0 then two_unit_sampler else invalid_sampler) ["w0"] 0
        (NewJob_state [] none) ⟨false, ""⟩
        { job_name := "job"
          task_set :=
            { tasks := [⟨"out0", [⟨"video", ["frame"]⟩]⟩, ⟨"out1", [⟨"video", ["frame"]⟩]⟩]
              ops := [⟨"InputTable", [⟨-1, ["frame"]⟩], DeviceType.CPU⟩,
                ⟨"Blur", [⟨0, ["frame"]⟩], DeviceType.CPU⟩,
                ⟨"OutputTable", [⟨1, ["frame"]⟩], DeviceType.CPU⟩] } }).job_result
        = some ⟨false, "bad sampler"⟩ ∧
      (NewJob blur_registry all_kernels ⟨["video"], []⟩
        (fun k => if k = 0 then two_unit_sampler else invalid_sampler) ["w0"] 0
        (NewJob_state [] none) ⟨false, ""⟩
        { job_name := "job"
          task_set :=
            { tasks := [⟨"out0", [⟨"video", ["frame"]⟩]⟩, ⟨"out1", [⟨"video", ["frame"]⟩]⟩]
              ops := [⟨"InputTable", [⟨-1, ["frame"]⟩], DeviceType.CPU⟩,
                ⟨"Blur", [⟨0, ["frame"]⟩], DeviceType.CPU⟩,
                ⟨"OutputTable", [⟨1, ["frame"]⟩], DeviceType.CPU⟩] } }).writes
        = [StorageWrite.table_metadata 1 "out0" [4, 8] 0] ∧
      (NewJob blur_registry all_kernels ⟨["video"], []⟩
        (fun k => if k = 0 then two_unit_sampler else invalid_sampler) ["w0"] 0
        (NewJob_state [] none) ⟨false, ""⟩
        { job_name := "job"
          task_set :=
            { tasks := [⟨"out0", [⟨"video", ["frame"]⟩]⟩, ⟨"out1", [⟨"video", ["frame"]⟩]⟩]
              ops := [⟨"InputTable", [⟨-1, ["frame"]⟩], DeviceType.CPU⟩,
                ⟨"Blur", [⟨0, ["frame"]⟩], DeviceType.CPU⟩,
                ⟨"OutputTable", [⟨1, ["frame"]⟩], DeviceType.CPU⟩] } }).rpcs = [] := by
  decide

/-! ## Local worker numbering -/

theorem address_counts_getD (l : List String) (a : String) :
    (address_counts l a).getD 0 = (l.count a : Int) := by
  unfold address_counts
  split
  · next h => simp [h]
  · rfl

/-- Counting one more address in a map of counts gives the map of counts of the longer
list. -/
theorem count_local_total_counts (l : List String) (address : String) :
    count_local_total (address_counts l) address = address_counts (l ++ [address]) := by
  funext k
  unfold count_local_total
  by_cases hk : k = address
  · subst hk
    by_cases h0 : l.count k = 0
    · simp [address_counts, AddressMap.set, h0]
    · simp [address_counts, AddressMap.set, h0]
  · have hc : (l ++ [address]).count k = l.count k := by
      rw [List.count_append]
      simp [List.count_cons, Ne.symm hk]
    by_cases h0 : l.count address = 0
    · simp [address_counts, AddressMap.set, h0, hk, hc]
    · simp [address_counts, AddressMap.set, h0, hk, hc]

theorem local_totals_counts :
    ∀ (l pre : List String),
      l.foldl count_local_total (address_counts pre) = address_counts (pre ++ l)
  | [], pre => by simp
  | a :: rest, pre => by
    rw [List.foldl_cons, count_local_total_counts, local_totals_counts rest (pre ++ [a])]
    simp

theorem address_counts_nil : address_counts [] = fun _ => none := by
  funext k
  simp [address_counts]

/-- One iteration of the numbering loop on maps of counts. -/
theorem worker_rpcs_loop_cons (all pre rest : List String) (a : String) :
    worker_rpcs_loop (address_counts all) (a :: rest) pre.length (address_counts pre) =
      { worker := pre.length, address := a, local_id := (pre.count a : Int)
        local_total := (all.count a : Int) } ::
        worker_rpcs_loop (address_counts all) rest (pre ++ [a]).length
          (address_counts (pre ++ [a])) := by
  have hset : count_local_total (address_counts pre) a = address_counts (pre ++ [a]) :=
    count_local_total_counts pre a
  unfold count_local_total at hset
  have hid : ((if (address_counts pre a).isNone then (address_counts pre).set a 0
      else address_counts pre) a).getD 0 = (pre.count a : Int) := by
    by_cases h0 : pre.count a = 0
    · simp [address_counts, AddressMap.set, h0]
    · simp [address_counts, AddressMap.set, h0]
  rw [worker_rpcs_loop]
  dsimp only at hset ⊢
  rw [hset, hid, address_counts_getD]
  simp

theorem worker_rpcs_loop_length (all : List String) :
    ∀ (rest pre : List String),
      (worker_rpcs_loop (address_counts all) rest pre.length (address_counts pre)).length =
        rest.length
  | [], _ => rfl
  | a :: rest, pre => by
    rw [worker_rpcs_loop_cons, List.length_cons, worker_rpcs_loop_length all rest (pre ++ [a]),
      List.length_cons]

theorem worker_rpcs_loop_getElem? (all : List String) :
    ∀ (rest pre : List String) (j : Nat) (a : String), rest[j]? = some a →
      (worker_rpcs_loop (address_counts all) rest pre.length (address_counts pre))[j]? =
        some ({ worker := pre.length + j, address := a
                local_id := ((pre ++ rest.take j).count a : Int)
                local_total := (all.count a : Int) } : WorkerRpc)
  | [], _, j, a, h => by simp at h
  | b :: rest, pre, 0, a, h => by
    have hb : b = a := by simpa using h
    rw [worker_rpcs_loop_cons, hb]
    simp
  | b :: rest, pre, j + 1, a, h => by
    have h1 : rest[j]? = some a := by simpa using h
    rw [worker_rpcs_loop_cons, List.getElem?_cons_succ,
      worker_rpcs_loop_getElem? all rest (pre ++ [b]) j a h1]
    simp
    omega

theorem worker_rpcs_loop_ids (all : List String) (a : String) :
    ∀ (rest pre : List String),
      ((worker_rpcs_loop (address_counts all) rest pre.length (address_counts pre)).filter
          (fun rpc => decide (rpc.address = a))).map (fun rpc => rpc.local_id) =
        (List.range' (pre.count a) (rest.count a)).map (fun (k : Nat) => (k : Int))
  | [], _ => by simp [worker_rpcs_loop]
  | b :: rest, pre => by
    rw [worker_rpcs_loop_cons]
    by_cases hb : b = a
    · subst hb
      rw [List.filter_cons_of_pos (by simp), List.map_cons,
        worker_rpcs_loop_ids all b rest (pre ++ [b])]
      simp [List.range'_succ, List.count_append]
    · rw [List.filter_cons_of_neg (by simpa using hb),
        worker_rpcs_loop_ids all a rest (pre ++ [b])]
      simp [List.count_append, List.count_cons, hb]

/-- C18 (local worker numbering in `NewJob`): for every list of registered worker addresses
one RPC is issued per worker, in registration order; worker `i` is sent `local_total` = the
number of registered workers whose address equals that of worker `i`, and `local_id` = the
number of workers `j < i` with the same address; hence for every address the local ids of
its workers, in registration order, are `0, 1, ..., local_total - 1`. -/
theorem worker_rpcs_numbering (addresses : List String) :
    (worker_rpcs addresses).length = addresses.length ∧
      (∀ i a, addresses[i]? = some a →
        (worker_rpcs addresses)[i]? =
          some ({ worker := i, address := a
                  local_id := ((addresses.take i).count a : Int)
                  local_total := (addresses.count a : Int) } : WorkerRpc)) ∧
      ∀ a, ((worker_rpcs addresses).filter (fun rpc => decide (rpc.address = a))).map
          (fun rpc => rpc.local_id) =
        (List.range (addresses.count a)).map (fun (k : Nat) => (k : Int)) := by
  have htot : addresses.foldl count_local_total (fun _ => none) = address_counts addresses := by
    have := local_totals_counts addresses []
    rw [address_counts_nil] at this
    simpa using this
  have hloop : worker_rpcs addresses =
      worker_rpcs_loop (address_counts addresses) addresses ([] : List String).length
        (address_counts []) := by
    unfold worker_rpcs
    rw [htot, address_counts_nil]
    rfl
  refine ⟨?_, ?_, ?_⟩
  · rw [hloop, worker_rpcs_loop_length]
  · intro i a h
    rw [hloop, worker_rpcs_loop_getElem? addresses addresses [] i a h]
    simp
  · intro a
    rw [hloop, worker_rpcs_loop_ids addresses a addresses []]
    simp [List.range_eq_range']

theorem worker_rpcs_numbering_witness :
    ["10.0.0.1", "10.0.0.2", "10.0.0.1"][2]? = some "10.0.0.1" ∧
      (worker_rpcs ["10.0.0.1", "10.0.0.2", "10.0.0.1"])[2]? =
        some ({ worker := 2, address := "10.0.0.1", local_id := 1, local_total := 2 } :
          WorkerRpc) :=
  ⟨by decide, by
    have h := (worker_rpcs_numbering ["10.0.0.1", "10.0.0.2", "10.0.0.1"]).2.1 2 "10.0.0.1"
      (by decide)
    simpa using h⟩

/-! ## Draining after a worker failure -/

/-- Once the job is marked failed, later replies leave the members as they are. -/
theorem NewJob_collect_replies_of_failed :
    ∀ (replies : List Result) (p : MasterState × Result),
      p.1.next_task = p.1.num_tasks → p.2.success = false →
      (NewJob_collect_replies replies p).1 = p.1 ∧
        (NewJob_collect_replies replies p).2.success = false
  | [], p, _, h2 => ⟨rfl, h2⟩
  | reply :: rest, p, h1, h2 => by
    unfold NewJob_collect_replies
    by_cases hr : reply.success = false
    · rw [if_pos hr]
      have hp : ({ p.1 with next_task := p.1.num_tasks } : MasterState) = p.1 := by
        obtain ⟨⟨a, b, c, d, e, f⟩, r⟩ := p
        simp only at h1
        subst h1
        rfl
      obtain ⟨h3, h4⟩ := NewJob_collect_replies_of_failed rest
        ({ p.1 with next_task := p.1.num_tasks }, { success := false, msg := reply.msg })
        rfl rfl
      exact ⟨h3.trans hp, h4⟩
    · rw [if_neg hr]
      exact NewJob_collect_replies_of_failed rest p h1 h2

/-- A non-success reply marks the job failed and sets `next_task_ = num_tasks_`; nothing else
of the members changes. -/
theorem NewJob_collect_replies_failure :
    ∀ (replies : List Result) (p : MasterState × Result),
      (∃ reply ∈ replies, reply.success = false) →
      (NewJob_collect_replies replies p).1 = { p.1 with next_task := p.1.num_tasks } ∧
        (NewJob_collect_replies replies p).2.success = false
  | [], _, h => by simp at h
  | reply :: rest, p, h => by
    unfold NewJob_collect_replies
    by_cases hr : reply.success = false
    · rw [if_pos hr]
      exact NewJob_collect_replies_of_failed rest
        ({ p.1 with next_task := p.1.num_tasks }, { success := false, msg := reply.msg })
        rfl rfl
    · rw [if_neg hr]
      refine NewJob_collect_replies_failure rest p ?_
      obtain ⟨x, hx, hxs⟩ := h
      rcases List.mem_cons.1 hx with rfl | hx
      · exact absurd hxs hr
      · exact ⟨x, hx, hxs⟩

/-- One `NextWork` call of a master with `next_task_ = num_tasks_`: it returns, starts no
task, and either hands out a unit of the current task, which lowers the budget by one, or
answers with the sentinel and leaves no budget. -/
theorem NextWork_drain_step (tasks : List TaskSampler) (d : MasterState)
    (h1 : d.next_task = d.num_tasks)
    (h2 : 0 < d.samples_left → d.task_sampler.isSome = true) :
    ∃ d2 item, NextWork tasks d = some (d2, item) ∧ d2.next_task = d.next_task ∧
      d2.num_tasks = d.num_tasks ∧
      d2.task_sampler.map Prod.fst = d.task_sampler.map Prod.fst ∧
      (0 < d2.samples_left → d2.task_sampler.isSome = true) ∧
      (drain_budget d2 + 1 = drain_budget d ∨ (item = -1 ∧ drain_budget d2 = 0)) := by
  by_cases hsl : d.samples_left ≤ 0
  · have hsel : NextWork_select_task tasks d = some (d, true) := by
      unfold NextWork_select_task
      rw [if_pos hsl, if_neg (fun h => by have := h.1; omega)]
    have hcall : NextWork tasks d = some (d, -1) := by
      unfold NextWork
      rw [hsel]
    refine ⟨d, -1, hcall, rfl, rfl, rfl, h2, Or.inr ⟨rfl, ?_⟩⟩
    unfold drain_budget
    split
    · exact Int.toNat_eq_zero.2 hsl
    · rfl
  · have hsel : NextWork_select_task tasks d = some (d, false) := by
      unfold NextWork_select_task
      rw [if_neg hsl]
    by_cases htr : d.task_result = false
    · have hcall : NextWork tasks d = some (d, -1) := by
        unfold NextWork
        rw [hsel]
        simp only
        rw [if_pos htr]
      refine ⟨d, -1, hcall, rfl, rfl, rfl, h2, Or.inr ⟨rfl, ?_⟩⟩
      unfold drain_budget
      rw [if_neg (by simp [htr])]
    · have hpos : d.samples_left > 0 := by omega
      have hsome := h2 hpos
      cases hts : d.task_sampler with
      | none => simp [hts] at hsome
      | some q =>
        obtain ⟨sampler, calls⟩ := q
        cases hnw : sampler.next_work calls with
        | none =>
          have hcall : NextWork tasks d =
              some ({ d with task_sampler := some (sampler, calls + 1)
                             task_result := false }, -1) := by
            unfold NextWork
            rw [hsel]
            simp only
            rw [if_neg htr, if_pos hpos, hts]
            simp only
            rw [hnw]
          refine ⟨_, _, hcall, rfl, rfl, by simp, fun _ => rfl, Or.inr ⟨rfl, ?_⟩⟩
          unfold drain_budget
          simp
        | some item_id =>
          have hcall : NextWork tasks d =
              some ({ d with task_sampler := some (sampler, calls + 1)
                             task_result := true
                             samples_left := d.samples_left - 1
                             total_samples_used := d.total_samples_used + 1 }, item_id) := by
            unfold NextWork
            rw [hsel]
            simp only
            rw [if_neg htr, if_pos hpos, hts]
            simp only
            rw [hnw]
          refine ⟨_, _, hcall, rfl, rfl, by simp, fun _ => rfl, Or.inl ?_⟩
          have htrue : d.task_result = true := by
            cases h : d.task_result with
            | true => rfl
            | false => exact absurd h htr
          unfold drain_budget
          rw [if_pos htrue]
          dsimp only
          rw [if_pos rfl]
          omega

/-- Any number of `NextWork` calls of a master with `next_task_ = num_tasks_` return; the
replies are at most `drain_budget` units followed by sentinels only, and no task is
started. -/
theorem NextWork_calls_drain (tasks : List TaskSampler) :
    ∀ (n : Nat) (d : MasterState), d.next_task = d.num_tasks →
      (0 < d.samples_left → d.task_sampler.isSome = true) →
      ∃ d2 units, NextWork_calls tasks n d =
          some (d2, units ++ List.replicate (n - units.length) (-1)) ∧
        units.length ≤ drain_budget d ∧ units.length ≤ n ∧
        d2.next_task = d.next_task ∧ d2.num_tasks = d.num_tasks ∧
        d2.task_sampler.map Prod.fst = d.task_sampler.map Prod.fst
  | 0, d, _, _ => ⟨d, [], rfl, Nat.zero_le _, Nat.le_refl _, rfl, rfl, rfl⟩
  | n + 1, d, h1, h2 => by
    obtain ⟨d1, item, hcall, hnt, hnum, hts, hsome, hbudget⟩ :=
      NextWork_drain_step tasks d h1 h2
    obtain ⟨d2, units, hcalls, hlen, hlen2, hnt2, hnum2, hts2⟩ :=
      NextWork_calls_drain tasks n d1 (by rw [hnt, hnum]; exact h1) hsome
    rcases hbudget with hb | ⟨hitem, hb⟩
    · refine ⟨d2, item :: units, ?_, ?_, ?_, hnt2.trans hnt, hnum2.trans hnum,
        hts2.trans hts⟩
      · unfold NextWork_calls
        rw [hcall]
        simp only
        rw [hcalls]
        simp
      · rw [List.length_cons]
        omega
      · rw [List.length_cons]
        omega
    · have hnil : units = [] := List.length_eq_zero.1 (by omega)
      subst hnil
      refine ⟨d2, [], ?_, Nat.zero_le _, Nat.zero_le _, hnt2.trans hnt, hnum2.trans hnum,
        hts2.trans hts⟩
      unfold NextWork_calls
      rw [hcall]
      simp only
      rw [hcalls, hitem]
      simp [List.replicate_succ]

theorem drain_budget_le (s : MasterState) : drain_budget s ≤ s.samples_left.toNat := by
  unfold drain_budget
  split
  · exact Nat.le_refl _
  · exact Nat.zero_le _

/-- The drain when the replies arrive while no `NextWork` call is running: when some worker
replies non-success, the reply loop of `NewJob` marks the job failed and sets
`next_task_ = num_tasks_`, changing nothing else of the members; from that state, with the
calls taken one after the other, every sequence of `n` further `NextWork` calls returns; the
replies are some units, at most `samples_left` (the value at that moment) of them, followed
by sentinels `-1` only; and no further task is started: `next_task_` stays `num_tasks_` and
the sampler in use stays the same. -/
theorem NextWork_fast_drain (tasks : List TaskSampler) (replies : List Result)
    (s : MasterState) (job_result : Result) (n : Nat)
    (hfail : ∃ reply ∈ replies, reply.success = false)
    (hsampler : 0 < s.samples_left → s.task_sampler.isSome = true) :
    (NewJob_collect_replies replies (s, job_result)).2.success = false ∧
      (NewJob_collect_replies replies (s, job_result)).1 =
        { s with next_task := s.num_tasks } ∧
      ∃ s2 units,
        NextWork_calls tasks n (NewJob_collect_replies replies (s, job_result)).1 =
          some (s2, units ++ List.replicate (n - units.length) (-1)) ∧
        units.length ≤ s.samples_left.toNat ∧ units.length ≤ n ∧
        s2.next_task = s.num_tasks ∧
        s2.task_sampler.map Prod.fst = s.task_sampler.map Prod.fst := by
  obtain ⟨hstate, hres⟩ := NewJob_collect_replies_failure replies (s, job_result) hfail
  refine ⟨hres, hstate, ?_⟩
  rw [hstate]
  obtain ⟨s2, units, hcalls, hlen, hlen2, hnt, _, hts⟩ :=
    NextWork_calls_drain tasks n { s with next_task := s.num_tasks } rfl hsampler
  exact ⟨s2, units, hcalls, Nat.le_trans hlen (drain_budget_le _), hlen2, hnt, hts⟩

/-- The drain between calls on a job of two tasks of three units each, one unit handed out:
the second of two workers replies non-success; of five further calls two return units of the
first task and three the sentinel, and the second task is never started. -/
theorem NextWork_fast_drain_witness :
    (∃ reply ∈ [(⟨true, ""⟩ : Result), ⟨false, "worker down"⟩], reply.success = false) ∧
      (0 < first_unit_state.samples_left → first_unit_state.task_sampler.isSome = true) ∧
      NextWork_calls [three_unit_sampler, three_unit_sampler] 5
          (NewJob_collect_replies [⟨true, ""⟩, ⟨false, "worker down"⟩]
            (first_unit_state, ⟨true, ""⟩)).1 =
        some ({ first_unit_state with
                next_task := 2, samples_left := 0, total_samples_used := 3
                task_sampler := some (three_unit_sampler, 3) }, [1, 2, -1, -1, -1]) ∧
      ((NewJob_collect_replies [⟨true, ""⟩, ⟨false, "worker down"⟩]
            (first_unit_state, ⟨true, ""⟩)).2.success = false ∧
        (NewJob_collect_replies [⟨true, ""⟩, ⟨false, "worker down"⟩]
            (first_unit_state, ⟨true, ""⟩)).1 =
          { first_unit_state with next_task := first_unit_state.num_tasks } ∧
        ∃ s2 units,
          NextWork_calls [three_unit_sampler, three_unit_sampler] 5
              (NewJob_collect_replies [⟨true, ""⟩, ⟨false, "worker down"⟩]
                (first_unit_state, ⟨true, ""⟩)).1 =
            some (s2, units ++ List.replicate (5 - units.length) (-1)) ∧
          units.length ≤ first_unit_state.samples_left.toNat ∧ units.length ≤ 5 ∧
          s2.next_task = first_unit_state.num_tasks ∧
          s2.task_sampler.map Prod.fst = first_unit_state.task_sampler.map Prod.fst) :=
  ⟨⟨⟨false, "worker down"⟩, by simp, rfl⟩, fun _ => rfl, rfl,
    NextWork_fast_drain [three_unit_sampler, three_unit_sampler]
      [⟨true, ""⟩, ⟨false, "worker down"⟩] first_unit_state ⟨true, ""⟩ 5
      ⟨⟨false, "worker down"⟩, by simp, rfl⟩ (fun _ => rfl)⟩

/-! ## The dependency rules of `validate_task_set` -/

theorem check_columns_missing (op_name : String) (op_idx : Int) (input_op_name : String)
    (input_op_index : Int) (inputs : List String) (col : String) (hcol : col ∉ inputs) :
    ∀ (cols : List String) (result : Result), col ∈ cols →
      (cols.foldl (check_column op_name op_idx input_op_name input_op_index inputs)
        result).success = false
  | [], _, h => by simp at h
  | c :: rest, result, h => by
    rw [List.foldl_cons]
    rcases List.mem_cons.1 h with rfl | h
    · apply check_columns_false
      have hany : inputs.any (fun out_col => col == out_col) = false := by
        rw [Bool.eq_false_iff]
        intro hc
        rw [List.any_eq_true] at hc
        obtain ⟨x, hx, hxe⟩ := hc
        have hxc : col = x := by simpa using hxe
        subst hxc
        exact hcol hx
      unfold check_column
      rw [hany]
      rfl
    · exact check_columns_missing op_name op_idx input_op_name input_op_index inputs col hcol
        rest _ h

/-- An input with an index in range of `op_names` and `op_outputs` is checked without an
exception, and the check fails for an index `>= op_idx` and for a missing column. -/
theorem check_input_spec (op_names : List String) (op_outputs : List (List String))
    (op_name : String) (op_idx : Int) (result : Result) (input : OpInput)
    (hge : 0 ≤ input.op_index)
    (hlen : ∀ j : Nat, (j : Int) < op_idx → j < op_names.length ∧ j < op_outputs.length) :
    (check_input op_names op_outputs op_name op_idx result input).2 = false ∧
      (result.success = false ∨ op_idx ≤ input.op_index ∨
          (∃ col ∈ input.columns, ∀ o, op_outputs[input.op_index.toNat]? = some o → col ∉ o) →
        (check_input op_names op_outputs op_name op_idx result input).1.success = false) := by
  unfold check_input
  by_cases h : input.op_index ≥ op_idx
  · rw [if_pos h]
    exact ⟨rfl, fun _ => rfl⟩
  · rw [if_neg h]
    obtain ⟨h1, h2⟩ := hlen input.op_index.toNat (by omega)
    have hn : vector_at op_names input.op_index = some (op_names[input.op_index.toNat]) := by
      unfold vector_at
      rw [if_pos hge, List.getElem?_eq_getElem h1]
    have ho : vector_at op_outputs input.op_index =
        some (op_outputs[input.op_index.toNat]) := by
      unfold vector_at
      rw [if_pos hge, List.getElem?_eq_getElem h2]
    rw [hn, ho]
    refine ⟨rfl, ?_⟩
    rintro (hr | hi | ⟨col, hcol, hmiss⟩)
    · exact check_columns_false _ _ _ _ _ _ _ hr
    · exact absurd hi h
    · exact check_columns_missing _ _ _ _ _ col
        (hmiss _ (List.getElem?_eq_getElem h2)) _ _ hcol

theorem check_inputs_spec (op_names : List String) (op_outputs : List (List String))
    (op_name : String) (op_idx : Int)
    (hlen : ∀ j : Nat, (j : Int) < op_idx → j < op_names.length ∧ j < op_outputs.length) :
    ∀ (inputs : List OpInput) (result : Result),
      (∀ input ∈ inputs, 0 ≤ input.op_index) →
      (check_inputs op_names op_outputs op_name op_idx result inputs).2 = false ∧
        (result.success = false ∨
            (∃ input ∈ inputs, op_idx ≤ input.op_index ∨
              ∃ col ∈ input.columns,
                ∀ o, op_outputs[input.op_index.toNat]? = some o → col ∉ o) →
          (check_inputs op_names op_outputs op_name op_idx result inputs).1.success = false)
  | [], result, _ => by
    refine ⟨rfl, ?_⟩
    rintro (hr | ⟨input, hin, _⟩)
    · exact hr
    · simp at hin
  | input :: rest, result, hge => by
    obtain ⟨h1, h2⟩ := check_input_spec op_names op_outputs op_name op_idx result input
      (hge input (List.mem_cons_self _ _)) hlen
    obtain ⟨h3, h4⟩ := check_inputs_spec op_names op_outputs op_name op_idx hlen rest
      (check_input op_names op_outputs op_name op_idx result input).1
      (fun x hx => hge x (List.mem_cons_of_mem _ hx))
    have hstep : check_inputs op_names op_outputs op_name op_idx result (input :: rest) =
        check_inputs op_names op_outputs op_name op_idx
          (check_input op_names op_outputs op_name op_idx result input).1 rest := by
      rw [check_inputs]
      cases hc : check_input op_names op_outputs op_name op_idx result input with
      | mk r thrown =>
        rw [hc] at h1
        simp only at h1
        subst h1
        rfl
    rw [hstep]
    refine ⟨h3, ?_⟩
    rintro (hr | ⟨x, hx, hbad⟩)
    · exact h4 (Or.inl (h2 (Or.inl hr)))
    · rcases List.mem_cons.1 hx with rfl | hx
      · exact h4 (Or.inl (h2 (Or.inr hbad)))
      · exact h4 (Or.inr ⟨x, hx, hbad⟩)

/-- The body of the op loop for an op that is not the first: the op is named, its outputs
are recorded unless it is `OutputTable`, and its inputs are checked. -/
theorem validate_op_later (op_registry : OpRegistry) (kernel_registry : KernelRegistry)
    (st : OpLoopState) (op : Op) (h0 : st.op_idx ≠ 0) :
    ∃ st1 : OpLoopState, st1.op_idx = st.op_idx ∧ st1.op_names = st.op_names ++ [op.name] ∧
      st1.op_outputs = (if op.name ≠ "OutputTable"
        then st.op_outputs ++ [(op_registry op.name).getD []] else st.op_outputs) ∧
      (st.result.success = false → st1.result.success = false) ∧
      (op.name ≠ "OutputTable" →
        op_registry op.name = none ∨ kernel_registry op.name op.device_type = false →
        st1.result.success = false) ∧
      validate_op op_registry kernel_registry st op =
        match check_inputs st1.op_names st1.op_outputs op.name st1.op_idx st1.result
            op.inputs with
        | (r, true) => ({ st1 with result := r }, LoopExit.thrown)
        | (r, false) => ({ st1 with result := r, op_idx := st1.op_idx + 1 }, LoopExit.next) := by
  unfold validate_op
  dsimp only
  rw [if_neg h0]
  by_cases hname : op.name ≠ "OutputTable"
  · simp only [if_pos hname]
    refine ⟨{ op_idx := st.op_idx
              op_names := st.op_names ++ [op.name]
              op_outputs := st.op_outputs ++
                [match op_registry op.name with
                 | none => []
                 | some output_columns => output_columns]
              result :=
                if !kernel_registry op.name op.device_type then
                  RESULT_ERROR
                    (match op_registry op.name with
                     | none => RESULT_ERROR st.result ("Op " ++ op.name ++ " is not registered.")
                     | some _ => st.result)
                    ("Op " ++ op.name ++ " at index " ++ toString st.op_idx ++
                      " requested kernel with device type " ++
                      (if op.device_type = DeviceType.CPU then "CPU" else "GPU") ++
                      " but no such kernel exists.")
                else
                  match op_registry op.name with
                  | none => RESULT_ERROR st.result ("Op " ++ op.name ++ " is not registered.")
                  | some _ => st.result }, rfl, rfl, ?_, ?_, ?_, rfl⟩
    · dsimp only
      cases op_registry op.name <;> rfl
    · intro h
      dsimp only
      split
      · rfl
      · split
        · rfl
        · exact h
    · intro _ hun
      dsimp only
      rcases hun with h | h
      · split
        · rfl
        · rw [h]
          rfl
      · rw [h]
        rfl
  · simp only [if_neg hname]
    exact ⟨{ st with op_names := st.op_names ++ [op.name] }, rfl, rfl, rfl, fun h => h,
      fun h => absurd h hname, rfl⟩

theorem dependency_violation_iff (op_registry : OpRegistry) (ops : List Op) (i : Nat)
    (input : OpInput) :
    dependency_violation op_registry ops i input = true ↔
      ((i : Int) ≤ input.op_index ∨
        ∃ col ∈ input.columns,
          col ∉ declared_outputs op_registry ops input.op_index.toNat) := by
  unfold dependency_violation
  simp [List.any_eq_true]

/-- The op loop from the second op on, for an op list in which only the last op may be
`OutputTable` and no later op has an input with a negative index: `op_outputs` holds the
declared outputs of the ops run over, no `at` throws, and every dependency violation of the
remaining ops fails the result. -/
theorem validate_ops_loop_dependencies (op_registry : OpRegistry)
    (kernel_registry : KernelRegistry) (ops : List Op)
    (hout : ∀ i op, ops[i]? = some op → i + 1 < ops.length → op.name ≠ "OutputTable")
    (hidx : ∀ i op input, ops[i]? = some op → 0 < i → input ∈ op.inputs →
      0 ≤ input.op_index) :
    ∀ (rest pre : List Op) (st : OpLoopState), ops = pre ++ rest → pre ≠ [] →
      st.op_idx = pre.length → st.op_names.length = pre.length →
      st.op_outputs.length = pre.length →
      (∀ j, j < pre.length → st.op_outputs[j]? = some (declared_outputs op_registry ops j)) →
      (validate_ops_loop op_registry kernel_registry st rest).2 = false ∧
        (st.result.success = false ∨
            (∃ k op input, rest[k]? = some op ∧ input ∈ op.inputs ∧
              dependency_violation op_registry ops (pre.length + k) input = true) →
          (validate_ops_loop op_registry kernel_registry st rest).1.result.success = false)
  | [], pre, st, _, _, _, _, _, _ => by
    refine ⟨rfl, ?_⟩
    rintro (hr | ⟨k, op, input, hk, _⟩)
    · exact hr
    · simp at hk
  | op :: rest, pre, st, hops, hpre, hi, hn, ho, hdecl => by
    have hpos : 0 < pre.length := List.length_pos.2 hpre
    have hop : ops[pre.length]? = some op := by
      rw [hops, List.getElem?_append_right (Nat.le_refl _)]
      simp
    have h0 : st.op_idx ≠ 0 := by omega
    obtain ⟨st1, hidx1, hnames1, houts1, hfalse1, _, hval⟩ :=
      validate_op_later op_registry kernel_registry st op h0
    have hlen1 : ∀ j : Nat, (j : Int) < st1.op_idx →
        j < st1.op_names.length ∧ j < st1.op_outputs.length := by
      intro j hj
      rw [hidx1, hi] at hj
      have hj2 : j < pre.length := by omega
      rw [hnames1, houts1]
      constructor
      · rw [List.length_append, hn]
        omega
      · split
        · rw [List.length_append, ho]
          omega
        · rw [ho]
          exact hj2
    have hkeep : ∀ j, j < pre.length →
        st1.op_outputs[j]? = some (declared_outputs op_registry ops j) := by
      intro j hj
      rw [houts1]
      split
      · rw [List.getElem?_append_left (by rw [ho]; exact hj)]
        exact hdecl j hj
      · exact hdecl j hj
    obtain ⟨hc1, hc2⟩ := check_inputs_spec st1.op_names st1.op_outputs op.name st1.op_idx
      hlen1 op.inputs st1.result (fun input hin => hidx pre.length op input hop hpos hin)
    have hviol : ∀ input ∈ op.inputs,
        dependency_violation op_registry ops (pre.length + 0) input = true →
        (check_inputs st1.op_names st1.op_outputs op.name st1.op_idx st1.result
          op.inputs).1.success = false := by
      intro input hin hv
      rw [dependency_violation_iff] at hv
      apply hc2
      refine Or.inr ⟨input, hin, ?_⟩
      by_cases hlt : st1.op_idx ≤ input.op_index
      · exact Or.inl hlt
      · rcases hv with hv | ⟨col, hcol, hmiss⟩
        · rw [hidx1, hi] at hlt
          simp only [Nat.add_zero] at hv
          exact absurd hv hlt
        · refine Or.inr ⟨col, hcol, ?_⟩
          intro o hoeq
          have hge := hidx pre.length op input hop hpos hin
          rw [hidx1, hi] at hlt
          rw [hkeep input.op_index.toNat (by omega)] at hoeq
          cases hoeq
          exact hmiss
    have hstep : validate_op op_registry kernel_registry st op =
        ({ st1 with
           result := (check_inputs st1.op_names st1.op_outputs op.name st1.op_idx st1.result
             op.inputs).1
           op_idx := st1.op_idx + 1 }, LoopExit.next) := by
      rw [hval]
      cases hc : check_inputs st1.op_names st1.op_outputs op.name st1.op_idx st1.result
          op.inputs with
      | mk r thrown =>
        rw [hc] at hc1
        simp only at hc1
        subst hc1
        rfl
    have hloop : validate_ops_loop op_registry kernel_registry st (op :: rest) =
        validate_ops_loop op_registry kernel_registry
          { st1 with
            result := (check_inputs st1.op_names st1.op_outputs op.name st1.op_idx
              st1.result op.inputs).1
            op_idx := st1.op_idx + 1 } rest := by
      rw [validate_ops_loop, hstep]
    rw [hloop]
    by_cases hlast : rest = []
    · subst hlast
      refine ⟨rfl, ?_⟩
      rintro (hr | ⟨k, op2, input, hk, hin, hv⟩)
      · exact hc2 (Or.inl (hfalse1 hr))
      · cases k with
        | zero =>
          have hop2 : op = op2 := by simpa using hk
          subst hop2
          exact hviol input hin hv
        | succ k => simp at hk
    · have hname : op.name ≠ "OutputTable" := by
        apply hout pre.length op hop
        rw [hops, List.length_append, List.length_cons]
        have := List.length_pos.2 hlast
        omega
      have houts2 : st1.op_outputs = st.op_outputs ++ [(op_registry op.name).getD []] := by
        rw [houts1, if_pos hname]
      obtain ⟨h1, h2⟩ := validate_ops_loop_dependencies op_registry kernel_registry ops
        hout hidx rest (pre ++ [op])
        { st1 with
          result := (check_inputs st1.op_names st1.op_outputs op.name st1.op_idx
            st1.result op.inputs).1
          op_idx := st1.op_idx + 1 }
        (by rw [hops]; simp) (by simp)
        (by
          dsimp only
          rw [hidx1, hi, List.length_append]
          simp)
        (by
          dsimp only
          rw [hnames1, List.length_append, List.length_append, hn]
          rfl)
        (by
          dsimp only
          rw [houts2, List.length_append, List.length_append, ho]
          rfl)
        (by
          intro j hj
          dsimp only
          rw [List.length_append, List.length_singleton] at hj
          by_cases hjp : j < pre.length
          · exact hkeep j hjp
          · have hje : j = pre.length := by omega
            subst hje
            rw [houts2, List.getElem?_append_right (by rw [ho]), ho, Nat.sub_self]
            unfold declared_outputs
            rw [hop]
            simp only [List.getElem?_cons_zero]
            rw [if_neg (by omega)])
      refine ⟨h1, ?_⟩
      rintro (hr | ⟨k, op2, input, hk, hin, hv⟩)
      · exact h2 (Or.inl (hc2 (Or.inl (hfalse1 hr))))
      · cases k with
        | zero =>
          have hop2 : op = op2 := by simpa using hk
          subst hop2
          exact h2 (Or.inl (hviol input hin hv))
        | succ k =>
          refine h2 (Or.inr ⟨k, op2, input, by simpa using hk, hin, ?_⟩)
          rw [List.length_append, List.length_singleton]
          rw [show pre.length + 1 + k = pre.length + (k + 1) by omega]
          exact hv

/-- The whole op loop under the conditions of `validate_ops_loop_dependencies`: it ends
without an exception, and a dependency violation of an op after the first fails the
result. -/
theorem validate_ops_loop_init_dependencies (op_registry : OpRegistry)
    (kernel_registry : KernelRegistry) (ops : List Op) (r1 : Result)
    (hout : ∀ i op, ops[i]? = some op → i + 1 < ops.length → op.name ≠ "OutputTable")
    (hidx : ∀ i op input, ops[i]? = some op → 0 < i → input ∈ op.inputs →
      0 ≤ input.op_index)
    (hbad : ∃ i op input, ops[i]? = some op ∧ 0 < i ∧ input ∈ op.inputs ∧
      dependency_violation op_registry ops i input = true) :
    (validate_ops_loop op_registry kernel_registry
        { op_idx := 0, op_names := [], op_outputs := [], result := r1 } ops).2 = false ∧
      (validate_ops_loop op_registry kernel_registry
        { op_idx := 0, op_names := [], op_outputs := [], result := r1 } ops).1.result.success =
          false := by
  cases hops : ops with
  | nil =>
    obtain ⟨i, op, input, hi, _⟩ := hbad
    rw [hops] at hi
    simp at hi
  | cons op0 rest =>
    by_cases hname : op0.name ≠ "InputTable"
    · have hstep : validate_op op_registry kernel_registry
          { op_idx := 0, op_names := [], op_outputs := [], result := r1 } op0 =
          ({ op_idx := 0, op_names := [] ++ [op0.name], op_outputs := []
             result := RESULT_ERROR r1
               ("First Op is " ++ op0.name ++ " but must be Op InputTable") },
            LoopExit.brk) := by
        unfold validate_op
        dsimp only
        rw [if_pos rfl, if_pos hname]
      rw [validate_ops_loop, hstep]
      exact ⟨rfl, rfl⟩
    · have hstep : validate_op op_registry kernel_registry
          { op_idx := 0, op_names := [], op_outputs := [], result := r1 } op0 =
          ({ op_idx := 0 + 1, op_names := [] ++ [op0.name]
             op_outputs := [] ++ [(op0.inputs.map fun input => input.columns).flatten]
             result := r1 }, LoopExit.next) := by
        unfold validate_op
        dsimp only
        rw [if_pos rfl, if_neg hname]
      rw [validate_ops_loop, hstep]
      obtain ⟨h1, h2⟩ := validate_ops_loop_dependencies op_registry kernel_registry ops
        hout hidx rest [op0]
        { op_idx := 0 + 1, op_names := [] ++ [op0.name]
          op_outputs := [] ++ [(op0.inputs.map fun input => input.columns).flatten]
          result := r1 }
        (by rw [hops]; rfl) (by simp) rfl rfl rfl
        (by
          intro j hj
          have hj0 : j = 0 := by
            rw [List.length_singleton] at hj
            omega
          subst hj0
          unfold declared_outputs
          rw [hops]
          simp)
      dsimp only
      refine ⟨h1, h2 (Or.inr ?_)⟩
      obtain ⟨i, op, input, hi, hpos, hin, hv⟩ := hbad
      rw [hops] at hi
      obtain ⟨k, rfl⟩ : ∃ k, i = k + 1 := ⟨i - 1, by omega⟩
      refine ⟨k, op, input, by simpa using hi, hin, ?_⟩
      rw [List.length_singleton, Nat.add_comm 1 k]
      exact hv

/-- C12, amended (dependency validation): for every task set in which no op but the last is
named `OutputTable` and no input of an op after the first has a negative `op_index`, if an
input of an op after the first references an op at an index `>=` the index of the op that
declares it, or names a column that is not among the declared outputs of the referenced op
(for the first op the columns its inputs list, for a later op its registered output
columns), then `validate_task_set` returns and leaves the `Result` with `success = false`.
The inputs of the first op are not examined. -/
theorem validate_task_set_dependency_rules (op_registry : OpRegistry)
    (kernel_registry : KernelRegistry) (meta : DatabaseMetadata) (task_set : TaskSet)
    (result : Result)
    (hout : ∀ i op, task_set.ops[i]? = some op → i + 1 < task_set.ops.length →
      op.name ≠ "OutputTable")
    (hidx : ∀ i op input, task_set.ops[i]? = some op → 0 < i → input ∈ op.inputs →
      0 ≤ input.op_index)
    (hbad : ∃ i op input, task_set.ops[i]? = some op ∧ 0 < i ∧ input ∈ op.inputs ∧
      dependency_violation op_registry task_set.ops i input = true) :
    (validate_task_set op_registry kernel_registry meta task_set result).2 = false ∧
      (validate_task_set op_registry kernel_registry meta task_set result).1.success =
        false := by
  obtain ⟨h1, h2⟩ := validate_ops_loop_init_dependencies op_registry kernel_registry
    task_set.ops (task_set.tasks.foldl (validate_task meta) ([], result)).2 hout hidx hbad
  unfold validate_task_set
  dsimp only
  cases hl : validate_ops_loop op_registry kernel_registry
      { op_idx := 0, op_names := [], op_outputs := []
        result := (task_set.tasks.foldl (validate_task meta) ([], result)).2 }
      task_set.ops with
  | mk st thrown =>
    rw [hl] at h1 h2
    simp only at h1 h2
    subst h1
    exact ⟨rfl, validate_op_names_false _ _ h2⟩

theorem missing_column_ops_output_last :
    ∀ i op, missing_column_task_set.ops[i]? = some op →
      i + 1 < missing_column_task_set.ops.length → op.name ≠ "OutputTable" := by
  intro i op h hlt
  have hi : i = 0 ∨ i = 1 := by
    have : missing_column_task_set.ops.length = 3 := rfl
    omega
  rcases hi with rfl | rfl
  · have hop : op = ⟨"InputTable", [⟨-1, ["frame"]⟩], DeviceType.CPU⟩ :=
      (Option.some.inj h).symm
    subst hop
    decide
  · have hop : op = ⟨"Blur", [⟨0, ["nope"]⟩], DeviceType.CPU⟩ := (Option.some.inj h).symm
    subst hop
    decide

theorem missing_column_ops_indices :
    ∀ i op input, missing_column_task_set.ops[i]? = some op → 0 < i → input ∈ op.inputs →
      0 ≤ input.op_index := by
  intro i op input h hpos hin
  have hlt : i < missing_column_task_set.ops.length := by
    rcases Nat.lt_or_ge i missing_column_task_set.ops.length with hlt | hge
    · exact hlt
    · rw [List.getElem?_eq_none hge] at h
      cases h
  have hi : i = 1 ∨ i = 2 := by
    have : missing_column_task_set.ops.length = 3 := rfl
    omega
  rcases hi with rfl | rfl
  · have hop : op = ⟨"Blur", [⟨0, ["nope"]⟩], DeviceType.CPU⟩ := (Option.some.inj h).symm
    subst hop
    have hinput : input = ⟨0, ["nope"]⟩ := by simpa using hin
    subst hinput
    decide
  · have hop : op = ⟨"OutputTable", [⟨1, ["frame"]⟩], DeviceType.CPU⟩ :=
      (Option.some.inj h).symm
    subst hop
    have hinput : input = ⟨1, ["frame"]⟩ := by simpa using hin
    subst hinput
    decide

/-- Instance of amended C12: the op `Blur` at index 1 requests the column `nope` of the
input table, which lists `frame` only. -/
theorem validate_task_set_dependency_rules_witness :
    (∃ i op input, missing_column_task_set.ops[i]? = some op ∧ 0 < i ∧ input ∈ op.inputs ∧
        dependency_violation blur_registry missing_column_task_set.ops i input = true) ∧
      validate_task_set blur_registry all_kernels ⟨["video"], []⟩ missing_column_task_set
          ⟨true, ""⟩ =
        (⟨false, "Op Blur at index 1 requested column nope from input Op InputTable at " ++
          "index 0 but that Op does not have the requsted column."⟩, false) ∧
      (validate_task_set blur_registry all_kernels ⟨["video"], []⟩ missing_column_task_set
          ⟨true, ""⟩).2 = false ∧
      (validate_task_set blur_registry all_kernels ⟨["video"], []⟩ missing_column_task_set
          ⟨true, ""⟩).1.success = false :=
  ⟨⟨1, ⟨"Blur", [⟨0, ["nope"]⟩], DeviceType.CPU⟩, ⟨0, ["nope"]⟩, rfl, Nat.zero_lt_one,
      List.mem_singleton.2 rfl, by decide⟩,
    by decide,
    validate_task_set_dependency_rules blur_registry all_kernels ⟨["video"], []⟩
      missing_column_task_set ⟨true, ""⟩ missing_column_ops_output_last
      missing_column_ops_indices
      ⟨1, ⟨"Blur", [⟨0, ["nope"]⟩], DeviceType.CPU⟩, ⟨0, ["nope"]⟩, rfl, Nat.zero_lt_one,
        List.mem_singleton.2 rfl, by decide⟩⟩

/-! ## What a rejected job leaves behind when validation is reached -/

/-- When the op list ends with `OutputTable` and `validate_task_set` returns with
`success = false`, `NewJob` returns that result: the database metadata is as it was read,
nothing was written to storage, no RPC was issued and the members are untouched. -/
theorem NewJob_validation_failure_frame (op_registry : OpRegistry)
    (kernel_registry : KernelRegistry) (stored_meta : DatabaseMetadata)
    (end_row_sampler : Nat → EndRowSampler) (addresses : List String) (total_samples : Int)
    (s : MasterState) (job_result : Result) (job_params : JobParameters) (last_op : Op)
    (r : Result) (hlast : job_params.task_set.ops.getLast? = some last_op)
    (hname : last_op.name = "OutputTable")
    (hval : validate_task_set op_registry kernel_registry stored_meta job_params.task_set
      { job_result with success := true } = (r, false))
    (hr : r.success = false) :
    NewJob op_registry kernel_registry stored_meta end_row_sampler addresses total_samples s
        job_result job_params =
      NewJobOutcome.returned
        { job_result := r, meta := stored_meta, writes := [], rpcs := []
          total_samples := total_samples, state := s } := by
  unfold NewJob
  rw [hlast]
  dsimp only
  rw [if_neg (by simp [hname]), hval]
  dsimp only
  rw [if_pos hr]

/-! ## The shape rules of `validate_task_set` when the call returns -/

/-- One iteration of the op loop: when it goes on, the name of the op is recorded, the op is
counted, and an op after the first that is not registered or has no kernel has failed the
result; when it leaves through `break`, the result has failed. -/
theorem validate_op_shape (op_registry : OpRegistry) (kernel_registry : KernelRegistry)
    (st : OpLoopState) (op : Op) (hidx : 0 ≤ st.op_idx) :
    (∀ st1, validate_op op_registry kernel_registry st op = (st1, LoopExit.next) →
      st1.op_names = st.op_names ++ [op.name] ∧ 0 < st1.op_idx ∧
      (st.op_idx = 0 → op.name = "InputTable") ∧
      (st.op_idx ≠ 0 → op.name ≠ "OutputTable" →
        op_registry op.name = none ∨ kernel_registry op.name op.device_type = false →
        st1.result.success = false)) ∧
      (∀ st1, validate_op op_registry kernel_registry st op = (st1, LoopExit.brk) →
        st1.result.success = false) := by
  by_cases h0 : st.op_idx = 0
  · by_cases hname : op.name ≠ "InputTable"
    · have hstep : validate_op op_registry kernel_registry st op =
          ({ st with op_names := st.op_names ++ [op.name]
                     result := RESULT_ERROR st.result
                       ("First Op is " ++ op.name ++ " but must be Op InputTable") },
            LoopExit.brk) := by
        unfold validate_op
        dsimp only
        rw [if_pos h0, if_pos hname]
      rw [hstep]
      constructor
      · intro st1 h
        cases h
      · intro st1 h
        cases h
        rfl
    · have hstep : validate_op op_registry kernel_registry st op =
          ({ op_idx := st.op_idx + 1, op_names := st.op_names ++ [op.name]
             op_outputs := st.op_outputs ++ [(op.inputs.map fun input => input.columns).flatten]
             result := st.result }, LoopExit.next) := by
        unfold validate_op
        dsimp only
        rw [if_pos h0, if_neg hname]
      rw [hstep]
      constructor
      · intro st1 h
        cases h
        refine ⟨rfl, ?_, fun _ => not_not.1 hname, fun h => absurd h0 h⟩
        dsimp only
        omega
      · intro st1 h
        cases h
  · obtain ⟨st1, hidx1, hnames1, _, _, hun1, hval⟩ :=
      validate_op_later op_registry kernel_registry st op h0
    rw [hval]
    cases hc : check_inputs st1.op_names st1.op_outputs op.name st1.op_idx st1.result
        op.inputs with
    | mk r thrown =>
      have hr := check_inputs_false st1.op_names st1.op_outputs op.name st1.op_idx op.inputs
        st1.result
      rw [hc] at hr
      cases thrown with
      | true =>
        constructor
        · intro st2 h
          cases h
        · intro st2 h
          cases h
      | false =>
        constructor
        · intro st2 h
          cases h
          refine ⟨hnames1, ?_, fun h => absurd h h0, fun _ hname hun => hr (hun1 hname hun)⟩
          dsimp only
          omega
        · intro st2 h
          cases h

/-- When the op loop ends without an exception, either the result has failed or `op_names`
has received the names of all ops run over. -/
theorem validate_ops_loop_names (op_registry : OpRegistry) (kernel_registry : KernelRegistry) :
    ∀ (ops : List Op) (st : OpLoopState), 0 ≤ st.op_idx →
      (validate_ops_loop op_registry kernel_registry st ops).2 = false →
      (validate_ops_loop op_registry kernel_registry st ops).1.result.success = false ∨
        (validate_ops_loop op_registry kernel_registry st ops).1.op_names =
          st.op_names ++ ops.map fun op => op.name
  | [], st, _, _ => Or.inr (by simp [validate_ops_loop])
  | op :: rest, st, hidx, hret => by
    obtain ⟨hnext, hbrk⟩ := validate_op_shape op_registry kernel_registry st op hidx
    rw [validate_ops_loop] at hret ⊢
    cases hv : validate_op op_registry kernel_registry st op with
    | mk st1 exit =>
      rw [hv] at hret
      cases exit with
      | next =>
        dsimp only at hret ⊢
        obtain ⟨hn, hpos, _, _⟩ := hnext st1 hv
        rcases validate_ops_loop_names op_registry kernel_registry rest st1 (by omega) hret
          with h | h
        · exact Or.inl h
        · refine Or.inr ?_
          dsimp only
          rw [h, hn]
          simp
      | brk => exact Or.inl (hbrk st1 hv)
      | thrown => simp at hret

/-- When the op loop ends without an exception, an op other than the sentinels that is not
registered or has no kernel for its device type has failed the result. -/
theorem validate_ops_loop_unregistered (op_registry : OpRegistry)
    (kernel_registry : KernelRegistry) :
    ∀ (ops : List Op) (st : OpLoopState), 0 ≤ st.op_idx →
      (validate_ops_loop op_registry kernel_registry st ops).2 = false →
      (∃ op ∈ ops, op.name ≠ "InputTable" ∧ op.name ≠ "OutputTable" ∧
        (op_registry op.name = none ∨ kernel_registry op.name op.device_type = false)) →
      (validate_ops_loop op_registry kernel_registry st ops).1.result.success = false
  | [], _, _, _, h => by
    obtain ⟨op, hop, _⟩ := h
    simp at hop
  | op :: rest, st, hidx, hret, hbad => by
    obtain ⟨hnext, hbrk⟩ := validate_op_shape op_registry kernel_registry st op hidx
    rw [validate_ops_loop] at hret ⊢
    cases hv : validate_op op_registry kernel_registry st op with
    | mk st1 exit =>
      rw [hv] at hret
      cases exit with
      | next =>
        dsimp only at hret ⊢
        obtain ⟨_, hpos, hfirst, hun⟩ := hnext st1 hv
        obtain ⟨x, hx, hx1, hx2, hx3⟩ := hbad
        rcases List.mem_cons.1 hx with rfl | hx
        · by_cases h0 : st.op_idx = 0
          · exact absurd (hfirst h0) hx1
          · exact validate_ops_loop_false op_registry kernel_registry rest st1
              (hun h0 hx2 hx3)
        · exact validate_ops_loop_unregistered op_registry kernel_registry rest st1
            (by omega) hret ⟨x, hx, hx1, hx2, hx3⟩
      | brk => exact hbrk st1 hv
      | thrown => simp at hret

/-- The shape rules hold whenever the call returns: if `validate_task_set` ends without
an exception and the op list has fewer than three ops, or its first op is not `InputTable`,
or its last op is not `OutputTable`, or an op other than the sentinels is not registered or
has no kernel for its device type, then the `Result` is left with `success = false`. -/
theorem validate_task_set_shape_rules_of_return (op_registry : OpRegistry)
    (kernel_registry : KernelRegistry) (meta : DatabaseMetadata) (task_set : TaskSet)
    (result : Result)
    (hret : (validate_task_set op_registry kernel_registry meta task_set result).2 = false)
    (hbad : task_set.ops.length < 3 ∨
      (task_set.ops.head?.map fun op => op.name) ≠ some "InputTable" ∨
      (task_set.ops.getLast?.map fun op => op.name) ≠ some "OutputTable" ∨
      ∃ op ∈ task_set.ops, op.name ≠ "InputTable" ∧ op.name ≠ "OutputTable" ∧
        (op_registry op.name = none ∨ kernel_registry op.name op.device_type = false)) :
    (validate_task_set op_registry kernel_registry meta task_set result).1.success =
      false := by
  unfold validate_task_set at hret ⊢
  dsimp only at hret ⊢
  have hnames := validate_ops_loop_names op_registry kernel_registry task_set.ops
    { op_idx := 0, op_names := [], op_outputs := []
      result := (task_set.tasks.foldl (validate_task meta) ([], result)).2 } (Int.le_refl _)
  have hunreg := validate_ops_loop_unregistered op_registry kernel_registry task_set.ops
    { op_idx := 0, op_names := [], op_outputs := []
      result := (task_set.tasks.foldl (validate_task meta) ([], result)).2 } (Int.le_refl _)
  cases hl : validate_ops_loop op_registry kernel_registry
      { op_idx := 0, op_names := [], op_outputs := []
        result := (task_set.tasks.foldl (validate_task meta) ([], result)).2 }
      task_set.ops with
  | mk st thrown =>
    rw [hl] at hret hnames hunreg
    cases thrown with
    | true => simp at hret
    | false =>
      dsimp only at hnames hunreg ⊢
      rcases hnames rfl with hf | hn
      · exact validate_op_names_false _ _ hf
      · rw [List.nil_append] at hn
        rcases hbad with h | h | h | h
        · unfold validate_op_names
          rw [if_pos (by rw [hn, List.length_map]; exact h)]
          rfl
        · unfold validate_op_names
          split
          · rfl
          · dsimp only
            have hhead : st.op_names.head? ≠ some "InputTable" := by
              rw [hn, List.head?_map]
              exact h
            rw [if_pos hhead]
            split <;> rfl
        · unfold validate_op_names
          split
          · rfl
          · dsimp only
            have hlast : st.op_names.getLast? ≠ some "OutputTable" := by
              rw [hn, List.getLast?_map]
              exact h
            rw [if_pos hlast]
            rfl
        · exact validate_op_names_false _ _ (hunreg rfl h)

/-! ## Claim on the start index of a run -/

/-- C21 (every run starts at the keyframe at or preceding its first requested frame),
evaluated on `keyframe_positions = [0, 30, 60, 90, 100]`.  For `rows = [40]` the only run is
returned as `(0, 2)`: its first frame 40 lies in segment 1 (`30 <= 40 < 60`), and the run
starts at keyframe index 0, one segment early.  The same happens to the first run of
`rows = [40, 95]`, while its second run starts at the segment of its first frame, 3.  For
`rows = [70]`, whose first frame lies in segment 2, the run starts at index 2. -/
theorem first_run_starts_one_segment_early :
    slice_into_video_intervals [0, 30, 60, 90, 100] [40] = some ⟨[(0, 2)], [[40]]⟩ ∧
      keyframe_segment [0, 30, 60, 90, 100] 40 = 1 ∧
      slice_into_video_intervals [0, 30, 60, 90, 100] [40, 95] =
        some ⟨[(0, 2), (3, 4)], [[40], [95]]⟩ ∧
      keyframe_segment [0, 30, 60, 90, 100] 95 = 3 ∧
      slice_into_video_intervals [0, 30, 60, 90, 100] [70] = some ⟨[(2, 3)], [[70]]⟩ ∧
      keyframe_segment [0, 30, 60, 90, 100] 70 = 2 := by
  decide

/-! ## Claim on the counters of `NextWork` -/

/-- C24 (counter invariant of the `NextWork` state machine), evaluated on a job whose first
task validates and reports `total_samples() = 0`, followed by a task of three units: the
first block of the first `NextWork` call starts the task and leaves `samples_left = 0` with
a successful task result, and the call stops at `assert(samples_left_ > 0)`. -/
theorem NextWork_assert_fails_on_zero_sample_task :
    (NextWork_select_task [⟨true, 0, fun k => some (k : Int)⟩, three_unit_sampler]
        (NewJob_state [⟨true, 0, fun k => some (k : Int)⟩, three_unit_sampler] none)).map
        (fun p => (p.1.samples_left, p.1.next_task, p.1.task_result, p.2)) =
        some (0, 1, true, false) ∧
      (NextWork [⟨true, 0, fun k => some (k : Int)⟩, three_unit_sampler]
        (NewJob_state [⟨true, 0, fun k => some (k : Int)⟩, three_unit_sampler] none)).isNone =
        true := by
  decide

/-! ## Claim on the lookups of `validate_task_set` -/

/-- C25 (`validate_task_set` is total on the op list), evaluated on three task sets with a
valid task, the op `Blur` registered with the output `frame`, and a kernel for it.  With the
ops `[InputTable, Blur, OutputTable]` where the input of `Blur` has `op_index = -1`,
`op_names.at(-1)` throws.  With `[InputTable, OutputTable, Blur, OutputTable]` where the last
op refers to index 2, `op_outputs` has two entries for three visited ops and
`op_outputs.at(2)` throws.  With the same ops where the last op requests the column `frame` of
the op at index 1, the first `OutputTable`, the lookup `op_outputs.at(1)` yields the outputs
of `Blur`, the op at index 2, and the request is accepted. -/
theorem validate_task_set_lookup_faults :
    validate_task_set blur_registry all_kernels ⟨["video"], []⟩
        { tasks := [⟨"out", [⟨"video", ["frame"]⟩]⟩]
          ops := [⟨"InputTable", [⟨-1, ["frame"]⟩], DeviceType.CPU⟩,
            ⟨"Blur", [⟨-1, ["frame"]⟩], DeviceType.CPU⟩,
            ⟨"OutputTable", [⟨1, ["frame"]⟩], DeviceType.CPU⟩] }
        ⟨true, ""⟩ = (⟨true, ""⟩, true) ∧
      validate_task_set blur_registry all_kernels ⟨["video"], []⟩
        { tasks := [⟨"out", [⟨"video", ["frame"]⟩]⟩]
          ops := [⟨"InputTable", [⟨-1, ["frame"]⟩], DeviceType.CPU⟩,
            ⟨"OutputTable", [⟨0, ["frame"]⟩], DeviceType.CPU⟩,
            ⟨"Blur", [⟨0, ["frame"]⟩], DeviceType.CPU⟩,
            ⟨"OutputTable", [⟨2, ["frame"]⟩], DeviceType.CPU⟩] }
        ⟨true, ""⟩ = (⟨true, ""⟩, true) ∧
      validate_task_set blur_registry all_kernels ⟨["video"], []⟩
        { tasks := [⟨"out", [⟨"video", ["frame"]⟩]⟩]
          ops := [⟨"InputTable", [⟨-1, ["image"]⟩], DeviceType.CPU⟩,
            ⟨"OutputTable", [⟨0, ["image"]⟩], DeviceType.CPU⟩,
            ⟨"Blur", [⟨0, ["image"]⟩], DeviceType.CPU⟩,
            ⟨"OutputTable", [⟨1, ["frame"]⟩], DeviceType.CPU⟩] }
        ⟨true, ""⟩ = (⟨true, ""⟩, false) := by
  decide

/-! ## The offsets on tables of at most two items -/

/-- On a table of at most two items the sum that `offset_from_row` has accumulated when it
stops at item `i` is the first row of item `i`. -/
theorem take_sum_eq_item_first_row (end_rows : List Int) (i : Nat)
    (hlen : end_rows.length ≤ 2) (hi : i < end_rows.length) :
    (end_rows.take i).sum = item_first_row end_rows i := by
  rcases end_rows with _ | ⟨a, _ | ⟨b, _ | ⟨c, t⟩⟩⟩
  · simp at hi
  · have h0 : i = 0 := by simpa using hi
    subst h0
    simp [item_first_row]
  · have h01 : i = 0 ∨ i = 1 := by
      simp only [List.length_cons, List.length_nil] at hi
      omega
    rcases h01 with rfl | rfl
    · simp [item_first_row]
    · simp [item_first_row]
  · simp only [List.length_cons] at hlen
    omega

theorem zipWith_same_list {α β : Type} (f : α → α → β) :
    ∀ l : List α, List.zipWith f l l = l.map fun a => f a a
  | [] => rfl
  | a :: l => by rw [List.zipWith_cons_cons, zipWith_same_list f l, List.map_cons]

/-- On a table of at most two items the offset of a row in range is the row minus the first
row of its item. -/
theorem row_offset_small_table (end_rows : List Int) (hlen : end_rows.length ≤ 2) (r : Int)
    (h : ∃ e ∈ end_rows, r < e) :
    ∃ i, i < end_rows.length ∧ item_from_row end_rows r = some i ∧
      (end_rows.take i).sum = item_first_row end_rows i ∧
      offset_from_row end_rows r = some (r - (end_rows.take i).sum) ∧
      row_offset end_rows r = r - item_first_row end_rows i := by
  obtain ⟨i, hi, hitem, hoff, _, _⟩ := item_offset_spec end_rows r h
  have hsum := take_sum_eq_item_first_row end_rows i hlen hi
  refine ⟨i, hi, hitem, hsum, hoff, ?_⟩
  unfold row_offset
  rw [hoff, hsum]
  rfl

/-- C26 (the computed offset agrees with the corrected formula on small tables): for every
table of one or two items and every non-empty list of rows below `end_rows.back()`, every row
`r` lies in an item `i` for which the sum `offset_from_row` has accumulated is the first row
of item `i` (`i == 0 ? 0 : end_rows[i-1]`), so the offset it returns is `r` minus that first
row; `slice_into_row_intervals` returns, each stored offset of run `k` is the row minus the
first row of item `item_ids[k]`, the item of every row of the run, and the stored offsets
re-keyed to global rows and concatenated are `rows`. -/
theorem slice_into_row_intervals_small_table (end_rows rows : List Int) (hne : end_rows ≠ [])
    (hlen : end_rows.length ≤ 2) (hrows : rows ≠ [])
    (hrange : ∀ r ∈ rows, r < end_rows.getLast hne) :
    (∀ r ∈ rows, ∃ i, item_from_row end_rows r = some i ∧
        (end_rows.take i).sum = item_first_row end_rows i ∧
        offset_from_row end_rows r = some (r - (end_rows.take i).sum) ∧
        offset_from_row end_rows r = some (r - item_first_row end_rows i)) ∧
      ∃ info, slice_into_row_intervals end_rows rows = some info ∧
        info.item_ids = (row_runs end_rows rows).map (run_item end_rows) ∧
        (∀ run ∈ row_runs end_rows rows, ∀ r ∈ run,
          item_from_row end_rows r = some (run_item end_rows run)) ∧
        info.valid_offsets = (row_runs end_rows rows).map (fun run =>
          run.map fun r => r - item_first_row end_rows (run_item end_rows run)) ∧
        global_rows end_rows info = rows := by
  have hin : ∀ r ∈ rows, ∃ e ∈ end_rows, r < e := fun r hr =>
    ⟨_, List.getLast_mem hne, hrange r hr⟩
  have hrun : ∀ run ∈ row_runs end_rows rows, ∀ r ∈ run,
      row_offset end_rows r = r - item_first_row end_rows (run_item end_rows run) := by
    intro run hrun r hr
    obtain ⟨i, _, hitem, _, _, hoff⟩ := row_offset_small_table end_rows hlen r
      (hin r (mem_rows_of_mem_run end_rows rows run hrun r hr))
    have hspec := run_item_spec end_rows rows run hin hrun r hr
    rw [hitem] at hspec
    cases hspec
    exact hoff
  have hoffsets : (row_runs end_rows rows).map (fun run => run.map (row_offset end_rows)) =
      (row_runs end_rows rows).map (fun run =>
        run.map fun r => r - item_first_row end_rows (run_item end_rows run)) :=
    List.map_congr_left fun run hr => List.map_congr_left fun r hrr => hrun run hr r hrr
  refine ⟨?_, row_intervals_of_runs end_rows (row_runs end_rows rows),
    slice_into_row_intervals_eq_runs end_rows rows hrows hin, rfl,
    fun run hr r hrr => run_item_spec end_rows rows run hin hr r hrr, hoffsets, ?_⟩
  · intro r hr
    obtain ⟨i, _, hitem, hsum, hoff, _⟩ := row_offset_small_table end_rows hlen r (hin r hr)
    exact ⟨i, hitem, hsum, hoff, by rw [hoff, hsum]⟩
  · unfold global_rows row_intervals_of_runs
    dsimp only
    rw [List.zipWith_map, zipWith_same_list]
    have hid : (row_runs end_rows rows).map (fun run =>
        (run.map (row_offset end_rows)).map fun o =>
          o + item_first_row end_rows (run_item end_rows run)) =
        (row_runs end_rows rows).map id := by
      apply List.map_congr_left
      intro run hr
      rw [List.map_map]
      have : run.map ((fun o => o + item_first_row end_rows (run_item end_rows run)) ∘
          row_offset end_rows) = run.map id := by
        apply List.map_congr_left
        intro r hrr
        simp only [Function.comp_apply, id]
        rw [hrun run hr r hrr]
        omega
      rw [this, List.map_id]
      rfl
    rw [hid, List.map_id]
    simp [row_runs]

/-- Instance of C26: the table `end_rows = [3, 7]` and `rows = [1, 2, 5]`. -/
theorem slice_into_row_intervals_small_table_witness :
    slice_into_row_intervals [3, 7] [1, 2, 5] = some ⟨[0, 1], [(1, 3), (2, 3)], [[1, 2], [2]]⟩ ∧
      ((∀ r ∈ ([1, 2, 5] : List Int), ∃ i, item_from_row [3, 7] r = some i ∧
          (([3, 7] : List Int).take i).sum = item_first_row [3, 7] i ∧
          offset_from_row [3, 7] r = some (r - (([3, 7] : List Int).take i).sum) ∧
          offset_from_row [3, 7] r = some (r - item_first_row [3, 7] i)) ∧
        ∃ info, slice_into_row_intervals [3, 7] [1, 2, 5] = some info ∧
          info.item_ids = (row_runs [3, 7] [1, 2, 5]).map (run_item [3, 7]) ∧
          (∀ run ∈ row_runs [3, 7] [1, 2, 5], ∀ r ∈ run,
            item_from_row [3, 7] r = some (run_item [3, 7] run)) ∧
          info.valid_offsets = (row_runs [3, 7] [1, 2, 5]).map (fun run =>
            run.map fun r => r - item_first_row [3, 7] (run_item [3, 7] run)) ∧
          global_rows [3, 7] info = [1, 2, 5]) :=
  ⟨by decide,
    slice_into_row_intervals_small_table [3, 7] [1, 2, 5] (by decide) (by decide) (by decide)
      (by decide)⟩

/-! ## The extraction loop on the offsets of a run -/

theorem int_range_cons_int (lo hi : Int) (h : lo < hi) :
    int_range lo hi = lo :: int_range (lo + 1) hi := by
  unfold int_range
  have h1 : (hi - lo).toNat = (hi - (lo + 1)).toNat + 1 := by omega
  rw [h1, List.range_succ_eq_map, List.map_cons, List.map_map]
  refine congrArg₂ _ (by simp) ?_
  apply List.map_congr_left
  intro k _
  simp only [Function.comp_apply, Nat.succ_eq_add_one]
  push_cast
  ring

/-- The checked body agrees with `extract_step`. -/
theorem extract_step_checked_toOption (row_sizes valid_offsets : List Int)
    (row_data : List Nat) (st : ExtractState) (i : Int) :
    (extract_step_checked row_sizes valid_offsets row_data st i).toOption =
      extract_step row_sizes valid_offsets row_data st i := by
  unfold extract_step_checked extract_step
  cases get_at row_sizes i with
  | none => rfl
  | some sz =>
    dsimp only
    cases valid_offsets[st.valid_idx]? with
    | none => rfl
    | some v =>
      dsimp only
      split
      · split <;> rfl
      · rfl

/-- The checked loop agrees with the loop of `read_other_column`. -/
theorem extract_loop_checked_toOption (row_sizes valid_offsets : List Int)
    (row_data : List Nat) :
    ∀ (l : List Int) (st : ExtractState),
      (l.foldlM (extract_step_checked row_sizes valid_offsets row_data) st).toOption =
        l.foldlM (extract_step row_sizes valid_offsets row_data) st
  | [], _ => rfl
  | i :: l, st => by
    rw [List.foldlM_cons, List.foldlM_cons, ← extract_step_checked_toOption]
    cases extract_step_checked row_sizes valid_offsets row_data st i with
    | error e => rfl
    | ok st1 => exact extract_loop_checked_toOption row_sizes valid_offsets row_data l st1

/-- One iteration keeps the invariant: the read of `valid_offsets` is in range, a match
advances `valid_idx`, and a row that matches nothing leaves it. -/
theorem ExtractInv_step (vo : List Int) (hne : vo ≠ []) (t : Int) (k : Nat)
    (hinv : ExtractInv vo t k) (ht : t ≤ vo.getLast hne) :
    k < vo.length ∧ (vo.getD k 0 = t → ExtractInv vo (t + 1) (k + 1)) ∧
      (vo.getD k 0 ≠ t → ExtractInv vo (t + 1) k) := by
  have hlen : 0 < vo.length := List.length_pos.2 hne
  have hlast : vo.getLast hne = vo.getD (vo.length - 1) 0 := by
    rw [List.getLast_eq_getElem, List.getD_eq_getElem vo 0 (by omega)]
  have hk : k < vo.length := by
    rcases Nat.lt_or_ge k vo.length with h | h
    · exact h
    · have := hinv.matched_lt (vo.length - 1) (by omega)
      omega
  refine ⟨hk, ?_, ?_⟩
  · intro hmatch
    refine ⟨hk, ?_, ?_, ?_⟩
    · intro j hj
      rcases Nat.lt_or_ge j k with h | h
      · have := hinv.matched_lt j h
        omega
      · have hjk : j = k := by omega
        rw [hjk, hmatch]
        omega
    · rw [List.take_succ, List.getElem?_eq_getElem hk]
      simp only [Option.toList]
      refine List.pairwise_append.2 ⟨hinv.matched_sorted, List.pairwise_singleton _ _, ?_⟩
      intro a ha b hb
      have hb2 : b = vo.getD k 0 := by
        rw [List.getD_eq_getElem vo 0 hk]
        simpa using hb
      obtain ⟨j, hj, hja⟩ := List.getElem_of_mem ha
      rw [List.length_take] at hj
      have hj2 : j < k := by omega
      have := hinv.matched_lt j hj2
      rw [List.getD_eq_getElem vo 0 (by omega)] at this
      rw [List.getElem_take] at hja
      rw [hb2, hmatch, ← hja]
      exact this
    · intro hs j hj1 hj2
      have := getD_lt_of_sorted vo hs k j (by omega) hj2
      omega
  · intro hmiss
    refine ⟨hinv.idx_le, ?_, hinv.matched_sorted, ?_⟩
    · intro j hj
      have := hinv.matched_lt j hj
      omega
    · intro hs j hj1 hj2
      have h1 := hinv.pending hs k (Nat.le_refl _) hk
      have h2 := getD_le_of_sorted vo hs k j hj1 hj2
      rcases Nat.eq_or_lt_of_le hj1 with h | h
      · rw [← h]
        omega
      · have h3 := getD_lt_of_sorted vo hs k j h hj2
        omega

/-- When the loop has finished, `valid_idx` has reached the size of `valid_offsets` exactly
when the offsets ascend strictly. -/
theorem ExtractInv_final (vo : List Int) (hne : vo ≠ []) (k : Nat)
    (hinv : ExtractInv vo (vo.getLast hne + 1) k) :
    k = vo.length ↔ vo.Sorted (· < ·) := by
  have hlen : 0 < vo.length := List.length_pos.2 hne
  have hlast : vo.getLast hne = vo.getD (vo.length - 1) 0 := by
    rw [List.getLast_eq_getElem, List.getD_eq_getElem vo 0 (by omega)]
  constructor
  · intro hk
    have := hinv.matched_sorted
    rw [hk, List.take_length] at this
    exact this
  · intro hs
    rcases Nat.lt_or_ge k vo.length with h | h
    · have := hinv.pending hs (vo.length - 1) (by omega) (by omega)
      omega
    · have := hinv.idx_le
      omega

theorem foldlM_cons_ok {ε σ ι : Type} (f : σ → ι → Except ε σ) (i : ι) (l : List ι)
    (st st1 : σ) (h : f st i = Except.ok st1) : (i :: l).foldlM f st = l.foldlM f st1 := by
  rw [List.foldlM_cons, h]
  rfl

theorem foldlM_cons_error {ε σ ι : Type} (f : σ → ι → Except ε σ) (i : ι) (l : List ι)
    (st : σ) (e : ε) (h : f st i = Except.error e) :
    (i :: l).foldlM f st = Except.error e := by
  rw [List.foldlM_cons, h]
  rfl

theorem chunk_size_cons (row_sizes : List Int) (lo hi : Int) (h : lo < hi) (sz : Int)
    (hsz : get_at row_sizes lo = some sz) :
    chunk_size row_sizes lo hi = to_u64 sz + chunk_size row_sizes (lo + 1) hi := by
  unfold chunk_size
  rw [int_range_cons_int lo hi h, List.map_cons, List.sum_cons, hsz]
  rfl

/-- The extraction loop from row `t` on, for offsets whose last is `item_end - 1`: it never
reads `valid_offsets` outside its range; when it finishes, the invariant holds at
`item_end`; and it does finish when `row_sizes` has the rows and `row_data` the bytes. -/
theorem extract_checked_loop (rs vo : List Int) (rd : List Nat) (hne : vo ≠ []) :
    ∀ (m : Nat) (t : Int) (st : ExtractState), (vo.getLast hne + 1 - t).toNat = m →
      t ≤ vo.getLast hne + 1 → ExtractInv vo t st.valid_idx →
      (int_range t (vo.getLast hne + 1)).foldlM (extract_step_checked rs vo rd) st ≠
          Except.error ExtractFault.valid_offsets_index ∧
        (∀ st1, (int_range t (vo.getLast hne + 1)).foldlM (extract_step_checked rs vo rd) st =
            Except.ok st1 → ExtractInv vo (vo.getLast hne + 1) st1.valid_idx) ∧
        ((∀ i, t ≤ i → i < vo.getLast hne + 1 → ∃ sz, get_at rs i = some sz) →
          st.offset + chunk_size rs t (vo.getLast hne + 1) ≤ rd.length →
          rd.length < u64_mod →
          ∃ st1, (int_range t (vo.getLast hne + 1)).foldlM (extract_step_checked rs vo rd) st =
            Except.ok st1) := by
  intro m
  induction m with
  | zero =>
    intro t st hm hle hinv
    have ht : t = vo.getLast hne + 1 := by omega
    rw [← ht, int_range_self]
    refine ⟨(fun h => nomatch h), ?_, fun _ _ _ => ⟨st, rfl⟩⟩
    intro st1 h
    cases h
    exact hinv
  | succ m ih =>
    intro t st hm hle hinv
    have hlt : t < vo.getLast hne + 1 := by omega
    obtain ⟨hk, hmatch, hmiss⟩ := ExtractInv_step vo hne t st.valid_idx hinv (by omega)
    have hvo : vo[st.valid_idx]? = some (vo.getD st.valid_idx 0) :=
      getElem?_eq_some_getD vo _ hk
    rw [int_range_cons_int t _ hlt]
    cases hrs : get_at rs t with
    | none =>
      have hstep : extract_step_checked rs vo rd st t =
          Except.error ExtractFault.row_sizes_index := by
        unfold extract_step_checked
        rw [hrs]
      rw [foldlM_cons_error _ _ _ _ _ hstep]
      refine ⟨(fun h => nomatch h), (fun st1 h => nomatch h), ?_⟩
      intro hsz _ _
      obtain ⟨sz, h⟩ := hsz t (Int.le_refl _) hlt
      rw [hrs] at h
      cases h
    | some sz =>
      by_cases hm2 : t = vo.getD st.valid_idx 0
      · by_cases hfit : st.offset + to_u64 sz ≤ rd.length
        · have hstep : extract_step_checked rs vo rd st t =
              Except.ok { offset := (st.offset + to_u64 sz) % u64_mod
                          valid_idx := st.valid_idx + 1
                          row_list := st.row_list ++ [(rd.drop st.offset).take (to_u64 sz)] } := by
            unfold extract_step_checked
            rw [hrs, hvo]
            dsimp only
            rw [if_pos hm2, if_pos hfit]
          rw [foldlM_cons_ok _ _ _ _ _ hstep]
          obtain ⟨h1, h2, h3⟩ := ih (t + 1)
            { offset := (st.offset + to_u64 sz) % u64_mod
              valid_idx := st.valid_idx + 1
              row_list := st.row_list ++ [(rd.drop st.offset).take (to_u64 sz)] }
            (by omega) (by omega) (hmatch hm2.symm)
          refine ⟨h1, h2, ?_⟩
          intro hsz hdata hrd
          rw [chunk_size_cons rs t _ hlt sz hrs] at hdata
          refine h3 (fun i hi1 hi2 => hsz i (by omega) hi2) ?_ hrd
          dsimp only
          rw [Nat.mod_eq_of_lt (by omega)]
          omega
        · have hstep : extract_step_checked rs vo rd st t =
              Except.error ExtractFault.row_data_range := by
            unfold extract_step_checked
            rw [hrs, hvo]
            dsimp only
            rw [if_pos hm2, if_neg hfit]
          rw [foldlM_cons_error _ _ _ _ _ hstep]
          refine ⟨(fun h => nomatch h), (fun st1 h => nomatch h), ?_⟩
          intro _ hdata _
          rw [chunk_size_cons rs t _ hlt sz hrs] at hdata
          omega
      · have hstep : extract_step_checked rs vo rd st t =
            Except.ok { st with offset := (st.offset + to_u64 sz) % u64_mod } := by
          unfold extract_step_checked
          rw [hrs, hvo]
          dsimp only
          rw [if_neg hm2]
        rw [foldlM_cons_ok _ _ _ _ _ hstep]
        obtain ⟨h1, h2, h3⟩ := ih (t + 1)
          { st with offset := (st.offset + to_u64 sz) % u64_mod }
          (by omega) (by omega) (hmiss (fun h => hm2 h.symm))
        refine ⟨h1, h2, ?_⟩
        intro hsz hdata hrd
        rw [chunk_size_cons rs t _ hlt sz hrs] at hdata
        refine h3 (fun i hi1 hi2 => hsz i (by omega) hi2) ?_ hrd
        dsimp only
        rw [Nat.mod_eq_of_lt (by omega)]
        omega

/-- Within a run the offsets ascend strictly exactly when the rows do. -/
theorem run_offsets_sorted_iff (end_rows rows run : List Int)
    (hrange : ∀ r ∈ rows, ∃ e ∈ end_rows, r < e) (hrun : run ∈ row_runs end_rows rows) :
    (run.map (row_offset end_rows)).Sorted (· < ·) ↔ run.Sorted (· < ·) := by
  have hin : ∀ x ∈ run, ∃ e ∈ end_rows, x < e := fun x hx =>
    hrange x (mem_rows_of_mem_run end_rows rows run hrun x hx)
  have hdiff : ∀ a ∈ run, ∀ b ∈ run,
      row_offset end_rows b - row_offset end_rows a = b - a := by
    intro a ha b hb
    exact row_offset_same_item end_rows a b (hin a ha) (hin b hb)
      (by rw [run_item_spec end_rows rows run hrange hrun a ha,
        run_item_spec end_rows rows run hrange hrun b hb])
  unfold List.Sorted
  rw [List.pairwise_map]
  constructor
  · intro h
    refine h.imp_of_mem ?_
    intro a b ha hb hab
    have := hdiff a ha b hb
    omega
  · intro h
    refine h.imp_of_mem ?_
    intro a b ha hb hab
    have := hdiff a ha b hb
    omega

/-- The extraction loop on the runs whose interval fits the `i32` parameters: for a
non-empty table and non-empty ascending rows below `end_rows.back()`,
`slice_into_row_intervals` returns one interval and one list of offsets per run; and for
every run `k` whose interval the conversion to `i32` leaves as it is, when the extraction
loop runs with `valid_offsets[k]`, whatever `row_sizes`, `row_data` and the output column
are, it never reads `valid_offsets` at an index outside the vector; whenever it reaches its
end, `valid_idx == valid_offsets.size()` holds if and only if the rows of the run ascend
strictly; and it does reach its end when `row_sizes` has the rows of the interval and
`row_data` holds their bytes. -/
theorem extraction_after_slice_into_row_intervals (end_rows rows : List Int)
    (hne : end_rows ≠ []) (hrows : rows ≠ []) (hasc : rows.Sorted (· ≤ ·))
    (hrange : ∀ r ∈ rows, r < end_rows.getLast hne) :
    ∃ info, slice_into_row_intervals end_rows rows = some info ∧
      info.item_intervals.length = (row_runs end_rows rows).length ∧
      info.valid_offsets.length = (row_runs end_rows rows).length ∧
      ∀ (k : Nat) (run : List Int) (iv : Int × Int) (offsets : List Int),
        (row_runs end_rows rows)[k]? = some run →
        info.item_intervals[k]? = some iv → info.valid_offsets[k]? = some offsets →
        to_i32 iv.1 = iv.1 → to_i32 iv.2 = iv.2 →
        ∀ (row_sizes : List Int) (row_data : List Nat) (row_list : List (List Nat)),
          extract_rows_of_interval row_sizes offsets row_data iv row_list ≠
              Except.error ExtractFault.valid_offsets_index ∧
            (∀ st, extract_rows_of_interval row_sizes offsets row_data iv row_list =
                Except.ok st → (st.valid_idx = offsets.length ↔ run.Sorted (· < ·))) ∧
            ((∀ i, iv.1 ≤ i → i < iv.2 → ∃ sz, get_at row_sizes i = some sz) →
              chunk_size row_sizes iv.1 iv.2 ≤ row_data.length →
              row_data.length < u64_mod →
              ∃ st, extract_rows_of_interval row_sizes offsets row_data iv row_list =
                Except.ok st) := by
  have hin : ∀ r ∈ rows, ∃ e ∈ end_rows, r < e := fun r hr =>
    ⟨_, List.getLast_mem hne, hrange r hr⟩
  refine ⟨row_intervals_of_runs end_rows (row_runs end_rows rows),
    slice_into_row_intervals_eq_runs end_rows rows hrows hin, ?_, ?_, ?_⟩
  · simp [row_intervals_of_runs]
  · simp [row_intervals_of_runs]
  · intro k run iv offsets hk hiv hoffs h32a h32b row_sizes row_data row_list
    have hrun : run ∈ row_runs end_rows rows := List.mem_iff_getElem?.2 ⟨k, hk⟩
    have hrne : run ≠ [] := List.ne_nil_of_mem_splitBy _ hrun
    have hiv2 : iv = run_interval end_rows run := by
      simp only [row_intervals_of_runs, List.getElem?_map, hk, Option.map_some',
        Option.some.injEq] at hiv
      exact hiv.symm
    have hoffs2 : offsets = run.map (row_offset end_rows) := by
      simp only [row_intervals_of_runs, List.getElem?_map, hk, Option.map_some',
        Option.some.injEq] at hoffs
      exact hoffs.symm
    have hone : offsets ≠ [] := by
      rw [hoffs2]
      simpa using hrne
    have hlast : offsets.getLast hone = row_offset end_rows (run.getLast hrne) := by
      simp only [hoffs2, List.getLast_map]
    have hiv_1 : iv.1 = row_offset end_rows (run.head hrne) := by
      rw [hiv2]
      unfold run_interval
      dsimp only
      rw [List.headD_eq_head?_getD, List.head?_eq_head hrne]
      rfl
    have hiv_2 : iv.2 = offsets.getLast hone + 1 := by
      rw [hiv2, hlast]
      unfold run_interval
      dsimp only
      rw [getLastD_eq_getLast run hrne]
    have hbounds := run_offsets_bounds end_rows rows run hasc hin hrun hrne
    have hle : iv.1 ≤ iv.2 := by
      have := (hbounds (run.head hrne) (List.head_mem hrne)).2
      rw [hiv_1, hiv_2, hlast]
      omega
    have hinv0 : ExtractInv offsets iv.1 0 := by
      refine ⟨Nat.zero_le _, fun j hj => absurd hj (Nat.not_lt_zero _), by simp [List.Sorted],
        ?_⟩
      intro _ j _ hj
      rw [List.getD_eq_getElem offsets 0 hj, hiv_1]
      have hmem : offsets[j] ∈ run.map (row_offset end_rows) := by
        rw [← hoffs2]
        exact List.getElem_mem hj
      obtain ⟨r, hr, hro⟩ := List.mem_map.1 hmem
      rw [← hro]
      exact (hbounds r hr).1
    obtain ⟨h1, h2, h3⟩ := extract_checked_loop row_sizes offsets row_data hone
      (offsets.getLast hone + 1 - iv.1).toNat iv.1 ⟨0, 0, row_list⟩ rfl
      (by rw [← hiv_2]; exact hle) hinv0
    unfold extract_rows_of_interval
    rw [h32a, h32b]
    unfold extract_rows_checked
    rw [hiv_2]
    refine ⟨h1, ?_, ?_⟩
    · intro st hst
      rw [ExtractInv_final offsets hone st.valid_idx (h2 st hst), hoffs2]
      exact run_offsets_sorted_iff end_rows rows run hin hrun
    · intro hsz hdata hrd
      exact h3 hsz (by simpa using hdata) hrd

/-- The extraction loop on the table `end_rows = [3, 7]` with `rows = [1, 2, 5]`.  For the
first run the loop over `[1, 3)` with the offsets `[1, 2]` on an item of three rows of 2, 1 and
3 bytes ends with `valid_idx = 2`; with the row 1 requested twice (`rows = [1, 1, 2]`, offsets
`[1, 1, 2]`) it ends with `valid_idx = 1`, short of the three offsets. -/
theorem extraction_after_slice_into_row_intervals_witness :
    slice_into_row_intervals [3, 7] [1, 2, 5] =
        some ⟨[0, 1], [(1, 3), (2, 3)], [[1, 2], [2]]⟩ ∧
      (extract_rows_of_interval [2, 1, 3] [1, 2] [7, 8, 9, 10] (1, 3) []).toOption =
        some ⟨4, 2, [[7], [8, 9, 10]]⟩ ∧
      slice_into_row_intervals [3, 7] [1, 1, 2] = some ⟨[0], [(1, 3)], [[1, 1, 2]]⟩ ∧
      (extract_rows_of_interval [2, 1, 3] [1, 1, 2] [7, 8, 9, 10] (1, 3) []).toOption =
        some ⟨4, 1, [[7]]⟩ ∧
      ∃ info, slice_into_row_intervals [3, 7] [1, 2, 5] = some info ∧
        info.item_intervals.length = (row_runs [3, 7] [1, 2, 5]).length ∧
        info.valid_offsets.length = (row_runs [3, 7] [1, 2, 5]).length ∧
        ∀ (k : Nat) (run : List Int) (iv : Int × Int) (offsets : List Int),
          (row_runs [3, 7] [1, 2, 5])[k]? = some run →
          info.item_intervals[k]? = some iv → info.valid_offsets[k]? = some offsets →
          to_i32 iv.1 = iv.1 → to_i32 iv.2 = iv.2 →
          ∀ (row_sizes : List Int) (row_data : List Nat) (row_list : List (List Nat)),
            extract_rows_of_interval row_sizes offsets row_data iv row_list ≠
                Except.error ExtractFault.valid_offsets_index ∧
              (∀ st, extract_rows_of_interval row_sizes offsets row_data iv row_list =
                  Except.ok st → (st.valid_idx = offsets.length ↔ run.Sorted (· < ·))) ∧
              ((∀ i, iv.1 ≤ i → i < iv.2 → ∃ sz, get_at row_sizes i = some sz) →
                chunk_size row_sizes iv.1 iv.2 ≤ row_data.length →
                row_data.length < u64_mod →
                ∃ st, extract_rows_of_interval row_sizes offsets row_data iv row_list =
                  Except.ok st) :=
  ⟨by decide, by decide, by decide, by decide,
    extraction_after_slice_into_row_intervals [3, 7] [1, 2, 5] (by decide) (by decide)
      (by decide) (by decide)⟩

/-! ## The decode payload of `read_video_column` -/

theorem read_range_eq (v : List Int) :
    ∀ (n i : Nat), i + n ≤ v.length → read_range v i n = some ((v.drop i).take n)
  | 0, _, _ => by simp [read_range]
  | n + 1, i, h => by
    have hi : i < v.length := by omega
    rw [read_range, List.getElem?_eq_getElem hi, read_range_eq v n (i + 1) (by omega)]
    dsimp only
    rw [List.drop_eq_getElem_cons hi, List.take_succ_cons]

theorem to_u64_natCast (n : Nat) (h : n < u64_mod) : to_u64 (n : Int) = n := by
  unfold to_u64
  unfold u64_mod at *
  have h1 : ((n : Int) % ((2 ^ 64 : Nat) : Int)) = n := by
    apply Int.emod_eq_of_lt <;> omega
  rw [h1]
  simp

/-- The `u64` difference of two byte offsets of a file below `2 ^ 63` bytes, read as an
`i64`, is their difference. -/
theorem u64_offset_diff (sb b : Int) (size : Nat) (h0 : 0 ≤ sb) (h1 : sb ≤ b)
    (h2 : b ≤ size) (hsize : size < 2 ^ 63) :
    to_u64 sb = sb.toNat ∧
      (to_u64 b + u64_mod - to_u64 sb) % u64_mod = (b - sb).toNat ∧
      to_i64 ((to_u64 b + u64_mod - to_u64 sb) % u64_mod) = b - sb := by
  obtain ⟨m, rfl⟩ := Int.eq_ofNat_of_zero_le h0
  obtain ⟨n, rfl⟩ := Int.eq_ofNat_of_zero_le (by omega : 0 ≤ b)
  have hm : m < u64_mod := by unfold u64_mod; omega
  have hn : n < u64_mod := by unfold u64_mod; omega
  have hsub : (n + u64_mod - m) % u64_mod = n - m := by
    have : n + u64_mod - m = (n - m) + u64_mod := by omega
    rw [this, Nat.add_mod_right, Nat.mod_eq_of_lt (by omega)]
  rw [to_u64_natCast m hm, to_u64_natCast n hn, hsub]
  refine ⟨by simp, by omega, ?_⟩
  unfold to_i64
  rw [if_pos (by omega)]
  omega

/-- One iteration of the loop of `read_video_column` on an interval within the index of a
well-formed entry appends the payload of the interval. -/
theorem read_video_interval_spec (index_entry : VideoIndexEntry) (intervals : VideoIntervals)
    (row_list : List DecodeArgs) (i : Nat) (iv : Nat × Nat) (frames : List Int)
    (hiv : intervals.keyframe_index_intervals[i]? = some iv)
    (hfr : intervals.valid_frames[i]? = some frames)
    (h1 : iv.1 < iv.2) (h2 : iv.2 < index_entry.keyframe_positions.length)
    (hbl : index_entry.keyframe_byte_offsets.length = index_entry.keyframe_positions.length)
    (hbs : index_entry.keyframe_byte_offsets.Sorted (· ≤ ·))
    (hb0 : ∀ b ∈ index_entry.keyframe_byte_offsets, 0 ≤ b)
    (hbf : ∀ b ∈ index_entry.keyframe_byte_offsets, b ≤ index_entry.file.length)
    (hfile : index_entry.file.length < 2 ^ 63) :
    read_video_interval index_entry intervals row_list i =
      some (row_list ++ [decode_payload index_entry iv frames]) := by
  obtain ⟨s, e⟩ := iv
  dsimp only at h1 h2
  have hs : s < index_entry.keyframe_byte_offsets.length := by omega
  have he : e < index_entry.keyframe_byte_offsets.length := by omega
  have hsmem : index_entry.keyframe_byte_offsets.getD s 0 ∈
      index_entry.keyframe_byte_offsets := by
    rw [List.getD_eq_getElem _ 0 hs]
    exact List.getElem_mem hs
  have hemem : index_entry.keyframe_byte_offsets.getD e 0 ∈
      index_entry.keyframe_byte_offsets := by
    rw [List.getD_eq_getElem _ 0 he]
    exact List.getElem_mem he
  have hse : index_entry.keyframe_byte_offsets.getD s 0 ≤
      index_entry.keyframe_byte_offsets.getD e 0 := by
    rw [List.getD_eq_getElem _ 0 hs, List.getD_eq_getElem _ 0 he]
    exact List.pairwise_iff_getElem.1 hbs s e hs he h1
  have hcount : e + 1 - s = e - s + 1 := by omega
  have hrest : ∀ b ∈ (index_entry.keyframe_byte_offsets.drop s).take (e - s + 1),
      index_entry.keyframe_byte_offsets.getD s 0 ≤ b ∧ b ≤ index_entry.file.length := by
    intro b hb
    have hb1 : b ∈ index_entry.keyframe_byte_offsets.drop s := List.mem_of_mem_take hb
    refine ⟨?_, hbf b (List.mem_of_mem_drop hb1)⟩
    have hp : (index_entry.keyframe_byte_offsets.drop s).Pairwise (· ≤ ·) :=
      List.Pairwise.sublist (List.drop_sublist s _) hbs
    rw [List.drop_eq_getElem_cons hs] at hp hb1
    rw [List.getD_eq_getElem _ 0 hs]
    rcases List.mem_cons.1 hb1 with h | h
    · rw [h]
    · exact (List.pairwise_cons.1 hp).1 b h
  obtain ⟨hu1, hu2, _⟩ := u64_offset_diff (index_entry.keyframe_byte_offsets.getD s 0)
    (index_entry.keyframe_byte_offsets.getD e 0) index_entry.file.length (hb0 _ hsmem) hse
    (hbf _ hemem) hfile
  have hmap : ((index_entry.keyframe_byte_offsets.drop s).take (e - s + 1)).map (fun b =>
      to_i64 ((to_u64 b + u64_mod - to_u64 (index_entry.keyframe_byte_offsets.getD s 0)) %
        u64_mod)) =
      ((index_entry.keyframe_byte_offsets.drop s).take (e - s + 1)).map (fun b =>
        b - index_entry.keyframe_byte_offsets.getD s 0) := by
    apply List.map_congr_left
    intro b hb
    exact (u64_offset_diff _ b index_entry.file.length (hb0 _ hsmem) (hrest b hb).1
      (hrest b hb).2 hfile).2.2
  have hread : s_read index_entry.file
      (index_entry.keyframe_byte_offsets.getD e 0 -
        index_entry.keyframe_byte_offsets.getD s 0).toNat
      (index_entry.keyframe_byte_offsets.getD s 0).toNat =
      some ((index_entry.file.drop (index_entry.keyframe_byte_offsets.getD s 0).toNat).take
          (index_entry.keyframe_byte_offsets.getD e 0 -
            index_entry.keyframe_byte_offsets.getD s 0).toNat,
        (index_entry.keyframe_byte_offsets.getD s 0).toNat +
          (index_entry.keyframe_byte_offsets.getD e 0 -
            index_entry.keyframe_byte_offsets.getD s 0).toNat) := by
    unfold s_read
    have h0 := hb0 _ hsmem
    have hf := hbf _ hemem
    rw [if_pos (by omega)]
  unfold read_video_interval
  rw [hiv]
  dsimp only
  rw [getElem?_eq_some_getD _ s hs, getElem?_eq_some_getD _ e he,
    getElem?_eq_some_getD _ s (by omega), getElem?_eq_some_getD _ e h2]
  dsimp only
  rw [hcount, read_range_eq _ _ _ (by omega), read_range_eq _ _ _ (by omega)]
  dsimp only
  rw [hu2, hmap, hu1, hread]
  dsimp only
  rw [hfr]
  rfl

/-- On valid input the two arrays of `slice_into_video_intervals` have the same length and
every interval `(s, e)` has `s < e < keyframe_positions.size()`. -/
theorem slice_into_video_intervals_bounds (kp rows : List Int) (hlen : 2 ≤ kp.length)
    (hs : kp.Sorted (· < ·)) (hasc : rows.Sorted (· ≤ ·))
    (hrange : ∀ r ∈ rows, kp.getD 0 0 ≤ r ∧ r < kp.getD (kp.length - 1) 0) :
    ∃ info, slice_into_video_intervals kp rows = some info ∧
      info.keyframe_index_intervals.length = info.valid_frames.length ∧
      ∀ iv ∈ info.keyframe_index_intervals, iv.1 < iv.2 ∧ iv.2 < kp.length := by
  obtain ⟨st, hinv, hres⟩ := slice_into_video_intervals_inv kp rows hlen hs hasc hrange
  refine ⟨_, hres, ?_, ?_⟩
  · simp only [VideoIntervals.emit, List.length_append, List.length_singleton]
    rw [hinv.emitted.length_eq]
  · intro iv hmem
    simp only [VideoIntervals.emit] at hmem
    rcases List.mem_append.1 hmem with h | h
    · exact forall₂_left_of_imp (P := fun (a : Nat × Nat) => a.1 < a.2 ∧ a.2 < kp.length)
        (fun a b hab => ⟨hab.1, hab.2.1⟩) _ _ hinv.emitted iv h
    · have hiv : iv = (st.start_keyframe_index, st.end_keyframe_index) := by simpa using h
      rw [hiv]
      exact ⟨hinv.start_lt_end, hinv.end_lt_size⟩

/-- The loop of `read_video_column` over the first `n` intervals appends their payloads. -/
theorem read_video_loop (index_entry : VideoIndexEntry) (intervals : VideoIntervals)
    (row_list : List DecodeArgs)
    (hsame : intervals.keyframe_index_intervals.length = intervals.valid_frames.length)
    (hall : ∀ iv ∈ intervals.keyframe_index_intervals,
      iv.1 < iv.2 ∧ iv.2 < index_entry.keyframe_positions.length)
    (hbl : index_entry.keyframe_byte_offsets.length = index_entry.keyframe_positions.length)
    (hbs : index_entry.keyframe_byte_offsets.Sorted (· ≤ ·))
    (hb0 : ∀ b ∈ index_entry.keyframe_byte_offsets, 0 ≤ b)
    (hbf : ∀ b ∈ index_entry.keyframe_byte_offsets, b ≤ index_entry.file.length)
    (hfile : index_entry.file.length < 2 ^ 63) :
    ∀ n, n ≤ intervals.keyframe_index_intervals.length →
      (List.range n).foldlM (read_video_interval index_entry intervals) row_list =
        some (row_list ++ (List.zipWith (decode_payload index_entry)
          intervals.keyframe_index_intervals intervals.valid_frames).take n)
  | 0, _ => by simp
  | n + 1, hn => by
    have hn1 : n < intervals.keyframe_index_intervals.length := by omega
    have hn2 : n < intervals.valid_frames.length := by omega
    have hiv : intervals.keyframe_index_intervals[n]? =
        some (intervals.keyframe_index_intervals[n]) := List.getElem?_eq_getElem hn1
    have hfr : intervals.valid_frames[n]? = some (intervals.valid_frames[n]) :=
      List.getElem?_eq_getElem hn2
    have hb := hall _ (List.getElem_mem hn1)
    have hstep := read_video_interval_spec index_entry intervals
      (row_list ++ (List.zipWith (decode_payload index_entry)
        intervals.keyframe_index_intervals intervals.valid_frames).take n)
      n _ _ hiv hfr hb.1 hb.2 hbl hbs hb0 hbf hfile
    rw [List.range_succ, List.foldlM_append,
      read_video_loop index_entry intervals row_list hsame hall hbl hbs hb0 hbf hfile n
        (by omega)]
    simp only [Option.bind_eq_bind, Option.some_bind, List.foldlM_cons, List.foldlM_nil]
    rw [hstep]
    simp only [Option.some_bind, Option.pure_def, List.take_succ,
      List.getElem?_zipWith', hiv, hfr, Option.map_some', Option.some_bind, Option.toList,
      List.append_assoc]

/-- The entries of the payload of an interval within a well-formed index: keyframe `j` of
the payload is keyframe `s + j` of the index, its byte offset is taken relative to that of
keyframe `s`, both lists have `e - s + 1` entries, and the encoded bytes are as many as lie
between the byte offsets of the keyframes `s` and `e`. -/
theorem decode_payload_entries (index_entry : VideoIndexEntry) (iv : Nat × Nat)
    (frames : List Int) (h1 : iv.1 < iv.2)
    (h2 : iv.2 < index_entry.keyframe_positions.length)
    (hbl : index_entry.keyframe_byte_offsets.length = index_entry.keyframe_positions.length)
    (hbs : index_entry.keyframe_byte_offsets.Sorted (· ≤ ·))
    (hb0 : ∀ b ∈ index_entry.keyframe_byte_offsets, 0 ≤ b)
    (hbf : ∀ b ∈ index_entry.keyframe_byte_offsets, b ≤ index_entry.file.length) :
    (decode_payload index_entry iv frames).keyframes.length = iv.2 - iv.1 + 1 ∧
      (decode_payload index_entry iv frames).keyframe_byte_offsets.length = iv.2 - iv.1 + 1 ∧
      (∀ j, j ≤ iv.2 - iv.1 → (decode_payload index_entry iv frames).keyframes[j]? =
        some (index_entry.keyframe_positions.getD (iv.1 + j) 0)) ∧
      (∀ j, j ≤ iv.2 - iv.1 →
        (decode_payload index_entry iv frames).keyframe_byte_offsets[j]? =
          some (index_entry.keyframe_byte_offsets.getD (iv.1 + j) 0 -
            index_entry.keyframe_byte_offsets.getD iv.1 0)) ∧
      ((decode_payload index_entry iv frames).encoded_video.length : Int) =
        index_entry.keyframe_byte_offsets.getD iv.2 0 -
          index_entry.keyframe_byte_offsets.getD iv.1 0 := by
  obtain ⟨s, e⟩ := iv
  dsimp only at h1 h2
  have hs : s < index_entry.keyframe_byte_offsets.length := by omega
  have he : e < index_entry.keyframe_byte_offsets.length := by omega
  have hsmem : index_entry.keyframe_byte_offsets.getD s 0 ∈
      index_entry.keyframe_byte_offsets := by
    rw [List.getD_eq_getElem _ 0 hs]
    exact List.getElem_mem hs
  have hemem : index_entry.keyframe_byte_offsets.getD e 0 ∈
      index_entry.keyframe_byte_offsets := by
    rw [List.getD_eq_getElem _ 0 he]
    exact List.getElem_mem he
  have hse : index_entry.keyframe_byte_offsets.getD s 0 ≤
      index_entry.keyframe_byte_offsets.getD e 0 := by
    rw [List.getD_eq_getElem _ 0 hs, List.getD_eq_getElem _ 0 he]
    exact List.pairwise_iff_getElem.1 hbs s e hs he h1
  have h0 := hb0 _ hsmem
  have hf := hbf _ hemem
  unfold decode_payload
  dsimp only
  refine ⟨?_, ?_, ?_, ?_, ?_⟩
  · rw [List.length_take, List.length_drop]
    omega
  · rw [List.length_map, List.length_take, List.length_drop]
    omega
  · intro j hj
    rw [List.getElem?_take_of_lt (by omega), List.getElem?_drop,
      getElem?_eq_some_getD _ (s + j) (by omega)]
  · intro j hj
    rw [List.getElem?_map, List.getElem?_take_of_lt (by omega), List.getElem?_drop,
      getElem?_eq_some_getD _ (s + j) (by omega)]
    rfl
  · rw [List.length_take, List.length_drop]
    omega

/-- C22 (decode payload of `read_video_column`): for a video index entry whose byte offsets
are as many as its keyframe positions, ascending, non-negative and within the file (the file
being smaller than `2 ^ 63` bytes), and for valid input of `slice_into_video_intervals`
(at least two strictly ascending keyframe positions, ascending rows within them), the call
returns and appends exactly one row per interval `(s, e)`, in order, the row of interval `k`
being the payload of `(s, e)` with the frames `valid_frames[k]`: `start_keyframe` and
`end_keyframe` are `keyframe_positions[s]` and `keyframe_positions[e]`, `keyframes` holds the
`e - s + 1` positions `keyframe_positions[s..e]`, `keyframe_byte_offsets[j]` is
`keyframe_byte_offsets[s + j] - keyframe_byte_offsets[s]`, so that the first is 0 and the last
is the length of the encoded buffer, `keyframe_byte_offsets[e] - keyframe_byte_offsets[s]`,
and the encoded bytes are the file bytes from `keyframe_byte_offsets[s]` up to
`keyframe_byte_offsets[e]`. -/
theorem read_video_column_payload (index_entry : VideoIndexEntry) (rows : List Int)
    (row_list : List DecodeArgs) (hlen : 2 ≤ index_entry.keyframe_positions.length)
    (hs : index_entry.keyframe_positions.Sorted (· < ·)) (hasc : rows.Sorted (· ≤ ·))
    (hrange : ∀ r ∈ rows, index_entry.keyframe_positions.getD 0 0 ≤ r ∧
      r < index_entry.keyframe_positions.getD (index_entry.keyframe_positions.length - 1) 0)
    (hbl : index_entry.keyframe_byte_offsets.length = index_entry.keyframe_positions.length)
    (hbs : index_entry.keyframe_byte_offsets.Sorted (· ≤ ·))
    (hb0 : ∀ b ∈ index_entry.keyframe_byte_offsets, 0 ≤ b)
    (hbf : ∀ b ∈ index_entry.keyframe_byte_offsets, b ≤ index_entry.file.length)
    (hfile : index_entry.file.length < 2 ^ 63) :
    ∃ info, slice_into_video_intervals index_entry.keyframe_positions rows = some info ∧
      info.keyframe_index_intervals.length = info.valid_frames.length ∧
      read_video_column index_entry rows row_list =
        some (row_list ++ List.zipWith (decode_payload index_entry)
          info.keyframe_index_intervals info.valid_frames) ∧
      (List.zipWith (decode_payload index_entry) info.keyframe_index_intervals
        info.valid_frames).length = info.keyframe_index_intervals.length ∧
      ∀ iv ∈ info.keyframe_index_intervals, ∀ frames : List Int,
        (decode_payload index_entry iv frames).start_keyframe =
            index_entry.keyframe_positions.getD iv.1 0 ∧
          (decode_payload index_entry iv frames).end_keyframe =
            index_entry.keyframe_positions.getD iv.2 0 ∧
          (decode_payload index_entry iv frames).valid_frames = frames ∧
          (decode_payload index_entry iv frames).keyframes.length = iv.2 - iv.1 + 1 ∧
          (decode_payload index_entry iv frames).keyframe_byte_offsets.length =
            iv.2 - iv.1 + 1 ∧
          (∀ j, j ≤ iv.2 - iv.1 → (decode_payload index_entry iv frames).keyframes[j]? =
            some (index_entry.keyframe_positions.getD (iv.1 + j) 0)) ∧
          (∀ j, j ≤ iv.2 - iv.1 →
            (decode_payload index_entry iv frames).keyframe_byte_offsets[j]? =
              some (index_entry.keyframe_byte_offsets.getD (iv.1 + j) 0 -
                index_entry.keyframe_byte_offsets.getD iv.1 0)) ∧
          (decode_payload index_entry iv frames).keyframe_byte_offsets.head? = some 0 ∧
          (decode_payload index_entry iv frames).keyframe_byte_offsets.getLast? =
            some ((decode_payload index_entry iv frames).encoded_video.length : Int) ∧
          ((decode_payload index_entry iv frames).encoded_video.length : Int) =
            index_entry.keyframe_byte_offsets.getD iv.2 0 -
              index_entry.keyframe_byte_offsets.getD iv.1 0 ∧
          (decode_payload index_entry iv frames).encoded_video =
            (index_entry.file.drop (index_entry.keyframe_byte_offsets.getD iv.1 0).toNat).take
              (index_entry.keyframe_byte_offsets.getD iv.2 0 -
                index_entry.keyframe_byte_offsets.getD iv.1 0).toNat := by
  obtain ⟨info, hslice, hsame, hall⟩ :=
    slice_into_video_intervals_bounds index_entry.keyframe_positions rows hlen hs hasc hrange
  refine ⟨info, hslice, hsame, ?_, ?_, ?_⟩
  · unfold read_video_column
    rw [hslice]
    dsimp only
    rw [read_video_loop index_entry info row_list hsame hall hbl hbs hb0 hbf hfile _
      (Nat.le_refl _)]
    congr 2
    apply List.take_of_length_le
    rw [List.length_zipWith]
    omega
  · rw [List.length_zipWith, hsame, Nat.min_self]
  · intro iv hiv frames
    obtain ⟨hb1, hb2⟩ := hall iv hiv
    obtain ⟨e1, e2, e3, e4, e5⟩ :=
      decode_payload_entries index_entry iv frames hb1 hb2 hbl hbs hb0 hbf
    refine ⟨rfl, rfl, rfl, e1, e2, e3, e4, ?_, ?_, e5, rfl⟩
    · rw [List.head?_eq_getElem?, e4 0 (Nat.zero_le _), Nat.add_zero, Int.sub_self]
    · rw [List.getLast?_eq_getElem?, e2, Nat.add_sub_cancel, e4 _ (Nat.le_refl _), e5]
      congr 3
      omega

/-- Instance of C22: a video of 100 frames with keyframes at 0, 30, 60, 90 in a file of 40
bytes, and the requested frames 5 and 95. -/
theorem read_video_column_payload_witness :
    read_video_column small_video [5, 95] [] =
        some [{ width := 640, height := 480, start_keyframe := 0, end_keyframe := 30
                keyframes := [0, 30], keyframe_byte_offsets := [0, 12], valid_frames := [5]
                encoded_video := [0, 1, 2, 3, 4, 5, 6, 7, 8, 9, 10, 11] },
              { width := 640, height := 480, start_keyframe := 90, end_keyframe := 100
                keyframes := [90, 100], keyframe_byte_offsets := [0, 7], valid_frames := [95]
                encoded_video := [33, 34, 35, 36, 37, 38, 39] }] ∧
      ∃ info, slice_into_video_intervals small_video.keyframe_positions [5, 95] = some info ∧
        info.keyframe_index_intervals.length = info.valid_frames.length ∧
        read_video_column small_video [5, 95] [] =
          some ([] ++ List.zipWith (decode_payload small_video)
            info.keyframe_index_intervals info.valid_frames) ∧
        (List.zipWith (decode_payload small_video) info.keyframe_index_intervals
          info.valid_frames).length = info.keyframe_index_intervals.length ∧
        ∀ iv ∈ info.keyframe_index_intervals, ∀ frames : List Int,
          (decode_payload small_video iv frames).start_keyframe =
              small_video.keyframe_positions.getD iv.1 0 ∧
            (decode_payload small_video iv frames).end_keyframe =
              small_video.keyframe_positions.getD iv.2 0 ∧
            (decode_payload small_video iv frames).valid_frames = frames ∧
            (decode_payload small_video iv frames).keyframes.length = iv.2 - iv.1 + 1 ∧
            (decode_payload small_video iv frames).keyframe_byte_offsets.length =
              iv.2 - iv.1 + 1 ∧
            (∀ j, j ≤ iv.2 - iv.1 → (decode_payload small_video iv frames).keyframes[j]? =
              some (small_video.keyframe_positions.getD (iv.1 + j) 0)) ∧
            (∀ j, j ≤ iv.2 - iv.1 →
              (decode_payload small_video iv frames).keyframe_byte_offsets[j]? =
                some (small_video.keyframe_byte_offsets.getD (iv.1 + j) 0 -
                  small_video.keyframe_byte_offsets.getD iv.1 0)) ∧
            (decode_payload small_video iv frames).keyframe_byte_offsets.head? = some 0 ∧
            (decode_payload small_video iv frames).keyframe_byte_offsets.getLast? =
              some ((decode_payload small_video iv frames).encoded_video.length : Int) ∧
            ((decode_payload small_video iv frames).encoded_video.length : Int) =
              small_video.keyframe_byte_offsets.getD iv.2 0 -
                small_video.keyframe_byte_offsets.getD iv.1 0 ∧
            (decode_payload small_video iv frames).encoded_video =
              (small_video.file.drop (small_video.keyframe_byte_offsets.getD iv.1 0).toNat).take
                (small_video.keyframe_byte_offsets.getD iv.2 0 -
                  small_video.keyframe_byte_offsets.getD iv.1 0).toNat :=
  ⟨by decide,
    read_video_column_payload small_video [5, 95] [] (by decide) (by decide) (by decide)
      (by decide) (by decide) (by decide) (by decide) (by decide) (by decide)⟩

/-! ## `NextWork` in parts, and a reply that arrives during a call -/

/-- The statements of a `NextWork` call that starts a task, run without interruption, are
the call. -/
theorem NextWork_in_parts (tasks : List TaskSampler) (s : MasterState)
    (hleft : s.samples_left ≤ 0)
    (hcond : s.next_task < s.num_tasks ∧ s.task_result = true) :
    NextWork tasks s =
      ((NextWork_reset_sampler tasks s).bind NextWork_count_task).bind NextWork_hand_out := by
  unfold NextWork NextWork_select_task NextWork_reset_sampler
  rw [if_pos hleft, if_pos hcond]
  cases get_at tasks s.next_task with
  | none => rfl
  | some sampler =>
    simp only [Option.some_bind]
    unfold NextWork_count_task
    by_cases hv : sampler.validate = true
    · rw [if_pos hv, if_pos hv]
      rfl
    · rw [if_neg hv, if_neg hv]
      rfl

/-- Without a task to start, `NextWork` is the sentinel or the part after the first
block. -/
theorem NextWork_without_start (tasks : List TaskSampler) (s : MasterState)
    (h : 0 < s.samples_left ∨ ¬(s.next_task < s.num_tasks ∧ s.task_result = true)) :
    NextWork tasks s =
      if s.samples_left ≤ 0 then some (s, -1) else NextWork_hand_out s := by
  unfold NextWork NextWork_select_task NextWork_hand_out
  by_cases hleft : s.samples_left ≤ 0
  · rw [if_pos hleft, if_pos hleft]
    rcases h with h | h
    · omega
    · rw [if_neg h]
  · rw [if_neg hleft, if_neg hleft]

/-- C17 (fast drain after a worker failure), evaluated on a job of two tasks of three units
each, in the state where the units of the first task are handed out (`samples_left = 0`,
`next_task = 1`).  A `NextWork` call tests `samples_left_ <= 0` and `next_task_ < num_tasks_`
and builds and validates the sampler of the second task; then the reply loop of `NewJob`,
which takes no lock, receives a non-success reply and sets `next_task_ = num_tasks_ = 2`
while `samples_left` is 0; the call goes on, sets `samples_left = 3` and `next_task = 3`
and returns unit 0; the next three calls return the units 1 and 2 and the sentinel.  Three
units are handed out after the write, and with a successful `task_result_` `next_task_` is 3,
not `num_tasks_`, against `assert(next_task_ == num_tasks_)` at the end of `NewJob`.  When
the write falls right after the tests, the call reads `tasks(2)`, outside the task list. -/
theorem NextWork_drain_with_reply_during_call :
    (first_task_done_state.samples_left ≤ 0 ∧
        first_task_done_state.next_task < first_task_done_state.num_tasks ∧
        first_task_done_state.task_result = true) ∧
      ((NextWork_reset_sampler [three_unit_sampler, three_unit_sampler]
          first_task_done_state).map
        (fun s1 => (NewJob_collect_replies [⟨false, "worker down"⟩] (s1, ⟨true, ""⟩)))).map
        (fun p => (p.1.next_task, p.1.samples_left, p.1.task_result, p.2)) =
        some (2, 0, true, ⟨false, "worker down"⟩) ∧
      ((((NextWork_reset_sampler [three_unit_sampler, three_unit_sampler]
            first_task_done_state).map
          (fun s1 => (NewJob_collect_replies [⟨false, "worker down"⟩]
            (s1, ⟨true, ""⟩)).1)).bind NextWork_count_task).bind NextWork_hand_out).map
        (fun q => (q.2, q.1.next_task, q.1.samples_left, q.1.num_tasks)) =
        some (0, 3, 2, 2) ∧
      (((((NextWork_reset_sampler [three_unit_sampler, three_unit_sampler]
              first_task_done_state).map
            (fun s1 => (NewJob_collect_replies [⟨false, "worker down"⟩]
              (s1, ⟨true, ""⟩)).1)).bind NextWork_count_task).bind NextWork_hand_out).bind
          (fun q => NextWork_calls [three_unit_sampler, three_unit_sampler] 3 q.1)).map
        (fun p => (p.2, p.1.next_task, p.1.num_tasks, p.1.samples_left, p.1.task_result)) =
        some ([1, 2, -1], 3, 2, 0, true) ∧
      (NextWork_reset_sampler [three_unit_sampler, three_unit_sampler]
        (NewJob_collect_replies [⟨false, "worker down"⟩]
          (first_task_done_state, ⟨true, ""⟩)).1).isNone = true := by
  decide

/-! ## Claim on the intervals of a table of three items -/

/-- C4 (row-interval contiguity), evaluated on a table of three items with
`end_rows = [3, 7, 10]` and `rows = [1, 5, 8]`: the runs are `[1]`, `[5]`, `[8]`; row 8 is
row `8 - 7 = 1` of item 2, so the interval of the third run is `(1, 2)`, and the code stores
`(-2, -1)`, which lies outside the item, with the offset `-2`.  The stored offsets do lie
within the stored intervals. -/
theorem row_interval_contiguity_three_items :
    slice_into_row_intervals [3, 7, 10] [1, 5, 8] =
        some ⟨[0, 1, 2], [(1, 2), (2, 3), (-2, -1)], [[1], [2], [-2]]⟩ ∧
      row_runs [3, 7, 10] [1, 5, 8] = [[1], [5], [8]] ∧
      (row_runs [3, 7, 10] [1, 5, 8]).map (run_item [3, 7, 10]) = [0, 1, 2] ∧
      (row_runs [3, 7, 10] [1, 5, 8]).map (item_row_interval [3, 7, 10]) =
        [(1, 2), (2, 3), (1, 2)] ∧
      item_first_row [3, 7, 10] 2 = 7 := by
  decide

/-! ## Claim on the extraction loop as `load_thread` calls it -/

/-- The first `NextWork` call of a job whose only task fails `validate()`: the sentinel, the
failure on record, and `samples_left`, `next_task` and `total_samples_used` as before. -/
theorem NextWork_validate_failure_keeps_counters :
    (NextWork [rejecting_sampler] (NewJob_state [rejecting_sampler] none)).map
        (fun p => (p.2, p.1.task_result, p.1.samples_left, p.1.next_task,
          p.1.total_samples_used)) = some (-1, false, 0, 0, 0) ∧
      (rejected_state.task_result, rejected_state.samples_left, rejected_state.next_task,
        rejected_state.total_samples_used) = (false, 0, 0, 0) := by
  decide

end scanner
